import Mathlib

/-!
# Alternating disks and exhaustive longest increasing subsequence

A shallow embedding of `alternating-disks/disks.hpp` and
`exhaustive-longest-increasing-sequence/subsequence.hpp`.

Conventions of the embedding:

* `std::vector` is a `List`, and allocating one never fails; a failed `assert`, an access
  through `operator[]` outside the vector, or an exception of `at` is a fault: `none` for
  the disk rows, `outcome.out_of_range` for the subsequence search.
* `size_t` is a 64-bit and `unsigned` a 32-bit machine integer; they are natural numbers with
  an explicit reduction modulo `SIZE_MOD` or `UNSIGNED_MOD` wherever the C++ arithmetic can
  wrap.
* a `for` loop whose bounds are fixed on entry is a structural recursion on its trip count;
  the `while (true)` loop of the subsequence search takes a fuel argument, and running out
  of fuel is an outcome of its own.

The definitions of the two headers come first, then the auxiliary definitions used to state
loop invariants, then the theorems.
-/

/-- Number of values of a `size_t` (64 bits). -/
def SIZE_MOD : Nat := 18446744073709551616

/-- Number of values of an `unsigned` (32 bits). -/
def UNSIGNED_MOD : Nat := 4294967296

/-- Subtraction of two `size_t` values, wrapping modulo `SIZE_MOD`. -/
def size_sub (a b : Nat) : Nat :=
  if b % SIZE_MOD ≤ a % SIZE_MOD then a % SIZE_MOD - b % SIZE_MOD
  else a % SIZE_MOD + SIZE_MOD - b % SIZE_MOD

/-- Addition of two `size_t` values, wrapping modulo `SIZE_MOD`. -/
def size_add (a b : Nat) : Nat := (a + b) % SIZE_MOD

namespace Disks

/-- State of one disk, either light or dark. -/
inductive disk_color
  | DISK_LIGHT
  | DISK_DARK
  deriving DecidableEq, Repr

open disk_color

/-- Data structure for the state of one row of disks: the vector `_colors`. -/
structure disk_state where
  colors : List disk_color
  deriving DecidableEq, Repr

/-- The constructor's loop `for (i = 0; i < _colors.size(); i += 2) _colors[i] = DISK_DARK`,
with `cnt` the number of iterations left. -/
def ctor_loop : Nat → Nat → List disk_color → List disk_color
  | 0, _, cs => cs
  | cnt + 1, i, cs => ctor_loop cnt (i + 2) (cs.set i DISK_DARK)

/-- The constructor `disk_state(size_t light_count)`: a vector of
`light_count * 2` (a `size_t` product) light disks, `assert(light_count > 0)`,
then every even index is set to dark. -/
def disk_state.new (light_count : Nat) : Option disk_state :=
  let size := (light_count * 2) % SIZE_MOD
  let colors := List.replicate size DISK_LIGHT
  if light_count > 0 then
    some ⟨ctor_loop ((size + 1) / 2) 0 colors⟩
  else
    none

namespace disk_state

def total_count (s : disk_state) : Nat := s.colors.length

def light_count (s : disk_state) : Nat := s.total_count / 2

def dark_count (s : disk_state) : Nat := s.light_count

def is_index (s : disk_state) (i : Nat) : Bool := decide (i < s.total_count)

/-- Read one disk: `assert(is_index(index)); return _colors[index];`. -/
def get (s : disk_state) (index : Nat) : Option disk_color :=
  if s.is_index index then s.colors[index]? else none

/-- Swap the disks at `left_index` and `left_index + 1`; both asserts of the source. -/
def swap (s : disk_state) (left_index : Nat) : Option disk_state :=
  if s.is_index left_index then
    let right_index := (left_index + 1) % SIZE_MOD
    if s.is_index right_index then
      match s.colors[left_index]?, s.colors[right_index]? with
      | some a, some b => some ⟨(s.colors.set left_index b).set right_index a⟩
      | _, _ => none
    else none
  else none

/-- The loop of `is_alternating`; `_colors[j + 1]` is read only when
`_colors[j]` is light, and a read outside the vector is a fault. -/
def is_alternating_loop : Nat → Nat → List disk_color → Option Bool
  | 0, _, _ => some true
  | cnt + 1, j, cs =>
    match cs[j]? with
    | none => none
    | some a =>
      if a = DISK_LIGHT then
        match cs[j + 1]? with
        | none => none
        | some b => if b = DISK_DARK then some false else is_alternating_loop cnt (j + 2) cs
      else is_alternating_loop cnt (j + 2) cs

def is_alternating (s : disk_state) : Option Bool :=
  if s.colors.isEmpty || s.total_count < 2 then some false
  else is_alternating_loop ((s.total_count + 1) / 2) 0 s.colors

/-- First loop of `is_sorted`: indices `i .. i + cnt - 1` must be light. Returns
the final value of `i` when the loop runs to its end, `none` inside `some` on
`return false`. -/
def is_sorted_light : Nat → Nat → List disk_color → Option (Option Nat)
  | 0, i, _ => some (some i)
  | cnt + 1, i, cs =>
    match cs[i]? with
    | none => none
    | some a => if a ≠ DISK_LIGHT then some none else is_sorted_light cnt (i + 1) cs

/-- Second loop of `is_sorted`: indices `j .. j + cnt - 1` must be dark. -/
def is_sorted_dark : Nat → Nat → List disk_color → Option Bool
  | 0, _, _ => some true
  | cnt + 1, j, cs =>
    match cs[j]? with
    | none => none
    | some a => if a ≠ DISK_DARK then some false else is_sorted_dark cnt (j + 1) cs

def is_sorted (s : disk_state) : Option Bool :=
  if s.colors.isEmpty || s.total_count < 2 then some true
  else
    match is_sorted_light (s.total_count / 2) 0 s.colors with
    | none => none
    | some none => some false
    | some (some i) => is_sorted_dark (s.total_count - i) i s.colors

end disk_state

/-- Output of the alternating disks problem: the final row and the number of swaps. -/
structure sorted_disks where
  after : disk_state
  swap_count : Nat
  deriving DecidableEq, Repr

/-- One forward pass `for (j = ...; j < bound; j++)` shared by both sorts: a dark
disk directly left of a light one is swapped with it. `cnt` is the trip count. -/
def forward_pass : Nat → Nat → disk_state → Nat → Option (disk_state × Nat)
  | 0, _, sorted, swaps => some (sorted, swaps)
  | cnt + 1, j, sorted, swaps =>
    match sorted.get j with
    | none => none
    | some a =>
      if a = DISK_DARK then
        match sorted.get (j + 1) with
        | none => none
        | some b =>
          if b = DISK_LIGHT then
            match sorted.swap j with
            | none => none
            | some sorted1 => forward_pass cnt (j + 1) sorted1 ((swaps + 1) % UNSIGNED_MOD)
          else forward_pass cnt (j + 1) sorted swaps
      else forward_pass cnt (j + 1) sorted swaps

/-- The bound `2*n-i-1` of the inner loops: `2*n` is an `unsigned` product, the
subtractions are done in `size_t`. -/
def pass_bound (n i : Nat) : Nat := size_sub (size_sub ((2 * n) % UNSIGNED_MOD) i) 1

/-- Outer loop of `sort_left_to_right`, `cnt` iterations left, current index `i`. -/
def left_to_right_loop (n : Nat) : Nat → Nat → disk_state → Nat → Option (disk_state × Nat)
  | 0, _, sorted, swaps => some (sorted, swaps)
  | cnt + 1, i, sorted, swaps =>
    match forward_pass (pass_bound n i - i) i sorted swaps with
    | none => none
    | some (sorted1, swaps1) => left_to_right_loop n cnt (i + 1) sorted1 swaps1

/-- Algorithm that sorts disks using the left-to-right algorithm. -/
def sort_left_to_right (before : disk_state) : Option sorted_disks :=
  let n := (before.total_count / 2) % UNSIGNED_MOD
  match left_to_right_loop n n 0 before 0 with
  | none => none
  | some (sorted, swaps) => some ⟨sorted, swaps⟩

/-- Backward pass `for (k = ...; k > 0; k--)` of the lawnmower: a light disk at `k`
directly right of a dark one is swapped with it. -/
def backward_pass : Nat → disk_state → Nat → Option (disk_state × Nat)
  | 0, sorted, swaps => some (sorted, swaps)
  | k + 1, sorted, swaps =>
    match sorted.get (k + 1) with
    | none => none
    | some a =>
      if a = DISK_LIGHT then
        match sorted.get k with
        | none => none
        | some b =>
          if b = DISK_DARK then
            match sorted.swap k with
            | none => none
            | some sorted1 => backward_pass k sorted1 ((swaps + 1) % UNSIGNED_MOD)
          else backward_pass k sorted swaps
      else backward_pass k sorted swaps

/-- Outer loop of `sort_lawnmower`, `cnt` round trips left, current index `i`. -/
def lawnmower_loop (n : Nat) : Nat → Nat → disk_state → Nat → Option (disk_state × Nat)
  | 0, _, sorted, swaps => some (sorted, swaps)
  | cnt + 1, i, sorted, swaps =>
    match forward_pass (pass_bound n i) 0 sorted swaps with
    | none => none
    | some (sorted1, swaps1) =>
      match backward_pass (pass_bound n i) sorted1 swaps1 with
      | none => none
      | some (sorted2, swaps2) => lawnmower_loop n cnt (i + 1) sorted2 swaps2

/-- Algorithm that sorts disks using the lawnmower algorithm. `ceil(n/2)` is
applied to the quotient of an `unsigned` division, so it is `n / 2`. -/
def sort_lawnmower (before : disk_state) : Option sorted_disks :=
  let n := (before.total_count / 2) % UNSIGNED_MOD
  let ceiling := n / 2
  match lawnmower_loop n (ceiling + 1) 0 before 0 with
  | none => none
  | some (sorted, swaps) => some ⟨sorted, swaps⟩

/-- The loop of the three-iterator `std::equal(first1, last1, first2)`: one element of the
second range is read for each element of the first, and reading past the end of the second
vector is a fault. -/
def equal_loop : List disk_color → List disk_color → Option Bool
  | [], _ => some true
  | _ :: _, [] => none
  | x :: xs, y :: ys => if x = y then equal_loop xs ys else some false

/-- Equality operator for unit tests:
`equal(_colors.begin(), _colors.end(), rhs._colors.begin())`. -/
def disk_state.operator_eq (s rhs : disk_state) : Option Bool :=
  equal_loop s.colors rhs.colors

end Disks

namespace Disks
open disk_color

/-- The row `a b a b ...` of `m` pairs. -/
def pairs (a b : disk_color) : Nat → List disk_color
  | 0 => []
  | m + 1 => a :: b :: pairs a b m

/-- One bubble pass over `x :: rest`, carrying the current element to the right: an
`a` directly left of a `b` is swapped with it. -/
def carry (a b : disk_color) : disk_color → List disk_color → List disk_color
  | x, [] => [x]
  | x, y :: rest => if x = a ∧ y = b then y :: carry a b x rest else x :: carry a b y rest

/-- Number of swaps done by `carry`. -/
def carry_swaps (a b : disk_color) : disk_color → List disk_color → Nat
  | _, [] => 0
  | x, y :: rest => if x = a ∧ y = b then carry_swaps a b x rest + 1 else carry_swaps a b y rest

/-- One bubble pass over a whole segment. -/
def bubble (a b : disk_color) : List disk_color → List disk_color
  | [] => []
  | x :: rest => carry a b x rest

/-- Number of swaps done by `bubble`. -/
def bubble_swaps (a b : disk_color) : List disk_color → Nat
  | [] => 0
  | x :: rest => carry_swaps a b x rest

/-- Number of pairs of positions `i < j` of the row holding `a` at `i` and `b` at `j`. -/
def inversions (a b : disk_color) : List disk_color → Nat
  | [] => 0
  | x :: rest => (if x = a then rest.count b else 0) + inversions a b rest

/-- The row `L^p (D L)^m D^q`. -/
def shape (p m q : Nat) : List disk_color :=
  List.replicate p DISK_LIGHT ++ (pairs DISK_DARK DISK_LIGHT m ++ List.replicate q DISK_DARK)

/-- A sequence of `swap` calls on a row, each at the given left index; `none` as soon as one
of them fails. -/
def apply_swaps : disk_state → List Nat → Option disk_state
  | s, [] => some s
  | s, i :: rest =>
    match s.swap i with
    | none => none
    | some s1 => apply_swaps s1 rest

/-- As the round trips are described: at position `j`, a dark disk that sits immediately left
of a light disk is swapped with it, and the swap is counted (in the 32-bit counter). -/
def described_step (st : List disk_color × Nat) (j : Nat) : List disk_color × Nat :=
  if st.1[j]? = some DISK_DARK ∧ st.1[j + 1]? = some DISK_LIGHT then
    ((st.1.set j DISK_LIGHT).set (j + 1) DISK_DARK, (st.2 + 1) % UNSIGNED_MOD)
  else st

/-- As described: round trip `i` on a row of `2N` disks is a forward pass over the positions
`0 .. 2N-i-2` followed by a backward pass from position `2N-i-1` down to 1, which looks at the
pairs `(k-1, k)`, that is at the left positions `2N-i-2` down to `0`. -/
def described_round_trip (N : Nat) (st : List disk_color × Nat) (i : Nat) :
    List disk_color × Nat :=
  let forward := (List.range (2 * N - i - 1)).foldl described_step st
  (List.range (2 * N - i - 1)).reverse.foldl described_step forward

/-- As described: the round trips `0, 1, ..., K-1`, one after the other. -/
def described_round_trips (N K : Nat) (st : List disk_color × Nat) : List disk_color × Nat :=
  (List.range K).foldl (described_round_trip N) st

/-- The row invariant for `N` pairs: the row has `2N` disks, exactly `N` of them light and
exactly `N` dark, and `light_count()` and `dark_count()` are these numbers. -/
def row_invariant (N : Nat) (r : disk_state) : Prop :=
  r.total_count = 2 * N
    ∧ r.colors.count DISK_LIGHT = N ∧ r.colors.count DISK_DARK = N
    ∧ r.light_count = r.colors.count DISK_LIGHT ∧ r.dark_count = r.colors.count DISK_DARK

end Disks

namespace Subsequence

/-- The type `sequence`, a `std::vector<int>`; the elements are only compared. -/
abbrev sequence := List Int

/-- How a run of `longest_increasing_powerset` ends: with a returned sequence, with an
access outside a vector, or with the fuel of the model used up. -/
inductive outcome
  | value (best : sequence)
  | out_of_range
  | out_of_fuel
  deriving DecidableEq, Repr

/-- The loop `for (i = 1; i < A.size(); ++i)` of `is_increasing`, `cnt` iterations left;
`A.at` throws outside the vector (`none`). -/
def is_increasing_loop : Nat → Nat → sequence → Option Bool
  | 0, _, _ => some true
  | cnt + 1, i, A =>
    match A[i - 1]?, A[i]? with
    | some x, some y => if ¬ (x < y) then some false else is_increasing_loop cnt (i + 1) A
    | _, _ => none

/-- Returns true if the sequence is in increasing order, false otherwise. -/
def is_increasing (A : sequence) : Option Bool :=
  is_increasing_loop (A.length - 1) 1 A

/-- The loop `for (i = 1; i <= k; ++i) candidate.push_back(A[stack[i] - 1])`, `cnt`
iterations left; `stack[i] - 1` is a `size_t` subtraction. -/
def build_candidate (A : sequence) (stack : List Nat) : Nat → Nat → sequence → Option sequence
  | 0, _, candidate => some candidate
  | cnt + 1, i, candidate =>
    match stack[i]? with
    | none => none
    | some s =>
      match A[size_sub s 1]? with
      | none => none
      | some a => build_candidate A stack cnt (i + 1) (candidate ++ [a])

/-- The first statement of the loop body: push `stack[k] + 1` when `stack[k] < n`, else
increment the parent and pop. Returns the new stack and the new `k`. -/
def advance (n : Nat) (stack : List Nat) (k : Nat) : Option (List Nat × Nat) :=
  match stack[k]? with
  | none => none
  | some top =>
    if top < n then
      if size_add k 1 < stack.length then
        some (stack.set (size_add k 1) (size_add top 1), size_add k 1)
      else none
    else
      match stack[size_sub k 1]? with
      | none => none
      | some parent => some (stack.set (size_sub k 1) (size_add parent 1), size_sub k 1)

/-- The `while (true)` loop of `longest_increasing_powerset`, with fuel. -/
def powerset_loop (A : sequence) (n : Nat) : Nat → List Nat → Nat → sequence → outcome
  | 0, _, _, _ => outcome.out_of_fuel
  | fuel + 1, stack, k, best =>
    match advance n stack k with
    | none => outcome.out_of_range
    | some (stack1, k1) =>
      if k1 = 0 then outcome.value best
      else
        match build_candidate A stack1 k1 1 [] with
        | none => outcome.out_of_range
        | some candidate =>
          match is_increasing candidate with
          | none => outcome.out_of_range
          | some increasing =>
            if increasing && decide (best.length < candidate.length) then
              powerset_loop A n fuel stack1 k1 candidate
            else
              powerset_loop A n fuel stack1 k1 best

/-- Finds a longest subsequence of `A` whose elements are in increasing order, by running
through the stack-encoded index selections. The loop makes `2 ^ n` iterations on a sequence
of length `n >= 1`, which is the fuel given to it. -/
def longest_increasing_powerset (A : sequence) : outcome :=
  let n := A.length
  powerset_loop A n (2 ^ n) (List.replicate (size_add n 1) 0) 0 []

/-- The `while (true)` loop of `longest_increasing_powerset` once more, this time recording
every candidate it builds, together with the stack entries `stack[1..k]` it is built from,
in the order of the iterations. The result is `none` on an access outside a vector or when
the fuel is used up, and the recorded list when the loop stops at `k == 0`. -/
def powerset_visits (A : sequence) (n : Nat) :
    Nat → List Nat → Nat → Option (List (List Nat × sequence))
  | 0, _, _ => none
  | fuel + 1, stack, k =>
    match advance n stack k with
    | none => none
    | some (stack1, k1) =>
      if k1 = 0 then some []
      else
        match build_candidate A stack1 k1 1 [] with
        | none => none
        | some candidate =>
          match powerset_visits A n fuel stack1 k1 with
          | none => none
          | some rest => some (((stack1.drop 1).take k1, candidate) :: rest)

end Subsequence

namespace Subsequence

/-- The values of `A` at the 1-based positions `p`, in that order. -/
def pick (A : sequence) (p : List Nat) : sequence :=
  p.map (fun s => A.getD (s - 1) 0)

/-- The update of `best` by one candidate: a strictly increasing candidate that is longer
than `best` replaces it. -/
def update (best candidate : sequence) : sequence :=
  if decide (candidate.Chain' (· < ·)) && decide (best.length < candidate.length) then candidate
  else best

/-- The position lists visited after the list `p ++ [m]`, up to the moment its last entry has
reached `n`: the proper extensions of `p ++ [m]`, then `p ++ [m + 1]` and its extensions, and
so on. The first argument is `n - m`. -/
def extensions : Nat → List Nat → Nat → List (List Nat)
  | 0, _, _ => []
  | d + 1, p, m =>
    (p ++ [m, m + 1]) :: (extensions d (p ++ [m]) (m + 1) ++ (p ++ [m + 1]) :: extensions d p (m + 1))

/-- All position lists visited on a sequence of length `n >= 1`, in the order of the visits. -/
def selections (n : Nat) : List (List Nat) :=
  [1] :: extensions (n - 1) [] 1

/-- The update of the best selection of positions by one selection: a selection whose
candidate is strictly increasing and longer replaces it. -/
def update_selection (A : sequence) (best p : List Nat) : List Nat :=
  if decide ((pick A p).Chain' (· < ·)) && decide (best.length < p.length) then p else best

end Subsequence

/-! ## Lists: reading and writing at the end of a prefix -/

theorem getElem?_append_cons {α : Type} (pre : List α) (x : α) (rest : List α) :
    (pre ++ x :: rest)[pre.length]? = some x := by
  induction pre with
  | nil => simp
  | cons p pre ih => simpa using ih

theorem getElem?_append_cons_succ {α : Type} (pre : List α) (x y : α) (rest : List α) :
    (pre ++ x :: y :: rest)[pre.length + 1]? = some y := by
  induction pre with
  | nil => simp
  | cons p pre ih => simpa using ih

theorem set_append_cons {α : Type} (pre : List α) (x z : α) (rest : List α) :
    (pre ++ x :: rest).set pre.length z = pre ++ z :: rest := by
  induction pre with
  | nil => simp
  | cons p pre ih => simp [ih]

theorem set_append_cons_succ {α : Type} (pre : List α) (x y z : α) (rest : List α) :
    (pre ++ x :: y :: rest).set (pre.length + 1) z = pre ++ x :: z :: rest := by
  induction pre with
  | nil => simp
  | cons p pre ih => simp [ih]

theorem replicate_append_cons {α : Type} (p : Nat) (x : α) (l : List α) :
    List.replicate p x ++ x :: l = x :: (List.replicate p x ++ l) := by
  induction p with
  | zero => rfl
  | succ p ih => simp [List.replicate_succ, ih]

namespace Disks
open disk_color

theorem get_append_cons (pre : List disk_color) (x : disk_color) (rest : List disk_color) :
    (disk_state.mk (pre ++ x :: rest)).get pre.length = some x := by
  unfold disk_state.get disk_state.is_index disk_state.total_count
  rw [if_pos (by simp)]
  exact getElem?_append_cons pre x rest

theorem get_append_cons_succ (pre : List disk_color) (x y : disk_color) (rest : List disk_color) :
    (disk_state.mk (pre ++ x :: y :: rest)).get (pre.length + 1) = some y := by
  unfold disk_state.get disk_state.is_index disk_state.total_count
  rw [if_pos (by simp)]
  exact getElem?_append_cons_succ pre x y rest

theorem swap_append_cons (pre : List disk_color) (x y : disk_color) (rest : List disk_color)
    (h : pre.length + 1 < SIZE_MOD) :
    (disk_state.mk (pre ++ x :: y :: rest)).swap pre.length
      = some ⟨pre ++ y :: x :: rest⟩ := by
  have hm : (pre.length + 1) % SIZE_MOD = pre.length + 1 := Nat.mod_eq_of_lt h
  unfold disk_state.swap disk_state.is_index disk_state.total_count
  rw [if_pos (by simp)]
  simp only [hm]
  rw [if_pos (by simp)]
  rw [getElem?_append_cons, getElem?_append_cons_succ]
  simp only
  rw [set_append_cons, set_append_cons_succ]

theorem carry_length (a b : disk_color) (rest : List disk_color) :
    ∀ x, (carry a b x rest).length = rest.length + 1 := by
  induction rest with
  | nil => intro x; simp [carry]
  | cons y rest ih =>
    intro x
    simp only [carry]
    split <;> simp [ih]

/-- A forward pass over the segment `x :: rest` of the row is one `carry`. -/
theorem forward_pass_eq (rest : List disk_color) :
    ∀ (pre : List disk_color) (x : disk_color) (post : List disk_color) (swaps : Nat),
      pre.length + rest.length < SIZE_MOD → swaps < UNSIGNED_MOD →
      forward_pass rest.length pre.length ⟨pre ++ x :: (rest ++ post)⟩ swaps
        = some (⟨pre ++ (carry DISK_DARK DISK_LIGHT x rest ++ post)⟩,
            (swaps + carry_swaps DISK_DARK DISK_LIGHT x rest) % UNSIGNED_MOD) := by
  induction rest with
  | nil =>
    intro pre x post swaps _ hs
    simp [forward_pass, carry, carry_swaps, Nat.mod_eq_of_lt hs]
  | cons y rest ih =>
    intro pre x post swaps hlen hs
    have hlen1 : (pre ++ [y]).length + rest.length < SIZE_MOD := by
      simp only [List.length_append, List.length_cons, List.length_nil] at hlen ⊢; omega
    have hlen2 : pre.length + 1 < SIZE_MOD := by
      simp only [List.length_cons] at hlen; omega
    have hum : 0 < UNSIGNED_MOD := by decide
    simp only [List.length_cons, forward_pass, List.cons_append, get_append_cons,
      get_append_cons_succ, carry, carry_swaps]
    by_cases hx : x = DISK_DARK
    · by_cases hy : y = DISK_LIGHT
      · subst hx; subst hy
        simp only [if_true, and_self, swap_append_cons _ _ _ _ hlen2]
        have := ih (pre ++ [DISK_LIGHT]) DISK_DARK post ((swaps + 1) % UNSIGNED_MOD) hlen1
          (Nat.mod_lt _ hum)
        simp only [List.length_append, List.length_cons, List.length_nil, List.append_assoc,
          List.cons_append, List.nil_append, zero_add] at this
        rw [this]
        congr 2
        rw [Nat.mod_add_mod]
        congr 1
        omega
      · have := ih (pre ++ [x]) y post swaps (by
          simp only [List.length_append, List.length_cons, List.length_nil] at hlen ⊢; omega) hs
        simp only [List.length_append, List.length_cons, List.length_nil, List.append_assoc,
          List.cons_append, List.nil_append, zero_add] at this
        subst hx
        simp [hy, this]
    · have := ih (pre ++ [x]) y post swaps (by
        simp only [List.length_append, List.length_cons, List.length_nil] at hlen ⊢; omega) hs
      simp only [List.length_append, List.length_cons, List.length_nil, List.append_assoc,
        List.cons_append, List.nil_append, zero_add] at this
      simp [hx, this]


/-- A forward pass over a non-empty segment `seg` of the row is one `bubble`. -/
theorem forward_pass_bubble (pre seg post : List disk_color) (swaps : Nat)
    (hseg : seg ≠ []) (hlen : pre.length + seg.length ≤ SIZE_MOD) (hs : swaps < UNSIGNED_MOD) :
    forward_pass (seg.length - 1) pre.length ⟨pre ++ (seg ++ post)⟩ swaps
      = some (⟨pre ++ (bubble DISK_DARK DISK_LIGHT seg ++ post)⟩,
          (swaps + bubble_swaps DISK_DARK DISK_LIGHT seg) % UNSIGNED_MOD) := by
  cases seg with
  | nil => exact absurd rfl hseg
  | cons x rest =>
    have := forward_pass_eq rest pre x post swaps (by simp only [List.length_cons] at hlen; omega) hs
    simpa [bubble, bubble_swaps] using this

/-- A backward pass from index `R.length` down to 1 is one `carry` over the reversed prefix. -/
theorem backward_pass_eq (R : List disk_color) :
    ∀ (x : disk_color) (post : List disk_color) (swaps : Nat),
      R.length < SIZE_MOD → swaps < UNSIGNED_MOD →
      backward_pass R.length ⟨(x :: R).reverse ++ post⟩ swaps
        = some (⟨(carry DISK_LIGHT DISK_DARK x R).reverse ++ post⟩,
            (swaps + carry_swaps DISK_LIGHT DISK_DARK x R) % UNSIGNED_MOD) := by
  induction R with
  | nil =>
    intro x post swaps _ hs
    simp [backward_pass, carry, carry_swaps, Nat.mod_eq_of_lt hs]
  | cons y R ih =>
    intro x post swaps hlen hs
    have hl : R.reverse.length = R.length := List.length_reverse R
    have hlen2 : R.reverse.length + 1 < SIZE_MOD := by
      simp only [List.length_cons] at hlen; omega
    have hlen3 : R.length < SIZE_MOD := by
      simp only [List.length_cons] at hlen; omega
    have hum : 0 < UNSIGNED_MOD := by decide
    have e1 : (x :: y :: R).reverse ++ post = R.reverse ++ y :: x :: post := by simp
    have g1 : (disk_state.mk (R.reverse ++ y :: x :: post)).get (R.length + 1) = some x := by
      have := get_append_cons_succ R.reverse y x post
      rwa [hl] at this
    have g0 : (disk_state.mk (R.reverse ++ y :: x :: post)).get R.length = some y := by
      have := get_append_cons R.reverse y (x :: post)
      rwa [hl] at this
    have sw : (disk_state.mk (R.reverse ++ y :: x :: post)).swap R.length
        = some ⟨R.reverse ++ x :: y :: post⟩ := by
      have := swap_append_cons R.reverse y x post hlen2
      rwa [hl] at this
    rw [e1]
    simp only [List.length_cons, backward_pass, g1, g0, carry, carry_swaps]
    by_cases hx : x = DISK_LIGHT
    · by_cases hy : y = DISK_DARK
      · subst hx; subst hy
        simp only [if_true, and_self, sw]
        have := ih DISK_LIGHT (DISK_DARK :: post) ((swaps + 1) % UNSIGNED_MOD) hlen3
          (Nat.mod_lt _ hum)
        simp only [List.reverse_cons, List.append_assoc, List.cons_append, List.nil_append]
          at this ⊢
        rw [this]
        congr 2
        rw [Nat.mod_add_mod]
        congr 1
        omega
      · have := ih y (x :: post) swaps hlen3 hs
        simp only [List.reverse_cons, List.append_assoc, List.cons_append, List.nil_append]
          at this ⊢
        subst hx
        simp [hy, this]
    · have := ih y (x :: post) swaps hlen3 hs
      simp only [List.reverse_cons, List.append_assoc, List.cons_append, List.nil_append]
        at this ⊢
      simp [hx, this]

/-- A backward pass over a non-empty prefix `seg` of the row is one `bubble` over its reverse. -/
theorem backward_pass_bubble (seg post : List disk_color) (swaps : Nat)
    (hseg : seg ≠ []) (hlen : seg.length ≤ SIZE_MOD) (hs : swaps < UNSIGNED_MOD) :
    backward_pass (seg.length - 1) ⟨seg ++ post⟩ swaps
      = some (⟨(bubble DISK_LIGHT DISK_DARK seg.reverse).reverse ++ post⟩,
          (swaps + bubble_swaps DISK_LIGHT DISK_DARK seg.reverse) % UNSIGNED_MOD) := by
  obtain ⟨x, R, hR⟩ : ∃ x R, seg.reverse = x :: R := by
    cases h : seg.reverse with
    | nil => simp at h; exact absurd h hseg
    | cons x R => exact ⟨x, R, rfl⟩
  have hseg2 : seg = (x :: R).reverse := by rw [← hR, List.reverse_reverse]
  have hl : seg.length = R.length + 1 := by rw [hseg2]; simp
  have := backward_pass_eq R x post swaps (by omega) hs
  rw [hR, hl, hseg2]
  simpa [bubble, bubble_swaps] using this

end Disks

namespace Disks
open disk_color

theorem pairs_length (a b : disk_color) (m : Nat) : (pairs a b m).length = 2 * m := by
  induction m with
  | zero => rfl
  | succ m ih => simp [pairs, ih]; omega

theorem pairs_reverse (a b : disk_color) (m : Nat) : (pairs a b m).reverse = pairs b a m := by
  have snoc : ∀ m, pairs b a m ++ [b, a] = b :: a :: pairs b a m := by
    intro m
    induction m with
    | zero => rfl
    | succ m ih => simp [pairs, ih]
  induction m with
  | zero => rfl
  | succ m ih =>
    simp only [pairs, List.reverse_cons, ih, List.append_assoc, List.cons_append, List.nil_append]
    exact snoc m

theorem shape_length (p m q : Nat) : (shape p m q).length = p + 2 * m + q := by
  simp [shape, pairs_length]; omega

/-- An element different from `a` is never carried. -/
theorem bubble_cons_ne (a b x : disk_color) (l : List disk_color) (h : x ≠ a) :
    bubble a b (x :: l) = x :: bubble a b l := by
  cases l with
  | nil => simp [bubble, carry]
  | cons y rest => simp [bubble, carry, h]

theorem bubble_swaps_cons_ne (a b x : disk_color) (l : List disk_color) (h : x ≠ a) :
    bubble_swaps a b (x :: l) = bubble_swaps a b l := by
  cases l with
  | nil => simp [bubble_swaps, carry_swaps]
  | cons y rest => simp [bubble_swaps, carry_swaps, h]

theorem bubble_replicate_ne (a b x : disk_color) (h : x ≠ a) (p : Nat) (l : List disk_color) :
    bubble a b (List.replicate p x ++ l) = List.replicate p x ++ bubble a b l := by
  induction p with
  | zero => simp
  | succ p ih => simp [List.replicate_succ, bubble_cons_ne _ _ _ _ h, ih]

/-- Carrying an `a` through `(a b)^m a^c` moves it to the end. -/
theorem carry_pairs (a b : disk_color) (h : a ≠ b) (c : Nat) :
    ∀ m, carry a b a (pairs a b m ++ List.replicate c a)
      = pairs a b m ++ List.replicate (c + 1) a := by
  intro m
  induction m with
  | zero =>
    simp only [pairs, List.nil_append]
    induction c with
    | zero => simp [carry]
    | succ c ih => simp [List.replicate_succ, carry, h, ih]
  | succ m ih =>
    have e : pairs a b (m + 1) ++ List.replicate c a
        = a :: b :: (pairs a b m ++ List.replicate c a) := rfl
    have e2 : pairs a b (m + 1) ++ List.replicate (c + 1) a
        = a :: b :: (pairs a b m ++ List.replicate (c + 1) a) := rfl
    rw [e, e2]
    simp only [carry, h, and_false, if_false, and_self, if_true, ih]

theorem bubble_pairs_succ (a b : disk_color) (h : a ≠ b) (m c : Nat) :
    bubble a b (pairs a b (m + 1) ++ List.replicate c a)
      = b :: (pairs a b m ++ List.replicate (c + 1) a) := by
  simp only [pairs, List.cons_append, bubble, carry, and_self, if_true, carry_pairs a b h c m]

theorem bubble_replicate_self (a b : disk_color) (h : a ≠ b) (c : Nat) :
    bubble a b (List.replicate c a) = List.replicate c a := by
  cases c with
  | zero => rfl
  | succ c =>
    have := carry_pairs a b h c 0
    simpa [List.replicate_succ, bubble, pairs] using this

/-- A forward bubble over `L^p (D L)^(m+1) D^q`. -/
theorem bubble_shape_succ (p m q : Nat) :
    bubble DISK_DARK DISK_LIGHT (shape p (m + 1) q) = shape (p + 1) m (q + 1) := by
  unfold shape
  rw [bubble_replicate_ne _ _ _ (by decide), bubble_pairs_succ _ _ (by decide)]
  simp [List.replicate_succ']

/-- A forward bubble leaves a sorted segment `L^p D^q` as it is. -/
theorem bubble_shape_zero (p q : Nat) :
    bubble DISK_DARK DISK_LIGHT (shape p 0 q) = shape p 0 q := by
  unfold shape
  rw [bubble_replicate_ne _ _ _ (by decide)]
  simp [pairs, bubble_replicate_self _ _ (show DISK_DARK ≠ DISK_LIGHT by decide)]

theorem shape_reverse (p m q : Nat) :
    (shape p m q).reverse
      = List.replicate q DISK_DARK ++ (pairs DISK_LIGHT DISK_DARK m ++ List.replicate p DISK_LIGHT) := by
  simp [shape, pairs_reverse]

/-- A backward bubble (on the reversed segment) over `L^p (D L)^(m+1) D^q`. -/
theorem bubble_back_shape_succ (p m q : Nat) :
    (bubble DISK_LIGHT DISK_DARK (shape p (m + 1) q).reverse).reverse = shape (p + 1) m (q + 1) := by
  rw [shape_reverse, bubble_replicate_ne _ _ _ (by decide), bubble_pairs_succ _ _ (by decide)]
  simp only [shape, List.reverse_append, List.reverse_cons, List.reverse_replicate, pairs_reverse,
    List.append_assoc, List.cons_append, List.nil_append, List.replicate_succ,
    replicate_append_cons, List.append_nil]

theorem bubble_back_shape_zero (p q : Nat) :
    (bubble DISK_LIGHT DISK_DARK (shape p 0 q).reverse).reverse = shape p 0 q := by
  rw [shape_reverse, bubble_replicate_ne _ _ _ (by decide)]
  simp [shape, pairs, bubble_replicate_self _ _ (show DISK_LIGHT ≠ DISK_DARK by decide)]

theorem shape_split_right (p m q i : Nat) (h : i ≤ q) :
    shape p m q = shape p m (q - i) ++ List.replicate i DISK_DARK := by
  unfold shape
  have : List.replicate q DISK_DARK
      = List.replicate (q - i) DISK_DARK ++ List.replicate i DISK_DARK := by
    rw [← List.replicate_add]; congr 1; omega
  conv_lhs => rw [this]
  simp only [List.append_assoc]

theorem shape_split_left (p m q i : Nat) (h : i ≤ p) :
    shape p m q = List.replicate i DISK_LIGHT ++ shape (p - i) m q := by
  unfold shape
  have : List.replicate p DISK_LIGHT
      = List.replicate i DISK_LIGHT ++ List.replicate (p - i) DISK_LIGHT := by
    rw [← List.replicate_add]; congr 1; omega
  conv_lhs => rw [this]
  simp only [List.append_assoc]

theorem pass_bound_eq (n i : Nat) (hn : 2 * n < UNSIGNED_MOD) (hi : i < 2 * n) :
    pass_bound n i = 2 * n - i - 1 := by
  unfold pass_bound size_sub
  unfold UNSIGNED_MOD at hn
  simp only [SIZE_MOD, UNSIGNED_MOD]
  split_ifs <;> omega


theorem ctor_loop_eq (cnt : Nat) :
    ∀ pre : List disk_color,
      ctor_loop cnt pre.length (pre ++ List.replicate (2 * cnt) DISK_LIGHT)
        = pre ++ pairs DISK_DARK DISK_LIGHT cnt := by
  induction cnt with
  | zero => intro pre; simp [ctor_loop, pairs]
  | succ cnt ih =>
    intro pre
    have e : List.replicate (2 * (cnt + 1)) DISK_LIGHT
        = DISK_LIGHT :: DISK_LIGHT :: List.replicate (2 * cnt) DISK_LIGHT := by
      rw [show 2 * (cnt + 1) = 2 * cnt + 1 + 1 by ring, List.replicate_succ, List.replicate_succ]
    have := ih (pre ++ [DISK_DARK, DISK_LIGHT])
    simp only [List.length_append, List.length_cons, List.length_nil, List.append_assoc,
      List.cons_append, List.nil_append, zero_add] at this
    simp only [ctor_loop, e, set_append_cons, pairs]
    exact this

/-- The constructor builds the alternating row `D L D L ...` of `N` pairs. -/
theorem new_eq (N : Nat) (h1 : 1 ≤ N) (h2 : 2 * N < SIZE_MOD) :
    disk_state.new N = some ⟨pairs DISK_DARK DISK_LIGHT N⟩ := by
  have hm : (N * 2) % SIZE_MOD = 2 * N := by
    rw [Nat.mul_comm]; exact Nat.mod_eq_of_lt h2
  have hd : (2 * N + 1) / 2 = N := by omega
  have := ctor_loop_eq N []
  simp only [List.length_nil, List.nil_append] at this
  unfold disk_state.new
  simp only [hm, hd, this]
  rw [if_pos (by omega)]

theorem is_sorted_light_eq (cnt : Nat) :
    ∀ pre post : List disk_color,
      disk_state.is_sorted_light cnt pre.length (pre ++ (List.replicate cnt DISK_LIGHT ++ post))
        = some (some (pre.length + cnt)) := by
  induction cnt with
  | zero => intro pre post; simp [disk_state.is_sorted_light]
  | succ cnt ih =>
    intro pre post
    have := ih (pre ++ [DISK_LIGHT]) post
    simp only [List.length_append, List.length_cons, List.length_nil, List.append_assoc,
      List.cons_append, List.nil_append, zero_add] at this
    simp only [disk_state.is_sorted_light, List.replicate_succ, List.cons_append,
      getElem?_append_cons, this]
    simp; omega

theorem is_sorted_dark_eq (cnt : Nat) :
    ∀ pre post : List disk_color,
      disk_state.is_sorted_dark cnt pre.length (pre ++ (List.replicate cnt DISK_DARK ++ post))
        = some true := by
  induction cnt with
  | zero => intro pre post; simp [disk_state.is_sorted_dark]
  | succ cnt ih =>
    intro pre post
    have := ih (pre ++ [DISK_DARK]) post
    simp only [List.length_append, List.length_cons, List.length_nil, List.append_assoc,
      List.cons_append, List.nil_append, zero_add] at this
    simp only [disk_state.is_sorted_dark, List.replicate_succ, List.cons_append,
      getElem?_append_cons, this]
    simp

/-- The classifier `is_sorted` accepts the row `L^N D^N`. -/
theorem is_sorted_shape (N : Nat) (h1 : 1 ≤ N) :
    (disk_state.mk (shape N 0 N)).is_sorted = some true := by
  have hlen : (shape N 0 N).length = 2 * N := by rw [shape_length]; omega
  have hne : (shape N 0 N).isEmpty = false := by
    cases h : shape N 0 N with
    | nil => rw [h] at hlen; simp at hlen; omega
    | cons x l => rfl
  have hl := is_sorted_light_eq N [] (List.replicate N DISK_DARK)
  have hd := is_sorted_dark_eq N (List.replicate N DISK_LIGHT) []
  simp only [List.length_nil, List.nil_append, zero_add, List.length_replicate,
    List.append_nil] at hl hd
  have e : shape N 0 N = List.replicate N DISK_LIGHT ++ List.replicate N DISK_DARK := by
    simp [shape, pairs]
  unfold disk_state.is_sorted disk_state.total_count
  simp only [hne, hlen]
  rw [if_neg (by simp; omega)]
  rw [e, show 2 * N / 2 = N by omega, hl]
  simp only
  rw [show 2 * N - N = N by omega, hd]

theorem is_alternating_loop_pairs (cnt : Nat) :
    ∀ pre : List disk_color,
      disk_state.is_alternating_loop cnt pre.length (pre ++ pairs DISK_DARK DISK_LIGHT cnt)
        = some true := by
  induction cnt with
  | zero => intro pre; simp [disk_state.is_alternating_loop]
  | succ cnt ih =>
    intro pre
    have := ih (pre ++ [DISK_DARK, DISK_LIGHT])
    simp only [List.length_append, List.length_cons, List.length_nil, List.append_assoc,
      List.cons_append, List.nil_append, zero_add] at this
    simp only [disk_state.is_alternating_loop, pairs, getElem?_append_cons]
    simpa using this

/-- Both sorts' invariant for the left-to-right algorithm on the alternating row: before
pass `i` the row is `L^i (D L)^cnt D^i`. -/
theorem left_to_right_loop_shape (N : Nat) (hN : 2 * N < UNSIGNED_MOD) (cnt : Nat) :
    ∀ i swaps, i + cnt = N → swaps < UNSIGNED_MOD →
      ∃ swaps1, swaps1 < UNSIGNED_MOD ∧
        left_to_right_loop N cnt i ⟨shape i cnt i⟩ swaps = some (⟨shape N 0 N⟩, swaps1) := by
  induction cnt with
  | zero =>
    intro i swaps hi hs
    have : i = N := by omega
    subst this
    exact ⟨swaps, hs, rfl⟩
  | succ cnt ih =>
    intro i swaps hi hs
    have hb : pass_bound N i - i = (pairs DISK_DARK DISK_LIGHT (cnt + 1)).length - 1 := by
      rw [pass_bound_eq N i hN (by omega), pairs_length]; omega
    have hsz : (List.replicate i DISK_LIGHT).length
        + (pairs DISK_DARK DISK_LIGHT (cnt + 1)).length ≤ SIZE_MOD := by
      rw [pairs_length, List.length_replicate]
      unfold UNSIGNED_MOD at hN; unfold SIZE_MOD; omega
    have hf := forward_pass_bubble (List.replicate i DISK_LIGHT)
      (pairs DISK_DARK DISK_LIGHT (cnt + 1)) (List.replicate i DISK_DARK) swaps
      (by simp [pairs]) hsz hs
    rw [List.length_replicate] at hf
    have hbub := bubble_pairs_succ DISK_DARK DISK_LIGHT (by decide) cnt 0
    simp only [List.replicate_zero, List.append_nil] at hbub
    rw [hbub] at hf
    have e : List.replicate i DISK_LIGHT ++
        ((DISK_LIGHT :: (pairs DISK_DARK DISK_LIGHT cnt ++ List.replicate (0 + 1) DISK_DARK))
          ++ List.replicate i DISK_DARK) = shape (i + 1) cnt (i + 1) := by
      simp only [shape, List.replicate_succ, List.append_assoc, List.cons_append,
        List.nil_append, replicate_append_cons, List.replicate_zero, zero_add]
    rw [e] at hf
    obtain ⟨swaps1, hs1, h1⟩ := ih (i + 1)
      ((swaps + bubble_swaps DISK_DARK DISK_LIGHT (pairs DISK_DARK DISK_LIGHT (cnt + 1)))
        % UNSIGNED_MOD) (by omega) (Nat.mod_lt _ (by decide))
    refine ⟨swaps1, hs1, ?_⟩
    simp only [left_to_right_loop, hb]
    have e0 : (disk_state.mk (shape i (cnt + 1) i))
        = ⟨List.replicate i DISK_LIGHT ++
            (pairs DISK_DARK DISK_LIGHT (cnt + 1) ++ List.replicate i DISK_DARK)⟩ := rfl
    rw [e0, hf]
    exact h1


/-- One forward pass of the lawnmower over `L^a (D L)^m D^a`, the last `i` disks left out. -/
theorem lawnmower_forward_shape (N a m i swaps : Nat) (hN : 2 * N < UNSIGNED_MOD)
    (ham : a + m = N) (hia : i ≤ a) (h1 : 1 ≤ N) (hs : swaps < UNSIGNED_MOD) :
    ∃ swaps1, swaps1 < UNSIGNED_MOD ∧
      forward_pass (pass_bound N i) 0 ⟨shape a m a⟩ swaps
        = some (⟨shape (a + min m 1) (m - 1) (a + min m 1)⟩, swaps1) := by
  have hi2 : i < 2 * N := by omega
  have hlen : (shape a m (a - i)).length = 2 * N - i := by rw [shape_length]; omega
  have hne : shape a m (a - i) ≠ [] := by
    intro h; rw [h] at hlen; simp at hlen; omega
  have hsz : ([] : List disk_color).length + (shape a m (a - i)).length ≤ SIZE_MOD := by
    rw [hlen, List.length_nil]; unfold UNSIGNED_MOD at hN; unfold SIZE_MOD; omega
  have hf := forward_pass_bubble [] (shape a m (a - i)) (List.replicate i DISK_DARK) swaps hne
    hsz hs
  simp only [List.length_nil, List.nil_append, hlen] at hf
  rw [← shape_split_right a m a i hia, show 2 * N - i - 1 = pass_bound N i from
    (pass_bound_eq N i hN hi2).symm] at hf
  have e : bubble DISK_DARK DISK_LIGHT (shape a m (a - i)) ++ List.replicate i DISK_DARK
      = shape (a + min m 1) (m - 1) (a + min m 1) := by
    cases m with
    | zero =>
      rw [bubble_shape_zero, ← shape_split_right a 0 a i hia]
      rfl
    | succ m =>
      rw [bubble_shape_succ]
      have := shape_split_right (a + 1) m (a + 1) i (by omega)
      rw [show a + 1 - i = a - i + 1 by omega] at this
      rw [← this, show min (m + 1) 1 = 1 by omega]
      rfl
  rw [e] at hf
  exact ⟨_, Nat.mod_lt _ (by decide), hf⟩

/-- One backward pass of the lawnmower over `L^a (D L)^m D^a`, the last `i` disks left out. -/
theorem lawnmower_backward_shape (N a m i swaps : Nat) (hN : 2 * N < UNSIGNED_MOD)
    (ham : a + m = N) (hia : i ≤ a) (h1 : 1 ≤ N) (hs : swaps < UNSIGNED_MOD) :
    ∃ swaps1, swaps1 < UNSIGNED_MOD ∧
      backward_pass (pass_bound N i) ⟨shape a m a⟩ swaps
        = some (⟨shape (a + min m 1) (m - 1) (a + min m 1)⟩, swaps1) := by
  have hi2 : i < 2 * N := by omega
  have hlen : (shape a m (a - i)).length = 2 * N - i := by rw [shape_length]; omega
  have hne : shape a m (a - i) ≠ [] := by
    intro h; rw [h] at hlen; simp at hlen; omega
  have hsz : (shape a m (a - i)).length ≤ SIZE_MOD := by
    rw [hlen]; unfold UNSIGNED_MOD at hN; unfold SIZE_MOD; omega
  have hf := backward_pass_bubble (shape a m (a - i)) (List.replicate i DISK_DARK) swaps hne
    hsz hs
  simp only [hlen] at hf
  rw [← shape_split_right a m a i hia, show 2 * N - i - 1 = pass_bound N i from
    (pass_bound_eq N i hN hi2).symm] at hf
  have e : (bubble DISK_LIGHT DISK_DARK (shape a m (a - i)).reverse).reverse
        ++ List.replicate i DISK_DARK
      = shape (a + min m 1) (m - 1) (a + min m 1) := by
    cases m with
    | zero =>
      rw [bubble_back_shape_zero, ← shape_split_right a 0 a i hia]
      rfl
    | succ m =>
      rw [bubble_back_shape_succ]
      have := shape_split_right (a + 1) m (a + 1) i (by omega)
      rw [show a + 1 - i = a - i + 1 by omega] at this
      rw [← this, show min (m + 1) 1 = 1 by omega]
      rfl
  rw [e] at hf
  exact ⟨_, Nat.mod_lt _ (by decide), hf⟩

theorem lawnmower_loop_succ (n cnt i : Nat) (sorted : disk_state) (swaps : Nat) :
    lawnmower_loop n (cnt + 1) i sorted swaps
      = match forward_pass (pass_bound n i) 0 sorted swaps with
        | none => none
        | some (sorted1, swaps1) =>
          match backward_pass (pass_bound n i) sorted1 swaps1 with
          | none => none
          | some (sorted2, swaps2) => lawnmower_loop n cnt (i + 1) sorted2 swaps2 := rfl

/-- Invariant of the lawnmower on the alternating row: before round trip `i` the row is
`L^a (D L)^m D^a` with at most `N - 2 i` pairs left. -/
theorem lawnmower_loop_shape (N : Nat) (hN : 2 * N < UNSIGNED_MOD) (h1 : 1 ≤ N) (cnt : Nat) :
    ∀ i a m swaps, i + cnt = N / 2 + 1 → a + m = N → m ≤ N - 2 * i → swaps < UNSIGNED_MOD →
      ∃ swaps1, swaps1 < UNSIGNED_MOD ∧
        lawnmower_loop N cnt i ⟨shape a m a⟩ swaps = some (⟨shape N 0 N⟩, swaps1) := by
  have hmin : ∀ k : Nat, (k = 0 ∧ min k 1 = 0) ∨ (1 ≤ k ∧ min k 1 = 1) := by
    intro k
    rcases Nat.eq_zero_or_pos k with h | h
    · exact Or.inl ⟨h, by rw [h]; rfl⟩
    · exact Or.inr ⟨h, Nat.min_eq_right h⟩
  induction cnt with
  | zero =>
    intro i a m swaps hi ham hm hs
    have hm0 : m = 0 := by omega
    have haN : a = N := by omega
    rw [hm0, haN]
    exact ⟨swaps, hs, rfl⟩
  | succ cnt ih =>
    intro i a m swaps hi ham hm hs
    have hia : i ≤ a := by omega
    obtain ⟨s1, hs1, hf⟩ := lawnmower_forward_shape N a m i swaps hN ham hia h1 hs
    have hd := hmin m
    generalize min m 1 = d at hf hd
    obtain ⟨s2, hs2, hb⟩ := lawnmower_backward_shape N (a + d) (m - 1) i s1 hN
      (by omega) (by omega) h1 hs1
    have hd2 := hmin (m - 1)
    generalize min (m - 1) 1 = d2 at hb hd2
    obtain ⟨s3, hs3, hl⟩ := ih (i + 1) (a + d + d2) (m - 1 - 1) s2
      (by omega) (by omega) (by omega) hs2
    refine ⟨s3, hs3, ?_⟩
    rw [lawnmower_loop_succ, hf]
    simp only
    rw [hb]
    exact hl

end Disks

namespace Disks
open disk_color

theorem carry_count (a b c : disk_color) (rest : List disk_color) :
    ∀ x, (carry a b x rest).count c = (x :: rest).count c := by
  induction rest with
  | nil => intro x; simp [carry]
  | cons y rest ih =>
    intro x
    simp only [carry]
    split
    · rw [List.count_cons, ih, List.count_cons, List.count_cons, List.count_cons]
      omega
    · rw [List.count_cons, ih, List.count_cons (a := c) (b := x)]

theorem bubble_count (a b c : disk_color) (l : List disk_color) :
    (bubble a b l).count c = l.count c := by
  cases l with
  | nil => rfl
  | cons x rest => exact carry_count a b c rest x

theorem bubble_length (a b : disk_color) (l : List disk_color) :
    (bubble a b l).length = l.length := by
  cases l with
  | nil => rfl
  | cons x rest => simp [bubble, carry_length]

theorem inversions_append (a b : disk_color) (l1 l2 : List disk_color) :
    inversions a b (l1 ++ l2)
      = inversions a b l1 + inversions a b l2 + l1.count a * l2.count b := by
  induction l1 with
  | nil => simp [inversions]
  | cons x l1 ih =>
    simp only [List.cons_append, inversions, List.append_eq, List.count_append, List.count_cons]
    rw [ih]
    by_cases h : x = a
    · simp [h]; ring
    · simp [h]

theorem inversions_reverse (a b : disk_color) (l : List disk_color) :
    inversions a b l.reverse = inversions b a l := by
  induction l with
  | nil => rfl
  | cons x l ih =>
    rw [List.reverse_cons, inversions_append, ih]
    simp only [inversions, List.count_reverse, List.count_cons, List.count_nil]
    by_cases h : x = b
    · simp [h]; ring
    · simp [h]

theorem inversions_le (a b : disk_color) (l : List disk_color) :
    inversions a b l ≤ l.count a * l.count b := by
  induction l with
  | nil => simp [inversions]
  | cons x l ih =>
    simp only [inversions, List.count_cons]
    by_cases h : x = a
    · simp only [h, if_true, beq_self_eq_true]
      have : l.count b ≤ l.count b + (if (a == b) = true then 1 else 0) := Nat.le_add_right _ _
      nlinarith [ih, this]
    · simp only [h, if_false]
      have h' : (x == a) = false := by simpa using h
      simp only [h', Bool.false_eq_true, if_false, add_zero, zero_add]
      exact le_trans ih (Nat.mul_le_mul_left _ (Nat.le_add_right _ _))

/-- Every swap of a bubble pass removes exactly one inversion. -/
theorem carry_inversions (a b : disk_color) (hab : a ≠ b) (rest : List disk_color) :
    ∀ x, inversions a b (carry a b x rest) + carry_swaps a b x rest
      = inversions a b (x :: rest) := by
  induction rest with
  | nil => intro x; simp [carry, carry_swaps]
  | cons y rest ih =>
    intro x
    simp only [carry, carry_swaps]
    by_cases h : x = a ∧ y = b
    · obtain ⟨hx, hy⟩ := h
      subst hx; subst hy
      have := ih x
      simp only [and_self, if_true, inversions, List.count_cons, beq_self_eq_true] at this ⊢
      have hne : ¬ (y = x) := fun h => hab h.symm
      simp only [hne, if_false] at this ⊢
      omega
    · rw [if_neg h, if_neg h]
      have := ih y
      simp only [inversions] at this ⊢
      rw [carry_count]
      omega

theorem bubble_inversions (a b : disk_color) (hab : a ≠ b) (l : List disk_color) :
    inversions a b (bubble a b l) + bubble_swaps a b l = inversions a b l := by
  cases l with
  | nil => rfl
  | cons x rest => exact carry_inversions a b hab rest x


/-- A forward pass that stays inside the row succeeds, permutes the row, and every swap it
counts removes one dark-before-light inversion. -/
theorem forward_pass_general (s : disk_state) (cnt j swaps : Nat)
    (hj : j + cnt < s.total_count) (hlen : s.total_count ≤ SIZE_MOD)
    (hsw : swaps + inversions DISK_DARK DISK_LIGHT s.colors < UNSIGNED_MOD) :
    ∃ s1 swaps1, forward_pass cnt j s swaps = some (s1, swaps1)
      ∧ s1.total_count = s.total_count
      ∧ (∀ c, s1.colors.count c = s.colors.count c)
      ∧ swaps1 + inversions DISK_DARK DISK_LIGHT s1.colors
          = swaps + inversions DISK_DARK DISK_LIGHT s.colors := by
  obtain ⟨row⟩ := s
  simp only [disk_state.total_count] at hj hlen hsw ⊢
  have hsplit : row = row.take j ++ ((row.drop j).take (cnt + 1) ++ (row.drop j).drop (cnt + 1)) := by
    rw [List.take_append_drop, List.take_append_drop]
  have hpre : (row.take j).length = j := by rw [List.length_take]; omega
  have hseg : ((row.drop j).take (cnt + 1)).length = cnt + 1 := by
    rw [List.length_take, List.length_drop]; omega
  have hne : (row.drop j).take (cnt + 1) ≠ [] := by
    intro h; rw [h] at hseg; simp at hseg
  have hf := forward_pass_bubble (row.take j) ((row.drop j).take (cnt + 1))
    ((row.drop j).drop (cnt + 1)) swaps hne (by rw [hpre, hseg]; omega) (by omega)
  rw [← hsplit, hpre, hseg] at hf
  have hinv := bubble_inversions DISK_DARK DISK_LIGHT (by decide) ((row.drop j).take (cnt + 1))
  have hI : inversions DISK_DARK DISK_LIGHT
        (row.take j ++ (bubble DISK_DARK DISK_LIGHT ((row.drop j).take (cnt + 1))
          ++ (row.drop j).drop (cnt + 1)))
      + bubble_swaps DISK_DARK DISK_LIGHT ((row.drop j).take (cnt + 1))
      = inversions DISK_DARK DISK_LIGHT row := by
    conv_rhs => rw [hsplit]
    simp only [inversions_append, List.count_append, bubble_count]
    omega
  refine ⟨_, _, hf, ?_, ?_, ?_⟩
  · conv_rhs => rw [hsplit]
    simp only [List.length_append, bubble_length]
  · intro c
    conv_rhs => rw [hsplit]
    simp only [List.count_append, bubble_count]
  · dsimp only
    rw [Nat.mod_eq_of_lt (by omega)]
    omega

/-- A backward pass that starts inside the row succeeds, permutes the row, and every swap it
counts removes one dark-before-light inversion. -/
theorem backward_pass_general (s : disk_state) (k swaps : Nat)
    (hk : k < s.total_count) (hlen : s.total_count ≤ SIZE_MOD)
    (hsw : swaps + inversions DISK_DARK DISK_LIGHT s.colors < UNSIGNED_MOD) :
    ∃ s1 swaps1, backward_pass k s swaps = some (s1, swaps1)
      ∧ s1.total_count = s.total_count
      ∧ (∀ c, s1.colors.count c = s.colors.count c)
      ∧ swaps1 + inversions DISK_DARK DISK_LIGHT s1.colors
          = swaps + inversions DISK_DARK DISK_LIGHT s.colors := by
  obtain ⟨row⟩ := s
  simp only [disk_state.total_count] at hk hlen hsw ⊢
  have hsplit : row = row.take (k + 1) ++ row.drop (k + 1) := (List.take_append_drop _ _).symm
  have hseg : (row.take (k + 1)).length = k + 1 := by rw [List.length_take]; omega
  have hne : row.take (k + 1) ≠ [] := by
    intro h; rw [h] at hseg; simp at hseg
  have hf := backward_pass_bubble (row.take (k + 1)) (row.drop (k + 1)) swaps hne
    (by rw [hseg]; omega) (by omega)
  rw [← hsplit, hseg] at hf
  have hinv := bubble_inversions DISK_LIGHT DISK_DARK (by decide) (row.take (k + 1)).reverse
  rw [inversions_reverse] at hinv
  have hI : inversions DISK_DARK DISK_LIGHT
        ((bubble DISK_LIGHT DISK_DARK (row.take (k + 1)).reverse).reverse ++ row.drop (k + 1))
      + bubble_swaps DISK_LIGHT DISK_DARK (row.take (k + 1)).reverse
      = inversions DISK_DARK DISK_LIGHT row := by
    conv_rhs => rw [hsplit]
    simp only [inversions_append, List.count_reverse, bubble_count, inversions_reverse]
    omega
  refine ⟨_, _, hf, ?_, ?_, ?_⟩
  · conv_rhs => rw [hsplit]
    simp only [List.length_append, List.length_reverse, bubble_length]
  · intro c
    conv_rhs => rw [hsplit]
    simp only [List.count_append, List.count_reverse, bubble_count]
  · dsimp only
    rw [Nat.mod_eq_of_lt (by omega)]
    omega


theorem left_to_right_loop_general (n : Nat) (hn : 2 * n < UNSIGNED_MOD) (cnt : Nat) :
    ∀ (i : Nat) (s : disk_state) (swaps : Nat), i + cnt = n → s.total_count = 2 * n →
      swaps + inversions DISK_DARK DISK_LIGHT s.colors < UNSIGNED_MOD →
      ∃ s1 swaps1, left_to_right_loop n cnt i s swaps = some (s1, swaps1)
        ∧ s1.total_count = s.total_count
        ∧ (∀ c, s1.colors.count c = s.colors.count c)
        ∧ swaps1 + inversions DISK_DARK DISK_LIGHT s1.colors
            = swaps + inversions DISK_DARK DISK_LIGHT s.colors := by
  induction cnt with
  | zero =>
    intro i s swaps _ _ _
    exact ⟨s, swaps, rfl, rfl, fun _ => rfl, rfl⟩
  | succ cnt ih =>
    intro i s swaps hi ht hsw
    have hb : pass_bound n i = 2 * n - i - 1 := pass_bound_eq n i hn (by omega)
    have hsz : s.total_count ≤ SIZE_MOD := by
      rw [ht]; unfold UNSIGNED_MOD at hn; unfold SIZE_MOD; omega
    obtain ⟨s1, w1, hf, ht1, hc1, hi1⟩ := forward_pass_general s (pass_bound n i - i) i swaps
      (by rw [hb, ht]; omega) hsz hsw
    obtain ⟨s2, w2, hl, ht2, hc2, hi2⟩ := ih (i + 1) s1 w1 (by omega) (by rw [ht1, ht])
      (by rw [hi1]; exact hsw)
    refine ⟨s2, w2, ?_, by rw [ht2, ht1], fun c => by rw [hc2, hc1], by rw [hi2, hi1]⟩
    simp only [left_to_right_loop, hf]
    exact hl

theorem lawnmower_loop_general (n : Nat) (hn : 2 * n < UNSIGNED_MOD) (cnt : Nat) :
    ∀ (i : Nat) (s : disk_state) (swaps : Nat), i + cnt ≤ 2 * n → s.total_count = 2 * n →
      swaps + inversions DISK_DARK DISK_LIGHT s.colors < UNSIGNED_MOD →
      ∃ s1 swaps1, lawnmower_loop n cnt i s swaps = some (s1, swaps1)
        ∧ s1.total_count = s.total_count
        ∧ (∀ c, s1.colors.count c = s.colors.count c)
        ∧ swaps1 + inversions DISK_DARK DISK_LIGHT s1.colors
            = swaps + inversions DISK_DARK DISK_LIGHT s.colors := by
  induction cnt with
  | zero =>
    intro i s swaps _ _ _
    exact ⟨s, swaps, rfl, rfl, fun _ => rfl, rfl⟩
  | succ cnt ih =>
    intro i s swaps hi ht hsw
    have hb : pass_bound n i = 2 * n - i - 1 := pass_bound_eq n i hn (by omega)
    have hsz : s.total_count ≤ SIZE_MOD := by
      rw [ht]; unfold UNSIGNED_MOD at hn; unfold SIZE_MOD; omega
    obtain ⟨s1, w1, hf, ht1, hc1, hi1⟩ := forward_pass_general s (pass_bound n i) 0 swaps
      (by rw [hb, ht]; omega) hsz hsw
    obtain ⟨s2, w2, hk, ht2, hc2, hi2⟩ := backward_pass_general s1 (pass_bound n i) w1
      (by rw [hb, ht1, ht]; omega) (by rw [ht1]; exact hsz) (by rw [hi1]; exact hsw)
    obtain ⟨s3, w3, hl, ht3, hc3, hi3⟩ := ih (i + 1) s2 w2 (by omega) (by rw [ht2, ht1, ht])
      (by rw [hi2, hi1]; exact hsw)
    refine ⟨s3, w3, ?_, by rw [ht3, ht2, ht1], fun c => by rw [hc3, hc2, hc1],
      by rw [hi3, hi2, hi1]⟩
    rw [lawnmower_loop_succ, hf]
    simp only
    rw [hk]
    exact hl

/-- On every row of `2 n < 2^32` disks whose inversions fit in the counter,
`sort_left_to_right` returns a permutation of the row, and the swaps it reports are the
inversions it removed. -/
theorem sort_left_to_right_general (s : disk_state) (n : Nat) (hn : 2 * n < UNSIGNED_MOD)
    (ht : s.total_count = 2 * n)
    (hsw : inversions DISK_DARK DISK_LIGHT s.colors < UNSIGNED_MOD) :
    ∃ res, sort_left_to_right s = some res
      ∧ res.after.total_count = s.total_count
      ∧ (∀ c, res.after.colors.count c = s.colors.count c)
      ∧ res.swap_count + inversions DISK_DARK DISK_LIGHT res.after.colors
          = inversions DISK_DARK DISK_LIGHT s.colors := by
  have hnn : (s.total_count / 2) % UNSIGNED_MOD = n := by
    rw [ht, Nat.mul_div_cancel_left n (by decide : 0 < 2)]
    exact Nat.mod_eq_of_lt (by omega)
  obtain ⟨s1, w1, hl, ht1, hc1, hi1⟩ := left_to_right_loop_general n hn n 0 s 0 (by omega) ht
    (by omega)
  refine ⟨⟨s1, w1⟩, ?_, ht1, hc1, by simpa using hi1⟩
  unfold sort_left_to_right
  simp only [hnn, hl]

/-- The same for `sort_lawnmower`. -/
theorem sort_lawnmower_general (s : disk_state) (n : Nat) (hn : 2 * n < UNSIGNED_MOD)
    (h1 : 1 ≤ n) (ht : s.total_count = 2 * n)
    (hsw : inversions DISK_DARK DISK_LIGHT s.colors < UNSIGNED_MOD) :
    ∃ res, sort_lawnmower s = some res
      ∧ res.after.total_count = s.total_count
      ∧ (∀ c, res.after.colors.count c = s.colors.count c)
      ∧ res.swap_count + inversions DISK_DARK DISK_LIGHT res.after.colors
          = inversions DISK_DARK DISK_LIGHT s.colors := by
  have hnn : (s.total_count / 2) % UNSIGNED_MOD = n := by
    rw [ht, Nat.mul_div_cancel_left n (by decide : 0 < 2)]
    exact Nat.mod_eq_of_lt (by omega)
  obtain ⟨s1, w1, hl, ht1, hc1, hi1⟩ := lawnmower_loop_general n hn (n / 2 + 1) 0 s 0
    (by omega) ht (by omega)
  refine ⟨⟨s1, w1⟩, ?_, ht1, hc1, by simpa using hi1⟩
  unfold sort_lawnmower
  simp only [hnn, hl]

end Disks

namespace Disks
open disk_color

theorem pairs_getElem? (a b : disk_color) (N : Nat) :
    ∀ i, (pairs a b N)[i]? = if i < 2 * N then some (if i % 2 = 0 then a else b) else none := by
  induction N with
  | zero => intro i; simp [pairs]
  | succ N ih =>
    intro i
    rcases i with _ | _ | i
    · simp [pairs]
    · have : 0 + 1 < 2 * (N + 1) := by omega
      simp [pairs, this]
    · have e : (i + 1 + 1) % 2 = i % 2 := by omega
      have e2 : (i + 1 + 1 < 2 * (N + 1)) ↔ (i < 2 * N) := by omega
      simp only [pairs, List.getElem?_cons_succ, ih i, e, e2]

theorem get_pairs (N i : Nat) (h : i < 2 * N) :
    (disk_state.mk (pairs DISK_DARK DISK_LIGHT N)).get i
      = some (if i % 2 = 0 then DISK_DARK else DISK_LIGHT) := by
  unfold disk_state.get disk_state.is_index disk_state.total_count
  rw [pairs_length, if_pos (by simpa using h), pairs_getElem?, if_pos h]

/-- A row that holds dark at every even and light at every odd index is the row `(D L)^N`. -/
theorem eq_pairs_of_get (r : disk_state) (N : Nat) (ht : r.total_count = 2 * N)
    (hg : ∀ i, i < 2 * N → r.get i = some (if i % 2 = 0 then DISK_DARK else DISK_LIGHT)) :
    r = ⟨pairs DISK_DARK DISK_LIGHT N⟩ := by
  obtain ⟨row⟩ := r
  congr 1
  apply List.ext_getElem?
  intro i
  rw [pairs_getElem?]
  by_cases h : i < 2 * N
  · have := hg i h
    unfold disk_state.get disk_state.is_index at this
    rw [if_pos (by simpa [ht] using h)] at this
    rw [if_pos h]; exact this
  · rw [if_neg h]
    simp only [disk_state.total_count] at ht
    exact List.getElem?_eq_none (by omega)

theorem get_sorted_light (N i : Nat) (h : i < N) :
    (disk_state.mk (shape N 0 N)).get i = some DISK_LIGHT := by
  unfold disk_state.get disk_state.is_index disk_state.total_count
  rw [shape_length, if_pos (by simp; omega)]
  simp only [shape, pairs, List.nil_append]
  rw [List.getElem?_append_left (by simpa using h)]
  simp [List.getElem?_replicate, h]

theorem get_sorted_dark (N i : Nat) (h1 : N ≤ i) (h2 : i < 2 * N) :
    (disk_state.mk (shape N 0 N)).get i = some DISK_DARK := by
  unfold disk_state.get disk_state.is_index disk_state.total_count
  rw [shape_length, if_pos (by simp; omega)]
  simp only [shape, pairs, List.nil_append]
  rw [List.getElem?_append_right (by simpa using h1)]
  simp [List.getElem?_replicate]; omega

theorem is_alternating_pairs (N : Nat) (h1 : 1 ≤ N) :
    (disk_state.mk (pairs DISK_DARK DISK_LIGHT N)).is_alternating = some true := by
  have hne : (pairs DISK_DARK DISK_LIGHT N).isEmpty = false := by
    cases N with
    | zero => omega
    | succ N => rfl
  have := is_alternating_loop_pairs N []
  simp only [List.length_nil, List.nil_append] at this
  unfold disk_state.is_alternating disk_state.total_count
  rw [pairs_length, hne, if_neg (by simp; omega), show (2 * N + 1) / 2 = N by omega]
  exact this

theorem is_sorted_pairs (N : Nat) (h1 : 1 ≤ N) :
    (disk_state.mk (pairs DISK_DARK DISK_LIGHT N)).is_sorted = some false := by
  obtain ⟨M, rfl⟩ : ∃ M, N = M + 1 := ⟨N - 1, by omega⟩
  unfold disk_state.is_sorted disk_state.total_count
  rw [pairs_length, if_neg (by simp [pairs])]
  rw [show 2 * (M + 1) / 2 = M + 1 by omega]
  simp [pairs, disk_state.is_sorted_light]

/-- A forward pass whose bound lies beyond the row runs into a failed assertion. -/
theorem forward_pass_none (cnt : Nat) :
    ∀ (j : Nat) (s : disk_state) (swaps : Nat), 1 ≤ cnt → s.total_count < j + cnt →
      forward_pass cnt j s swaps = none := by
  induction cnt with
  | zero => intro j s swaps h; omega
  | succ cnt ih =>
    intro j s swaps _ hlt
    by_cases hj : j < s.total_count
    · have hc : 1 ≤ cnt := by omega
      have swap_len : ∀ s1, s.swap j = some s1 → s1.total_count = s.total_count := by
        intro s1 hs1
        unfold disk_state.swap at hs1
        split at hs1
        · simp only at hs1
          split at hs1
          · split at hs1
            · simp only [Option.some.injEq] at hs1
              rw [← hs1]; simp [disk_state.total_count]
            · exact absurd hs1 (by simp)
          · exact absurd hs1 (by simp)
        · exact absurd hs1 (by simp)
      simp only [forward_pass]
      cases hg : s.get j with
      | none => rfl
      | some a =>
        simp only
        split
        · cases hg1 : s.get (j + 1) with
          | none => rfl
          | some b =>
            simp only
            split
            · cases hs : s.swap j with
              | none => rfl
              | some s1 =>
                simp only
                exact ih (j + 1) s1 _ hc (by rw [swap_len s1 hs]; omega)
            · exact ih (j + 1) s swaps hc (by omega)
        · exact ih (j + 1) s swaps hc (by omega)
    · have : s.get j = none := by
        unfold disk_state.get disk_state.is_index
        rw [if_neg (by simpa using hj)]
      simp only [forward_pass, this]

end Disks

namespace Disks
open disk_color

theorem shape_zero_zero (N : Nat) : shape 0 N 0 = pairs DISK_DARK DISK_LIGHT N := by
  simp [shape]

/-- On the alternating row of `N` pairs the left-to-right algorithm returns `L^N D^N`. -/
theorem sort_left_to_right_pairs (N : Nat) (h2 : 2 * N < UNSIGNED_MOD) :
    ∃ swaps, sort_left_to_right ⟨pairs DISK_DARK DISK_LIGHT N⟩ = some ⟨⟨shape N 0 N⟩, swaps⟩ := by
  have hn : ((disk_state.mk (pairs DISK_DARK DISK_LIGHT N)).total_count / 2) % UNSIGNED_MOD
      = N := by
    simp only [disk_state.total_count, pairs_length]
    rw [Nat.mul_div_cancel_left N (by decide : 0 < 2)]
    exact Nat.mod_eq_of_lt (by omega)
  obtain ⟨w, _, hl⟩ := left_to_right_loop_shape N h2 N 0 0 (by omega) (by decide)
  rw [shape_zero_zero] at hl
  refine ⟨w, ?_⟩
  unfold sort_left_to_right
  simp only [hn, hl]

/-- On the alternating row of `N` pairs the lawnmower algorithm returns `L^N D^N`. -/
theorem sort_lawnmower_pairs (N : Nat) (h1 : 1 ≤ N) (h2 : 2 * N < UNSIGNED_MOD) :
    ∃ swaps, sort_lawnmower ⟨pairs DISK_DARK DISK_LIGHT N⟩ = some ⟨⟨shape N 0 N⟩, swaps⟩ := by
  have hn : ((disk_state.mk (pairs DISK_DARK DISK_LIGHT N)).total_count / 2) % UNSIGNED_MOD
      = N := by
    simp only [disk_state.total_count, pairs_length]
    rw [Nat.mul_div_cancel_left N (by decide : 0 < 2)]
    exact Nat.mod_eq_of_lt (by omega)
  obtain ⟨w, _, hl⟩ := lawnmower_loop_shape N h2 h1 (N / 2 + 1) 0 0 N 0 (by omega) (by omega)
    (by omega) (by decide)
  rw [shape_zero_zero] at hl
  refine ⟨w, ?_⟩
  unfold sort_lawnmower
  simp only [hn, hl]

theorem size_of_unsigned {N : Nat} (h : 2 * N < UNSIGNED_MOD) : 2 * N < SIZE_MOD := by
  unfold UNSIGNED_MOD at h; unfold SIZE_MOD; omega

/-- For `N = 2^31` the row has `2^32` disks and the `unsigned` product `2*n` wraps to 0:
the bound of the first inner loop is `2^64 - 1`, the pass leaves the row and an assertion of
`get` fails. -/
theorem first_pass_wraps (N : Nat) (hN : N = 2147483648) :
    (disk_state.mk (pairs DISK_DARK DISK_LIGHT N)).total_count / 2 % UNSIGNED_MOD = N
      ∧ forward_pass (pass_bound N 0 - 0) 0 ⟨pairs DISK_DARK DISK_LIGHT N⟩ 0 = none
      ∧ forward_pass (pass_bound N 0) 0 ⟨pairs DISK_DARK DISK_LIGHT N⟩ 0 = none := by
  have hb : pass_bound N 0 = 18446744073709551615 := by
    simp only [pass_bound, size_sub, SIZE_MOD, UNSIGNED_MOD]
    split_ifs <;> omega
  have ht : (disk_state.mk (pairs DISK_DARK DISK_LIGHT N)).total_count = 2 * N := by
    simp only [disk_state.total_count, pairs_length]
  refine ⟨?_, ?_, ?_⟩
  · rw [ht]; unfold UNSIGNED_MOD; omega
  · apply forward_pass_none
    · rw [hb]; omega
    · rw [hb, ht]; omega
  · apply forward_pass_none
    · rw [hb]; omega
    · rw [hb, ht]; omega

theorem length_eq_count (l : List disk_color) :
    l.length = l.count DISK_LIGHT + l.count DISK_DARK := by
  induction l with
  | nil => rfl
  | cons x l ih =>
    cases x <;> simp [List.count_cons, ih] <;> omega

/-- C1 (amended): for every N >= 1 with 2N < 2^32, `sort_left_to_right` applied to the
freshly constructed row `disk_state(N)` returns a row of length 2N whose first N disks are
light and whose last N disks are dark, and `is_sorted()` is true on it; N = 3 gives
`L L L D D D`. -/
theorem sort_left_to_right_fresh_row (N : Nat) (h1 : 1 ≤ N) (h2 : 2 * N < UNSIGNED_MOD) :
    (∃ before res, disk_state.new N = some before ∧ sort_left_to_right before = some res
      ∧ res.after.total_count = 2 * N ∧ before.total_count = 2 * N
      ∧ (∀ i, i < N → res.after.get i = some DISK_LIGHT)
      ∧ (∀ i, N ≤ i → i < 2 * N → res.after.get i = some DISK_DARK)
      ∧ res.after.is_sorted = some true)
    ∧ ((disk_state.new 3).bind sort_left_to_right).map (fun res => res.after)
        = some ⟨[DISK_LIGHT, DISK_LIGHT, DISK_LIGHT, DISK_DARK, DISK_DARK, DISK_DARK]⟩ := by
  obtain ⟨w, hs⟩ := sort_left_to_right_pairs N h2
  refine ⟨⟨_, _, new_eq N h1 (size_of_unsigned h2), hs, ?_, ?_, ?_, ?_, ?_⟩, by decide⟩
  · simp only [disk_state.total_count, shape_length]; omega
  · simp only [disk_state.total_count, pairs_length]
  · intro i hi; exact get_sorted_light N i hi
  · intro i hi hi2; exact get_sorted_dark N i hi hi2
  · exact is_sorted_shape N h1

theorem sort_left_to_right_fresh_row_witness :
    1 ≤ 3 ∧ 2 * 3 < UNSIGNED_MOD ∧
    ∃ before res, disk_state.new 3 = some before ∧ sort_left_to_right before = some res
      ∧ res.after.total_count = 2 * 3 ∧ before.total_count = 2 * 3
      ∧ (∀ i, i < 3 → res.after.get i = some DISK_LIGHT)
      ∧ (∀ i, 3 ≤ i → i < 2 * 3 → res.after.get i = some DISK_DARK)
      ∧ res.after.is_sorted = some true :=
  ⟨by decide, by decide, (sort_left_to_right_fresh_row 3 (by decide) (by decide)).1⟩

theorem sort_left_to_right_wraps (N : Nat) (hN : N = 2147483648) :
    ∃ before, disk_state.new N = some before ∧ sort_left_to_right before = none := by
  obtain ⟨hn, hf, _⟩ := first_pass_wraps N hN
  refine ⟨_, new_eq N (by omega) (by unfold SIZE_MOD; omega), ?_⟩
  unfold sort_left_to_right
  simp only [hn]
  obtain ⟨M, hM⟩ : ∃ M, N = M + 1 := ⟨N - 1, by omega⟩
  have e : left_to_right_loop N N 0 ⟨pairs DISK_DARK DISK_LIGHT N⟩ 0
      = left_to_right_loop N (M + 1) 0 ⟨pairs DISK_DARK DISK_LIGHT N⟩ 0 := by rw [← hM]
  rw [e]
  simp only [left_to_right_loop, hf]

/-- C1 as stated fails at N = 2^31: the row has 2^32 disks, `2*n` wraps to 0 in `unsigned`
arithmetic, the first inner loop runs past the end of the row and an assertion of `get`
fails, so no row is returned. -/
theorem sort_left_to_right_fresh_row_wraps :
    ∃ before, disk_state.new 2147483648 = some before ∧ sort_left_to_right before = none :=
  sort_left_to_right_wraps 2147483648 rfl


theorem sort_lawnmower_wraps (N : Nat) (hN : N = 2147483648) :
    ∃ before, disk_state.new N = some before ∧ sort_lawnmower before = none := by
  obtain ⟨hn, _, hf⟩ := first_pass_wraps N hN
  refine ⟨_, new_eq N (by omega) (by unfold SIZE_MOD; omega), ?_⟩
  unfold sort_lawnmower
  simp only [hn]
  rw [lawnmower_loop_succ, hf]

/-- C2 (amended): for every N >= 1 with 2N < 2^32, `sort_lawnmower` applied to the freshly
constructed row `disk_state(N)` returns a row on which `is_sorted()` is true (N light, then N
dark), and that row is the row returned by `sort_left_to_right` on the same input, disk by
disk. -/
theorem sort_lawnmower_fresh_row (N : Nat) (h1 : 1 ≤ N) (h2 : 2 * N < UNSIGNED_MOD) :
    ∃ before lawn ltr, disk_state.new N = some before
      ∧ sort_lawnmower before = some lawn ∧ sort_left_to_right before = some ltr
      ∧ lawn.after.is_sorted = some true
      ∧ (∀ i, i < N → lawn.after.get i = some DISK_LIGHT)
      ∧ (∀ i, N ≤ i → i < 2 * N → lawn.after.get i = some DISK_DARK)
      ∧ lawn.after = ltr.after
      ∧ (∀ i, lawn.after.get i = ltr.after.get i) := by
  obtain ⟨w, hs⟩ := sort_left_to_right_pairs N h2
  obtain ⟨v, hl⟩ := sort_lawnmower_pairs N h1 h2
  exact ⟨_, _, _, new_eq N h1 (size_of_unsigned h2), hl, hs, is_sorted_shape N h1,
    fun i hi => get_sorted_light N i hi, fun i hi hi2 => get_sorted_dark N i hi hi2, rfl,
    fun _ => rfl⟩

theorem sort_lawnmower_fresh_row_witness :
    1 ≤ 3 ∧ 2 * 3 < UNSIGNED_MOD ∧
    ∃ before lawn ltr, disk_state.new 3 = some before
      ∧ sort_lawnmower before = some lawn ∧ sort_left_to_right before = some ltr
      ∧ lawn.after.is_sorted = some true
      ∧ (∀ i, i < 3 → lawn.after.get i = some DISK_LIGHT)
      ∧ (∀ i, 3 ≤ i → i < 2 * 3 → lawn.after.get i = some DISK_DARK)
      ∧ lawn.after = ltr.after
      ∧ (∀ i, lawn.after.get i = ltr.after.get i) :=
  ⟨by decide, by decide, sort_lawnmower_fresh_row 3 (by decide) (by decide)⟩

/-- C2 as stated fails at N = 2^31: `2*n` wraps to 0 in `unsigned` arithmetic, the first
forward pass of the lawnmower runs past the end of the row and an assertion fails. -/
theorem sort_lawnmower_fresh_row_wraps :
    ∃ before, disk_state.new 2147483648 = some before ∧ sort_lawnmower before = none :=
  sort_lawnmower_wraps 2147483648 rfl

theorem unsigned_of_square {N : Nat} (h : N * N < UNSIGNED_MOD) : 2 * N < UNSIGNED_MOD := by
  have hN : N < 65536 := by
    by_contra hc
    have h65 : 65536 ≤ N := Nat.le_of_not_lt hc
    have := Nat.mul_le_mul h65 h65
    unfold UNSIGNED_MOD at h
    omega
  unfold UNSIGNED_MOD
  omega

/-- C7: for every disk row with N light and N dark disks (N >= 1, N squared below 2^32), the
`swap_count` reported by `sort_left_to_right` and the `swap_count` reported by
`sort_lawnmower` are each at most N squared. -/
theorem swap_count_le_square (r : disk_state) (N : Nat) (h1 : 1 ≤ N)
    (hsq : N * N < UNSIGNED_MOD)
    (hl : r.colors.count DISK_LIGHT = N) (hd : r.colors.count DISK_DARK = N) :
    ∃ ltr lawn, sort_left_to_right r = some ltr ∧ sort_lawnmower r = some lawn
      ∧ ltr.swap_count ≤ N * N ∧ lawn.swap_count ≤ N * N := by
  have h2 : 2 * N < UNSIGNED_MOD := unsigned_of_square hsq
  have ht : r.total_count = 2 * N := by
    unfold disk_state.total_count
    rw [length_eq_count, hl, hd]; omega
  have hinv : inversions DISK_DARK DISK_LIGHT r.colors ≤ N * N := by
    have := inversions_le DISK_DARK DISK_LIGHT r.colors
    rwa [hl, hd] at this
  obtain ⟨a, ha, _, _, hia⟩ := sort_left_to_right_general r N h2 ht (by omega)
  obtain ⟨b, hb, _, _, hib⟩ := sort_lawnmower_general r N h2 h1 ht (by omega)
  exact ⟨a, b, ha, hb, by omega, by omega⟩

theorem swap_count_le_square_witness :
    ∃ ltr lawn,
      sort_left_to_right ⟨[DISK_DARK, DISK_DARK, DISK_LIGHT, DISK_LIGHT]⟩ = some ltr
      ∧ sort_lawnmower ⟨[DISK_DARK, DISK_DARK, DISK_LIGHT, DISK_LIGHT]⟩ = some lawn
      ∧ ltr.swap_count ≤ 2 * 2 ∧ lawn.swap_count ≤ 2 * 2 :=
  swap_count_le_square ⟨[DISK_DARK, DISK_DARK, DISK_LIGHT, DISK_LIGHT]⟩ 2
    (by decide) (by decide) (by decide) (by decide)

/-- C9 (amended): for every N >= 1 with 2N < 2^64, the row `disk_state(N)` has
`total_count() = 2N`, `light_count() = dark_count() = N`, holds dark at every even index and
light at every odd index, and on it `is_alternating()` is true and `is_sorted()` is false. -/
theorem fresh_row_alternating (N : Nat) (h1 : 1 ≤ N) (h2 : 2 * N < SIZE_MOD) :
    ∃ r, disk_state.new N = some r
      ∧ r.total_count = 2 * N ∧ r.light_count = N ∧ r.dark_count = N
      ∧ (∀ i, i < 2 * N → i % 2 = 0 → r.get i = some DISK_DARK)
      ∧ (∀ i, i < 2 * N → i % 2 = 1 → r.get i = some DISK_LIGHT)
      ∧ r.is_alternating = some true ∧ r.is_sorted = some false := by
  have ht : (disk_state.mk (pairs DISK_DARK DISK_LIGHT N)).total_count = 2 * N := by
    simp only [disk_state.total_count, pairs_length]
  refine ⟨_, new_eq N h1 h2, ht, ?_, ?_, ?_, ?_, is_alternating_pairs N h1, is_sorted_pairs N h1⟩
  · unfold disk_state.light_count; rw [ht]; omega
  · unfold disk_state.dark_count disk_state.light_count; rw [ht]; omega
  · intro i hi he
    rw [get_pairs N i hi, if_pos he]
  · intro i hi ho
    rw [get_pairs N i hi, if_neg (by omega)]

theorem fresh_row_alternating_witness :
    1 ≤ 3 ∧ 2 * 3 < SIZE_MOD ∧
    ∃ r, disk_state.new 3 = some r
      ∧ r.total_count = 2 * 3 ∧ r.light_count = 3 ∧ r.dark_count = 3
      ∧ (∀ i, i < 2 * 3 → i % 2 = 0 → r.get i = some DISK_DARK)
      ∧ (∀ i, i < 2 * 3 → i % 2 = 1 → r.get i = some DISK_LIGHT)
      ∧ r.is_alternating = some true ∧ r.is_sorted = some false :=
  ⟨by decide, by decide, fresh_row_alternating 3 (by decide) (by decide)⟩

/-- C9 as stated fails at N = 2^63: the `size_t` product `light_count * 2` wraps to 0, the
assertion `light_count > 0` holds, and the constructed row is empty, so `total_count()` is 0
and `is_alternating()` is false. -/
theorem fresh_row_wraps :
    disk_state.new 9223372036854775808 = some ⟨[]⟩
      ∧ (disk_state.mk []).total_count = 0
      ∧ (disk_state.mk []).light_count = 0
      ∧ (disk_state.mk []).is_alternating = some false := by
  decide

/-- C10, evaluated on the row `D D L L` (reached from `disk_state(2)` by `swap(1)`): the row
is not in alternating format, index 1 holds dark and index 2 holds light, and
`is_alternating()` returns true on it. -/
theorem is_alternating_accepts_unalternating_row :
    (disk_state.new 2).bind (fun r => r.swap 1)
        = some ⟨[DISK_DARK, DISK_DARK, DISK_LIGHT, DISK_LIGHT]⟩
      ∧ (disk_state.mk [DISK_DARK, DISK_DARK, DISK_LIGHT, DISK_LIGHT]).get 1 = some DISK_DARK
      ∧ (disk_state.mk [DISK_DARK, DISK_DARK, DISK_LIGHT, DISK_LIGHT]).get 2 = some DISK_LIGHT
      ∧ (disk_state.mk [DISK_DARK, DISK_DARK, DISK_LIGHT, DISK_LIGHT]).is_alternating
        = some true := by
  decide

end Disks

namespace Subsequence

theorem is_increasing_loop_eq (rest : sequence) :
    ∀ (pre : sequence) (x : Int),
      is_increasing_loop rest.length (pre.length + 1) (pre ++ x :: rest)
        = some (decide ((x :: rest).Chain' (· < ·))) := by
  induction rest with
  | nil => intro pre x; simp [is_increasing_loop]
  | cons y rest ih =>
    intro pre x
    have h := ih (pre ++ [x]) y
    simp only [List.length_append, List.length_cons, List.length_nil, List.append_assoc,
      List.cons_append, List.nil_append, zero_add] at h
    simp only [List.length_cons, is_increasing_loop, Nat.add_sub_cancel, getElem?_append_cons,
      getElem?_append_cons_succ, List.chain'_cons]
    by_cases hxy : x < y
    · simp only [hxy, not_true_eq_false, if_false, true_and]
      exact h
    · simp [hxy]

/-- The result of `is_increasing`: it never throws, and it is true exactly on the
sequences whose neighbours are strictly increasing. -/
theorem is_increasing_eq (A : sequence) :
    is_increasing A = some (decide (A.Chain' (· < ·))) := by
  cases A with
  | nil => simp [is_increasing, is_increasing_loop]
  | cons x rest =>
    have := is_increasing_loop_eq rest [] x
    simpa [is_increasing] using this

theorem chain'_iff_getD (A : sequence) :
    A.Chain' (· < ·) ↔ ∀ i, 1 ≤ i → i < A.length → A.getD (i - 1) 0 < A.getD i 0 := by
  induction A with
  | nil => simp
  | cons x rest ih =>
    cases rest with
    | nil =>
      simp only [List.chain'_singleton, List.length_cons, List.length_nil, true_iff]
      intro i h1 h2; omega
    | cons y rest =>
      rw [List.chain'_cons, ih]
      constructor
      · rintro ⟨hxy, h⟩ i h1 h2
        rcases i with _ | _ | i
        · omega
        · simpa using hxy
        · have := h (i + 1) (by omega) (by simp only [List.length_cons] at h2 ⊢; omega)
          simpa using this
      · intro h
        refine ⟨by simpa using h 1 (by omega) (by simp), ?_⟩
        intro i h1 h2
        have := h (i + 1) (by omega) (by simp only [List.length_cons] at h2 ⊢; omega)
        obtain ⟨j, rfl⟩ : ∃ j, i = j + 1 := ⟨i - 1, by omega⟩
        simpa using this

theorem size_add_eq {a b : Nat} (h : a + b < SIZE_MOD) : size_add a b = a + b := by
  unfold size_add; exact Nat.mod_eq_of_lt h

theorem size_sub_one_eq {a : Nat} (h1 : 1 ≤ a) (h : a < SIZE_MOD) : size_sub a 1 = a - 1 := by
  unfold size_sub
  unfold SIZE_MOD at h ⊢
  have e1 : a % 18446744073709551616 = a := Nat.mod_eq_of_lt h
  have e2 : 1 % 18446744073709551616 = 1 := by decide
  rw [e1, e2, if_pos h1]

/-- The push branch: `stack[k + 1] = stack[k] + 1; k++`. -/
theorem advance_push (n : Nat) (pre : List Nat) (m j : Nat) (junk : List Nat) (hm : m < n)
    (hn : n < SIZE_MOD) (hlen : pre.length + 1 < SIZE_MOD) :
    advance n (pre ++ m :: j :: junk) pre.length
      = some ((pre ++ [m]) ++ (m + 1) :: junk, pre.length + 1) := by
  unfold advance
  rw [getElem?_append_cons]
  simp only [hm, if_true, size_add_eq hlen, size_add_eq (show m + 1 < SIZE_MOD by omega)]
  rw [if_pos (by simp)]
  rw [set_append_cons_succ]
  simp

/-- The pop branch: `stack[k - 1]++; k--`. -/
theorem advance_pop (n : Nat) (pre : List Nat) (t m : Nat) (junk : List Nat) (hm : ¬ m < n)
    (ht : t + 1 < SIZE_MOD) (hlen : pre.length + 1 < SIZE_MOD) :
    advance n (pre ++ t :: m :: junk) (pre.length + 1)
      = some (pre ++ (t + 1) :: m :: junk, pre.length) := by
  unfold advance
  rw [getElem?_append_cons_succ]
  simp only [hm, if_false, size_sub_one_eq (show 1 ≤ pre.length + 1 by omega) hlen,
    Nat.add_sub_cancel, getElem?_append_cons, size_add_eq ht, set_append_cons]

/-- Building the candidate reads the values of `A` at the positions on the stack. -/
theorem build_candidate_eq (A : sequence) (hA : A.length < SIZE_MOD) (q : List Nat) :
    ∀ (done junk : List Nat) (candidate : sequence),
      (∀ s ∈ q, 1 ≤ s ∧ s ≤ A.length) →
      build_candidate A (done ++ (q ++ junk)) q.length done.length candidate
        = some (candidate ++ pick A q) := by
  induction q with
  | nil => intro done junk candidate _; simp [build_candidate, pick]
  | cons s q ih =>
    intro done junk candidate hq
    obtain ⟨hs1, hs2⟩ := hq s (List.mem_cons_self _ _)
    have h := ih (done ++ [s]) junk (candidate ++ [A.getD (s - 1) 0])
      (fun x hx => hq x (List.mem_cons_of_mem _ hx))
    simp only [List.length_append, List.length_cons, List.length_nil, List.append_assoc,
      List.cons_append, List.nil_append, zero_add] at h
    have hget : A[s - 1]? = some (A.getD (s - 1) 0) := by
      rw [List.getD_eq_getElem?_getD, List.getElem?_eq_getElem (by omega)]
      rfl
    simp only [List.length_cons, build_candidate, List.cons_append, getElem?_append_cons,
      size_sub_one_eq hs1 (show s < SIZE_MOD by omega), hget, h, pick, List.map_cons]

/-- One iteration of the loop that does not reach depth 0. -/
theorem powerset_loop_step (A : sequence) (n fuel : Nat) (stack stack1 : List Nat) (k k1 : Nat)
    (best candidate : sequence) (ha : advance n stack k = some (stack1, k1)) (hk : k1 ≠ 0)
    (hc : build_candidate A stack1 k1 1 [] = some candidate) :
    powerset_loop A n (fuel + 1) stack k best
      = powerset_loop A n fuel stack1 k1 (update best candidate) := by
  simp only [powerset_loop, ha, hk, if_false, hc, is_increasing_eq, update]
  split <;> rfl

/-- The iteration that reaches depth 0 returns `best`. -/
theorem powerset_loop_stop (A : sequence) (n fuel : Nat) (stack stack1 : List Nat) (k : Nat)
    (best : sequence) (ha : advance n stack k = some (stack1, 0)) :
    powerset_loop A n (fuel + 1) stack k best = outcome.value best := by
  simp only [powerset_loop, ha, if_true]

/-- From a stack whose top entry is `m`, the loop visits the `extensions` of the current
selection and arrives, after `2^(d+1) - 2` iterations, at the same depth with top entry `n`. -/
theorem powerset_loop_climb (A : sequence) (hA : A.length + 1 < SIZE_MOD) (d : Nat) :
    ∀ (tl : List Nat) (m : Nat) (junk : List Nat) (best : sequence) (fuel h : Nat),
      m + d = A.length → 1 ≤ m → (∀ s ∈ tl, 1 ≤ s ∧ s ≤ A.length) → d ≤ junk.length →
      tl.length + junk.length + 2 < SIZE_MOD →
      ∃ junk1, junk1.length = junk.length ∧
        powerset_loop A A.length (fuel + (2 ^ (d + 1) - 2)) ((h :: tl) ++ m :: junk)
            (tl.length + 1) best
          = powerset_loop A A.length fuel ((h :: tl) ++ A.length :: junk1) (tl.length + 1)
              (List.foldl update best ((extensions d tl m).map (pick A))) := by
  induction d with
  | zero =>
    intro tl m junk best fuel h hm _ _ _ _
    have : m = A.length := by omega
    subst this
    exact ⟨junk, rfl, by simp [extensions]⟩
  | succ d ih =>
    intro tl m junk best fuel h hm hm1 htl hj hlen
    obtain ⟨j, junk1, rfl⟩ : ∃ j junk1, junk = j :: junk1 := by
      cases junk with
      | nil => simp at hj
      | cons j junk1 => exact ⟨j, junk1, rfl⟩
    simp only [List.length_cons] at hj hlen
    have hP : 2 ≤ 2 ^ (d + 1) := by
      have := Nat.one_le_two_pow (n := d)
      rw [pow_succ]; omega
    have hP2 : 2 ^ (d + 1 + 1) = 2 * 2 ^ (d + 1) := by rw [pow_succ]; ring
    -- the push
    have hpush := advance_push A.length (h :: tl) m j junk1 (by omega) (by omega)
      (by simp only [List.length_cons]; omega)
    simp only [List.length_cons] at hpush
    have hcand1 : build_candidate A (((h :: tl) ++ [m]) ++ (m + 1) :: junk1) (tl.length + 1 + 1)
        1 [] = some (pick A (tl ++ [m, m + 1])) := by
      have := build_candidate_eq A (by omega) (tl ++ [m, m + 1]) [h] junk1 []
        (by
          intro s hs
          rcases List.mem_append.mp hs with hs | hs
          · exact htl s hs
          · simp only [List.mem_cons, List.mem_singleton, List.not_mem_nil, or_false] at hs
            rcases hs with rfl | rfl <;> omega)
      simpa using this
    have hstep1 := powerset_loop_step A A.length
      (fuel + (2 ^ (d + 1) - 2) + 1 + (2 ^ (d + 1) - 2)) _ _ _ _ best _ hpush (by omega) hcand1
    -- the extensions of `tl ++ [m]`
    obtain ⟨junk2, hj2, hclimb1⟩ := ih (tl ++ [m]) (m + 1) junk1
      (update best (pick A (tl ++ [m, m + 1]))) (fuel + (2 ^ (d + 1) - 2) + 1) h
      (by omega) (by omega)
      (by
        intro s hs
        rcases List.mem_append.mp hs with hs | hs
        · exact htl s hs
        · simp only [List.mem_singleton] at hs
          subst hs; omega)
      (by omega) (by simp only [List.length_append, List.length_cons, List.length_nil]; omega)
    -- the pop
    have hpop := advance_pop A.length (h :: tl) m A.length junk2 (by omega) (by omega)
      (by simp only [List.length_cons]; omega)
    simp only [List.length_cons] at hpop
    have hcand2 : build_candidate A ((h :: tl) ++ (m + 1) :: A.length :: junk2) (tl.length + 1)
        1 [] = some (pick A (tl ++ [m + 1])) := by
      have := build_candidate_eq A (by omega) (tl ++ [m + 1]) [h] (A.length :: junk2) []
        (by
          intro s hs
          rcases List.mem_append.mp hs with hs | hs
          · exact htl s hs
          · simp only [List.mem_singleton] at hs
            subst hs; omega)
      simpa using this
    have hstep2 := powerset_loop_step A A.length (fuel + (2 ^ (d + 1) - 2)) _ _ _ _
      (List.foldl update (update best (pick A (tl ++ [m, m + 1])))
        ((extensions d (tl ++ [m]) (m + 1)).map (pick A))) _ hpop (by omega) hcand2
    -- the extensions of `tl` with top entry `m + 1`
    obtain ⟨junk3, hj3, hclimb2⟩ := ih tl (m + 1) (A.length :: junk2)
      (update (List.foldl update (update best (pick A (tl ++ [m, m + 1])))
        ((extensions d (tl ++ [m]) (m + 1)).map (pick A))) (pick A (tl ++ [m + 1])))
      fuel h (by omega) (by omega) htl (by simp only [List.length_cons]; omega)
      (by simp only [List.length_cons]; omega)
    refine ⟨junk3, by simp only [hj3, List.length_cons, hj2], ?_⟩
    have hfuel : fuel + (2 ^ (d + 1 + 1) - 2)
        = fuel + (2 ^ (d + 1) - 2) + 1 + (2 ^ (d + 1) - 2) + 1 := by omega
    have e1 : (h :: (tl ++ [m])) ++ (m + 1) :: junk1 = ((h :: tl) ++ [m]) ++ (m + 1) :: junk1 := by
      simp
    have e2 : (h :: (tl ++ [m])) ++ A.length :: junk2 = (h :: tl) ++ m :: A.length :: junk2 := by
      simp
    simp only [List.length_append, List.length_cons, List.length_nil, zero_add] at hclimb1
    rw [e1, e2] at hclimb1
    rw [hfuel, hstep1, hclimb1, hstep2, hclimb2]
    simp only [extensions, List.map_cons, List.map_append, List.foldl_cons, List.foldl_append]

/-- On a non-empty sequence the search returns the fold of `update` over the candidates of
all `selections`, in the order of the visits; the `2 ^ n` iterations use up the fuel
exactly. -/
theorem longest_increasing_powerset_eq (A : sequence) (h1 : 1 ≤ A.length)
    (hA : A.length + 1 < SIZE_MOD) :
    longest_increasing_powerset A
      = outcome.value (List.foldl update [] ((selections A.length).map (pick A))) := by
  obtain ⟨n, hn⟩ : ∃ n, A.length = n + 1 := ⟨A.length - 1, by omega⟩
  have hP : 2 ≤ 2 ^ (n + 1) := by
    have := Nat.one_le_two_pow (n := n)
    rw [pow_succ]; omega
  -- the first iteration pushes position 1
  have hpush := advance_push A.length [] 0 0 (List.replicate n 0) (by omega) (by omega)
    (by unfold SIZE_MOD; simp)
  have hcand : build_candidate A (([] ++ [0]) ++ (0 + 1) :: List.replicate n 0) 1 1 []
      = some (pick A [1]) := by
    have := build_candidate_eq A (by omega) [1] [0] (List.replicate n 0) []
      (by intro s hs; simp only [List.mem_singleton] at hs; subst hs; omega)
    simpa using this
  have hstep := powerset_loop_step A A.length (1 + (2 ^ (n + 1) - 2)) _ _ _ _ [] _ hpush
    (by simp) hcand
  -- the climb from `[1]` to `[n]`
  obtain ⟨junk, _, hclimb⟩ := powerset_loop_climb A hA n [] 1 (List.replicate n 0)
    (update [] (pick A [1])) 1 0 (by omega) (by omega) (by simp) (by simp)
    (by simp only [List.length_nil, List.length_replicate]; omega)
  -- the last iteration pops to depth 0
  have hpop := advance_pop A.length [] 0 A.length junk (by omega) (by unfold SIZE_MOD; omega)
    (by unfold SIZE_MOD; simp)
  have hstop := powerset_loop_stop A A.length 0 _ _ _
    (List.foldl update (update [] (pick A [1])) ((extensions n [] 1).map (pick A))) hpop
  have hstack : List.replicate (size_add A.length 1) 0 = [] ++ 0 :: 0 :: List.replicate n 0 := by
    rw [size_add_eq hA, hn]
    simp [List.replicate_succ]
  have hfuel : 2 ^ A.length = 1 + (2 ^ (n + 1) - 2) + 1 := by rw [hn]; omega
  unfold longest_increasing_powerset
  simp only [hstack, hfuel]
  simp only [List.length_nil, List.nil_append, zero_add, List.singleton_append]
    at hstep hclimb hstop ⊢
  rw [hstep, hclimb, hstop]
  simp only [selections, hn, Nat.add_sub_cancel, List.map_cons, List.foldl_cons]

theorem update_length_le (best candidate : sequence) :
    best.length ≤ (update best candidate).length := by
  unfold update
  split
  · rename_i h
    simp only [Bool.and_eq_true, decide_eq_true_eq] at h
    omega
  · exact Nat.le_refl _

theorem foldl_update_length_le (cs : List sequence) :
    ∀ best, best.length ≤ (List.foldl update best cs).length := by
  induction cs with
  | nil => intro best; exact Nat.le_refl _
  | cons c cs ih =>
    intro best
    exact le_trans (update_length_le best c) (ih _)

/-- The fold keeps a candidate at least as long as every strictly increasing one. -/
theorem foldl_update_longest (cs : List sequence) :
    ∀ best c, c ∈ cs → c.Chain' (· < ·) → c.length ≤ (List.foldl update best cs).length := by
  induction cs with
  | nil => intro best c hc; simp at hc
  | cons c0 cs ih =>
    intro best c hc hinc
    rcases List.mem_cons.mp hc with rfl | hc
    · refine le_trans ?_ (foldl_update_length_le cs _)
      unfold update
      split
      · exact Nat.le_refl _
      · rename_i h
        simp only [Bool.and_eq_true, decide_eq_true_eq, hinc, true_and, not_lt] at h
        exact h
    · exact ih _ c hc hinc

/-- The fold returns its start value or a strictly increasing candidate. -/
theorem foldl_update_mem (cs : List sequence) :
    ∀ best, List.foldl update best cs = best
      ∨ (List.foldl update best cs ∈ cs ∧ (List.foldl update best cs).Chain' (· < ·)) := by
  induction cs with
  | nil => intro best; exact Or.inl rfl
  | cons c cs ih =>
    intro best
    rcases ih (update best c) with h | ⟨h1, h2⟩
    · simp only [List.foldl_cons, h]
      unfold update
      split
      · rename_i hc
        simp only [Bool.and_eq_true, decide_eq_true_eq] at hc
        exact Or.inr ⟨List.mem_cons_self _ _, hc.1⟩
      · exact Or.inl rfl
    · exact Or.inr ⟨List.mem_cons_of_mem _ h1, h2⟩

/-- Every visited selection extends the prefix by a non-empty strictly increasing list of
positions between `m` and `m + d`. -/
theorem extensions_sound (d : Nat) :
    ∀ (p : List Nat) (m : Nat) (q : List Nat), q ∈ extensions d p m →
      ∃ u, q = p ++ u ∧ u ≠ [] ∧ u.Pairwise (· < ·) ∧ ∀ s ∈ u, m ≤ s ∧ s ≤ m + d := by
  induction d with
  | zero => intro p m q hq; simp [extensions] at hq
  | succ d ih =>
    intro p m q hq
    simp only [extensions, List.mem_cons, List.mem_append] at hq
    rcases hq with rfl | hq | rfl | hq
    · exact ⟨[m, m + 1], rfl, by simp, by simp, by
        intro s hs
        simp only [List.mem_cons, List.mem_singleton, List.not_mem_nil, or_false] at hs
        rcases hs with rfl | rfl <;> omega⟩
    · obtain ⟨u, rfl, _, hu2, hu3⟩ := ih (p ++ [m]) (m + 1) q hq
      refine ⟨m :: u, by simp, by simp, ?_, ?_⟩
      · rw [List.pairwise_cons]
        exact ⟨fun s hs => by have := hu3 s hs; omega, hu2⟩
      · intro s hs
        rcases List.mem_cons.mp hs with rfl | hs
        · omega
        · have := hu3 s hs; omega
    · exact ⟨[m + 1], rfl, by simp, by simp, by
        intro s hs
        simp only [List.mem_singleton] at hs
        subst hs; omega⟩
    · obtain ⟨u, rfl, hu1, hu2, hu3⟩ := ih p (m + 1) q hq
      exact ⟨u, rfl, hu1, hu2, fun s hs => by have := hu3 s hs; omega⟩

/-- Every non-empty strictly increasing list of positions between `m` and `m + d`, other than
`[m]` itself, is visited. -/
theorem extensions_complete (d : Nat) :
    ∀ (p : List Nat) (m : Nat) (u : List Nat), u ≠ [] → u.Pairwise (· < ·) →
      (∀ s ∈ u, m ≤ s ∧ s ≤ m + d) → u ≠ [m] → p ++ u ∈ extensions d p m := by
  induction d with
  | zero =>
    intro p m u hne hpair hu hnm
    exfalso
    cases u with
    | nil => exact hne rfl
    | cons x u =>
      have hx := hu x (List.mem_cons_self _ _)
      have hxm : x = m := by omega
      cases u with
      | nil => exact hnm (by rw [hxm])
      | cons y u =>
        have hy := hu y (by simp)
        have := (List.pairwise_cons.mp hpair).1 y (List.mem_cons_self _ _)
        omega
  | succ d ih =>
    intro p m u hne hpair hu hnm
    cases u with
    | nil => exact absurd rfl hne
    | cons x u =>
      have hx := hu x (List.mem_cons_self _ _)
      obtain ⟨hxu, hpu⟩ := List.pairwise_cons.mp hpair
      simp only [extensions, List.mem_cons, List.mem_append]
      by_cases hxm : x = m
      · subst hxm
        have hune : u ≠ [] := fun h => hnm (by rw [h])
        have hu' : ∀ s ∈ u, x + 1 ≤ s ∧ s ≤ x + 1 + d := by
          intro s hs
          have h1 := hxu s hs
          have h2 := hu s (List.mem_cons_of_mem _ hs)
          omega
        by_cases hu1 : u = [x + 1]
        · left; rw [hu1]
        · right; left
          have := ih (p ++ [x]) (x + 1) u hune hpu hu' hu1
          simpa using this
      · have hu' : ∀ s ∈ x :: u, m + 1 ≤ s ∧ s ≤ m + 1 + d := by
          intro s hs
          have h2 := hu s hs
          rcases List.mem_cons.mp hs with rfl | hs'
          · omega
          · have h1 := hxu s hs'
            omega
        by_cases hu1 : x :: u = [m + 1]
        · right; right; left; rw [hu1]
        · right; right; right
          exact ih p (m + 1) (x :: u) hne hpair hu' hu1

theorem selections_sound (n : Nat) (hn : 1 ≤ n) (q : List Nat) (hq : q ∈ selections n) :
    q ≠ [] ∧ q.Pairwise (· < ·) ∧ ∀ s ∈ q, 1 ≤ s ∧ s ≤ n := by
  simp only [selections, List.mem_cons] at hq
  rcases hq with rfl | hq
  · exact ⟨by simp, by simp, by intro s hs; simp only [List.mem_singleton] at hs; omega⟩
  · obtain ⟨u, rfl, hu1, hu2, hu3⟩ := extensions_sound (n - 1) [] 1 q hq
    exact ⟨by simpa using hu1, by simpa using hu2, fun s hs => by
      have := hu3 s (by simpa using hs)
      omega⟩

theorem selections_complete (n : Nat) (q : List Nat) (hne : q ≠ []) (hpair : q.Pairwise (· < ·))
    (hq : ∀ s ∈ q, 1 ≤ s ∧ s ≤ n) : q ∈ selections n := by
  simp only [selections, List.mem_cons]
  by_cases h1 : q = [1]
  · exact Or.inl h1
  · right
    have := extensions_complete (n - 1) [] 1 q hne hpair
      (fun s hs => by have := hq s hs; omega) h1
    simpa using this

end Subsequence

namespace Subsequence

/-- C8: for every integer sequence A, `is_increasing(A)` returns (it does not throw), and it
is true exactly when `A[i-1] < A[i]` for every index i with `1 <= i < length(A)`; so it is
true for the empty sequence and every one-element sequence, false for a sequence with two
equal or descending neighbours, and false for `[3,1,2]`. -/
theorem is_increasing_iff (A : sequence) :
    (∃ b, is_increasing A = some b)
      ∧ (is_increasing A = some true
          ↔ ∀ i, 1 ≤ i → i < A.length → A.getD (i - 1) 0 < A.getD i 0)
      ∧ (is_increasing A = some false
          ↔ ∃ i, 1 ≤ i ∧ i < A.length ∧ A.getD i 0 ≤ A.getD (i - 1) 0)
      ∧ is_increasing [] = some true
      ∧ (∀ x : Int, is_increasing [x] = some true)
      ∧ is_increasing [3, 1, 2] = some false := by
  refine ⟨⟨_, is_increasing_eq A⟩, ?_, ?_, by decide, ?_, by decide⟩
  · rw [is_increasing_eq, ← chain'_iff_getD]
    simp
  · rw [is_increasing_eq]
    have := chain'_iff_getD A
    simp only [Option.some.injEq, decide_eq_false_iff_not, this]
    push_neg
    constructor
    · rintro ⟨i, h1, h2, h3⟩; exact ⟨i, h1, h2, h3⟩
    · rintro ⟨i, h1, h2, h3⟩; exact ⟨i, h1, h2, h3⟩
  · intro x
    rw [is_increasing_eq]
    simp

theorem length_pos_of_ne_nil (A : sequence) (hne : A ≠ []) : 1 ≤ A.length := by
  cases A with
  | nil => exact absurd rfl hne
  | cons x A => simp

theorem pick_length (A : sequence) (q : List Nat) : (pick A q).length = q.length := by
  simp [pick]

/-- The values at strictly increasing positions form a sublist. -/
theorem pick_sublist (A : sequence) (q : List Nat) :
    ∀ lo, q.Pairwise (· < ·) → (∀ s ∈ q, lo < s ∧ s ≤ A.length) →
      (pick A q).Sublist (A.drop lo) := by
  induction q with
  | nil => intro lo _ _; simp [pick]
  | cons s q ih =>
    intro lo hpair hq
    obtain ⟨hsq, hpq⟩ := List.pairwise_cons.mp hpair
    obtain ⟨hs1, hs2⟩ := hq s (List.mem_cons_self _ _)
    have hlt : s - 1 < A.length := by omega
    have hrec := ih s hpq (fun x hx => ⟨hsq x hx, (hq x (List.mem_cons_of_mem _ hx)).2⟩)
    have hdrop : A.drop (s - 1) = A.getD (s - 1) 0 :: A.drop s := by
      rw [List.drop_eq_getElem_cons hlt, List.getD_eq_getElem?_getD,
        List.getElem?_eq_getElem hlt, show s - 1 + 1 = s by omega]
      rfl
    have h1 : (pick A (s :: q)).Sublist (A.drop (s - 1)) := by
      rw [hdrop]
      simp only [pick, List.map_cons]
      exact List.Sublist.cons₂ _ hrec
    exact h1.trans (List.drop_sublist_drop_left A (by omega))

theorem pick_succ (A : sequence) (idxs : List Nat) :
    pick A (idxs.map (· + 1)) = idxs.map (fun i => A.getD i 0) := by
  simp [pick, Function.comp_def]

theorem pick_pred (A : sequence) (q : List Nat) :
    pick A q = (q.map (· - 1)).map (fun i => A.getD i 0) := by
  simp [pick, Function.comp_def]

/-- The returned sequence is the candidate of a visited selection, it is strictly increasing,
and no strictly increasing candidate is longer. -/
theorem longest_increasing_powerset_selection (A : sequence) (hne : A ≠ [])
    (hA : A.length + 1 < SIZE_MOD) :
    ∃ q, q ∈ selections A.length
      ∧ longest_increasing_powerset A = outcome.value (pick A q)
      ∧ (pick A q).Chain' (· < ·)
      ∧ ∀ p ∈ selections A.length, (pick A p).Chain' (· < ·) → p.length ≤ q.length := by
  have h1 : 1 ≤ A.length := length_pos_of_ne_nil A hne
  have heq := longest_increasing_powerset_eq A h1 hA
  have hfirst : [1] ∈ selections A.length := by simp [selections]
  have hlong := foldl_update_longest ((selections A.length).map (pick A)) []
  have hge1 : 1 ≤ (List.foldl update [] ((selections A.length).map (pick A))).length := by
    have := hlong (pick A [1]) (List.mem_map_of_mem _ hfirst) (by simp [pick])
    simpa [pick] using this
  rcases foldl_update_mem ((selections A.length).map (pick A)) [] with h | ⟨hmem, hinc⟩
  · rw [h] at hge1; simp at hge1
  · obtain ⟨q, hq, hpq⟩ := List.mem_map.mp hmem
    refine ⟨q, hq, by rw [heq, hpq], by rw [hpq]; exact hinc, ?_⟩
    intro p hp hpinc
    have := hlong (pick A p) (List.mem_map_of_mem _ hp) hpinc
    rw [← hpq, pick_length, pick_length] at this
    exact this

/-- C4: for every non-empty integer sequence A (the size of a vector fits a `size_t`),
`longest_increasing_powerset(A)` returns a sequence that is a subsequence of A, the values of
A at a strictly increasing list of positions in that order, and that is strictly increasing:
`is_increasing` holds on it; for `[3,1,2]` it returns `[1,2]`. -/
theorem longest_increasing_powerset_sound (A : sequence) (hne : A ≠ [])
    (hA : A.length + 1 < SIZE_MOD) :
    ∃ best, longest_increasing_powerset A = outcome.value best
      ∧ (∃ idxs : List Nat, idxs.Pairwise (· < ·) ∧ (∀ i ∈ idxs, i < A.length)
          ∧ best = idxs.map (fun i => A.getD i 0))
      ∧ best.Sublist A
      ∧ is_increasing best = some true
      ∧ longest_increasing_powerset [3, 1, 2] = outcome.value [1, 2] := by
  obtain ⟨q, hq, hres, hinc, _⟩ := longest_increasing_powerset_selection A hne hA
  obtain ⟨_, hpair, hrange⟩ := selections_sound A.length (length_pos_of_ne_nil A hne) q hq
  refine ⟨pick A q, hres, ⟨q.map (· - 1), ?_, ?_, pick_pred A q⟩, ?_, ?_, by decide⟩
  · rw [List.pairwise_map]
    exact hpair.imp_of_mem (fun {a b} ha hb hab => by
      have := hrange a ha
      have := hrange b hb
      omega)
  · intro i hi
    obtain ⟨s, hs, rfl⟩ := List.mem_map.mp hi
    have := hrange s hs
    omega
  · have := pick_sublist A q 0 hpair (fun s hs => by have := hrange s hs; omega)
    simpa using this
  · rw [is_increasing_eq]
    simpa using hinc

theorem longest_increasing_powerset_sound_witness :
    ∃ best, longest_increasing_powerset [3, 1, 2] = outcome.value best
      ∧ (∃ idxs : List Nat, idxs.Pairwise (· < ·)
          ∧ (∀ i ∈ idxs, i < ([3, 1, 2] : sequence).length)
          ∧ best = idxs.map (fun i => ([3, 1, 2] : sequence).getD i 0))
      ∧ best.Sublist [3, 1, 2]
      ∧ is_increasing best = some true
      ∧ longest_increasing_powerset [3, 1, 2] = outcome.value [1, 2] :=
  longest_increasing_powerset_sound [3, 1, 2] (by decide) (by decide)

/-- The length of a strictly increasing selection of positions is at most the length of the
returned sequence. -/
theorem longest_increasing_powerset_bound (A : sequence) (q : List Nat)
    (hmax : ∀ p ∈ selections A.length, (pick A p).Chain' (· < ·) → p.length ≤ q.length)
    (idxs : List Nat) (hpair : idxs.Pairwise (· < ·)) (hrange : ∀ i ∈ idxs, i < A.length)
    (hinc : (idxs.map (fun i => A.getD i 0)).Chain' (· < ·)) :
    idxs.length ≤ q.length := by
  by_cases hnil : idxs = []
  · rw [hnil]; exact Nat.zero_le _
  · have hmem : idxs.map (· + 1) ∈ selections A.length := by
      apply selections_complete
      · simpa using hnil
      · rw [List.pairwise_map]
        exact hpair.imp (fun {a b} hab => by omega)
      · intro s hs
        obtain ⟨i, hi, rfl⟩ := List.mem_map.mp hs
        have := hrange i hi
        omega
    have := hmax _ hmem (by rw [pick_succ]; exact hinc)
    simpa using this

/-- C5: for every non-empty integer sequence A (the size of a vector fits a `size_t`) and
every strictly increasing subsequence S of A, the length of S is at most the length of
`longest_increasing_powerset(A)`; the returned sequence is itself a strictly increasing
subsequence of A, so it is a longest one, and it is non-empty. -/
theorem longest_increasing_powerset_longest (A : sequence) (hne : A ≠ [])
    (hA : A.length + 1 < SIZE_MOD) :
    ∃ best, longest_increasing_powerset A = outcome.value best
      ∧ best ≠ []
      ∧ best.Sublist A ∧ is_increasing best = some true
      ∧ (∀ S : sequence, S.Sublist A → is_increasing S = some true → S.length ≤ best.length)
      ∧ (∀ idxs : List Nat, idxs.Pairwise (· < ·) → (∀ i ∈ idxs, i < A.length) →
          is_increasing (idxs.map (fun i => A.getD i 0)) = some true →
          idxs.length ≤ best.length) := by
  obtain ⟨q, hq, hres, hinc, hmax⟩ := longest_increasing_powerset_selection A hne hA
  obtain ⟨hqne, hpair, hrange⟩ :=
    selections_sound A.length (length_pos_of_ne_nil A hne) q hq
  have hidx : ∀ idxs : List Nat, idxs.Pairwise (· < ·) → (∀ i ∈ idxs, i < A.length) →
      is_increasing (idxs.map (fun i => A.getD i 0)) = some true →
      idxs.length ≤ (pick A q).length := by
    intro idxs h1 h2 h3
    rw [is_increasing_eq] at h3
    rw [pick_length]
    exact longest_increasing_powerset_bound A q hmax idxs h1 h2 (by simpa using h3)
  refine ⟨pick A q, hres, ?_, ?_, ?_, ?_, hidx⟩
  · intro h
    have := congrArg List.length h
    rw [pick_length] at this
    exact hqne (List.length_eq_zero.mp this)
  · have := pick_sublist A q 0 hpair (fun s hs => by have := hrange s hs; omega)
    simpa using this
  · rw [is_increasing_eq]
    simpa using hinc
  · intro S hS hSinc
    obtain ⟨is, rfl, hispair⟩ := List.sublist_eq_map_getElem hS
    have hmap : (is.map (fun i : Fin A.length => i.val)).map (fun i => A.getD i 0)
        = is.map (fun i => A[i]) := by
      rw [List.map_map]
      apply List.map_congr_left
      intro i _
      simp only [Function.comp_apply]
      rw [List.getD_eq_getElem?_getD, List.getElem?_eq_getElem i.isLt]
      rfl
    have := hidx (is.map (fun i : Fin A.length => i.val))
      (by rw [List.pairwise_map]; exact hispair.imp (fun {a b} hab => hab))
      (by
        intro i hi
        obtain ⟨j, _, rfl⟩ := List.mem_map.mp hi
        exact j.isLt)
      (by rw [hmap]; exact hSinc)
    simpa using this

theorem longest_increasing_powerset_longest_witness :
    ∃ best, longest_increasing_powerset [1, 3, 2] = outcome.value best
      ∧ best ≠ []
      ∧ best.Sublist [1, 3, 2] ∧ is_increasing best = some true
      ∧ (∀ S : sequence, S.Sublist [1, 3, 2] → is_increasing S = some true →
          S.length ≤ best.length)
      ∧ (∀ idxs : List Nat, idxs.Pairwise (· < ·)
          → (∀ i ∈ idxs, i < ([1, 3, 2] : sequence).length)
          → is_increasing (idxs.map (fun i => ([1, 3, 2] : sequence).getD i 0)) = some true
          → idxs.length ≤ best.length) :=
  longest_increasing_powerset_longest [1, 3, 2] (by decide) (by decide)

/-- C6, evaluated on the empty sequence: the stack has the single entry `stack[0] = 0`, the
test `stack[k] < n` fails, and `stack[k - 1]++` with `k = 0` accesses index `2^64 - 1`,
outside the stack; no sequence is returned. -/
theorem longest_increasing_powerset_empty :
    advance 0 [0] 0 = none
      ∧ size_sub 0 1 = 18446744073709551615
      ∧ longest_increasing_powerset [] = outcome.out_of_range := by
  decide

end Subsequence

namespace Disks
open disk_color

theorem get_eq_getElem? (s : disk_state) (i : Nat) : s.get i = s.colors[i]? := by
  unfold disk_state.get disk_state.is_index disk_state.total_count
  by_cases h : i < s.colors.length
  · rw [if_pos (by simpa using h)]
  · rw [if_neg (by simpa using h)]
    exact (List.getElem?_eq_none (by omega)).symm

/-- The loop of `is_alternating` on positions that lie inside the row: it never reads outside
the row, and it answers true exactly when none of the pairs it looks at is (light, dark). -/
theorem is_alternating_loop_spec (cs : List disk_color) (cnt : Nat) :
    ∀ j, j + 2 * cnt ≤ cs.length →
      (disk_state.is_alternating_loop cnt j cs = some true
          ∧ ∀ t, t < cnt → ¬ (cs[j + 2 * t]? = some DISK_LIGHT ∧ cs[j + 2 * t + 1]? = some DISK_DARK))
      ∨ (disk_state.is_alternating_loop cnt j cs = some false
          ∧ ∃ t, t < cnt ∧ cs[j + 2 * t]? = some DISK_LIGHT ∧ cs[j + 2 * t + 1]? = some DISK_DARK) := by
  induction cnt with
  | zero =>
    intro j _
    exact Or.inl ⟨rfl, fun t ht => absurd ht (Nat.not_lt_zero t)⟩
  | succ cnt ih =>
    intro j hj
    have h0 : cs[j]? = some cs[j] := List.getElem?_eq_getElem (by omega)
    have h1 : cs[j + 1]? = some cs[j + 1] := List.getElem?_eq_getElem (by omega)
    have step : ∀ t, j + 2 + 2 * t = j + 2 * (t + 1) := fun t => by ring
    simp only [disk_state.is_alternating_loop, h0, h1]
    by_cases hL : cs[j] = DISK_LIGHT
    · by_cases hD : cs[j + 1] = DISK_DARK
      · right
        refine ⟨by simp [hL, hD], 0, by omega, ?_, ?_⟩
        · simpa [h0] using hL
        · simpa [h1] using hD
      · rcases ih (j + 2) (by omega) with ⟨hr, hall⟩ | ⟨hr, t, ht, ht1, ht2⟩
        · left
          refine ⟨by simp [hL, hD, hr], ?_⟩
          intro t ht
          rcases t with _ | t
          · simp [h1, hD]
          · have := hall t (by omega)
            rwa [step] at this
        · right
          refine ⟨by simp [hL, hD, hr], t + 1, by omega, ?_, ?_⟩
          · rw [← step]; exact ht1
          · rw [← step]; exact ht2
    · rcases ih (j + 2) (by omega) with ⟨hr, hall⟩ | ⟨hr, t, ht, ht1, ht2⟩
      · left
        refine ⟨by simp [hL, hr], ?_⟩
        intro t ht
        rcases t with _ | t
        · simp [h0, hL]
        · have := hall t (by omega)
          rwa [step] at this
      · right
        refine ⟨by simp [hL, hr], t + 1, by omega, ?_, ?_⟩
        · rw [← step]; exact ht1
        · rw [← step]; exact ht2

/-- On a row of even length at least 2, `is_alternating` returns, and it answers false
exactly when some even position holds light with dark right after it. -/
theorem is_alternating_spec (r : disk_state) (N : Nat) (h1 : 1 ≤ N)
    (ht : r.total_count = 2 * N) :
    (r.is_alternating = some true
        ∧ ¬ ∃ j, j % 2 = 0 ∧ r.get j = some DISK_LIGHT ∧ r.get (j + 1) = some DISK_DARK)
      ∨ (r.is_alternating = some false
        ∧ ∃ j, j % 2 = 0 ∧ r.get j = some DISK_LIGHT ∧ r.get (j + 1) = some DISK_DARK) := by
  have hlen : r.colors.length = 2 * N := ht
  have hne : r.colors.isEmpty = false := by
    cases h : r.colors with
    | nil => rw [h] at hlen; simp at hlen; omega
    | cons x l => rfl
  have hunf : r.is_alternating = disk_state.is_alternating_loop N 0 r.colors := by
    unfold disk_state.is_alternating
    rw [hne, ht, if_neg (by simp; omega), show (2 * N + 1) / 2 = N by omega]
  rcases is_alternating_loop_spec r.colors N 0 (by omega) with ⟨hr, hall⟩ | ⟨hr, t, ht1, h2, h3⟩
  · left
    refine ⟨by rw [hunf, hr], ?_⟩
    rintro ⟨j, hj, hg0, hg1⟩
    rw [get_eq_getElem?] at hg0 hg1
    have hjlt : j < r.colors.length := by
      by_contra hc
      rw [List.getElem?_eq_none (by omega)] at hg0
      exact absurd hg0 (by simp)
    have := hall (j / 2) (by omega)
    rw [show 0 + 2 * (j / 2) = j by omega] at this
    exact this ⟨hg0, hg1⟩
  · right
    refine ⟨by rw [hunf, hr], 2 * t, by omega, ?_, ?_⟩
    · rw [get_eq_getElem?]; simpa using h2
    · rw [get_eq_getElem?]; simpa using h3

/-- C11: for every disk row of even length 2N with N >= 1, `is_alternating()` returns and is
true if and only if there is no even index j such that the disk at j is light and the disk at
j+1 is dark; for a row of length less than 2 it is false. -/
theorem is_alternating_iff :
    (∀ (r : disk_state) (N : Nat), 1 ≤ N → r.total_count = 2 * N →
      (∃ b, r.is_alternating = some b)
        ∧ (r.is_alternating = some true
            ↔ ¬ ∃ j, j % 2 = 0 ∧ r.get j = some DISK_LIGHT ∧ r.get (j + 1) = some DISK_DARK))
    ∧ (∀ r : disk_state, r.total_count < 2 → r.is_alternating = some false) := by
  refine ⟨?_, ?_⟩
  · intro r N h1 ht
    rcases is_alternating_spec r N h1 ht with ⟨hr, hno⟩ | ⟨hr, hex⟩
    · exact ⟨⟨true, hr⟩, fun _ => hno, fun _ => hr⟩
    · refine ⟨⟨false, hr⟩, fun h => ?_, fun h => absurd hex h⟩
      rw [hr] at h
      exact absurd h (by simp)
  · intro r hlt
    unfold disk_state.is_alternating
    rw [if_pos (by simp [hlt])]

theorem is_alternating_iff_witness :
    (∃ b, (disk_state.mk [DISK_DARK, DISK_DARK, DISK_LIGHT, DISK_LIGHT]).is_alternating = some b)
      ∧ ((disk_state.mk [DISK_DARK, DISK_DARK, DISK_LIGHT, DISK_LIGHT]).is_alternating = some true
          ↔ ¬ ∃ j, j % 2 = 0
            ∧ (disk_state.mk [DISK_DARK, DISK_DARK, DISK_LIGHT, DISK_LIGHT]).get j
                = some DISK_LIGHT
            ∧ (disk_state.mk [DISK_DARK, DISK_DARK, DISK_LIGHT, DISK_LIGHT]).get (j + 1)
                = some DISK_DARK) :=
  is_alternating_iff.1 ⟨[DISK_DARK, DISK_DARK, DISK_LIGHT, DISK_LIGHT]⟩ 2 (by decide) (by decide)

/-- First loop of `is_sorted` on positions inside the row. -/
theorem is_sorted_light_spec (cs : List disk_color) (cnt : Nat) :
    ∀ i, i + cnt ≤ cs.length →
      (disk_state.is_sorted_light cnt i cs = some (some (i + cnt))
          ∧ ∀ t, t < cnt → cs[i + t]? = some DISK_LIGHT)
      ∨ (disk_state.is_sorted_light cnt i cs = some none
          ∧ ∃ t, t < cnt ∧ cs[i + t]? ≠ some DISK_LIGHT) := by
  induction cnt with
  | zero => intro i _; exact Or.inl ⟨rfl, fun t ht => absurd ht (Nat.not_lt_zero t)⟩
  | succ cnt ih =>
    intro i hi
    have h0 : cs[i]? = some cs[i] := List.getElem?_eq_getElem (by omega)
    have step : ∀ t, i + 1 + t = i + (t + 1) := fun t => by ring
    simp only [disk_state.is_sorted_light, h0]
    by_cases hL : cs[i] = DISK_LIGHT
    · rcases ih (i + 1) (by omega) with ⟨hr, hall⟩ | ⟨hr, t, ht, hne⟩
      · left
        refine ⟨by simp [hL, hr]; omega, ?_⟩
        intro t ht
        rcases t with _ | t
        · simpa [h0] using hL
        · rw [← step]; exact hall t (by omega)
      · right
        exact ⟨by simp [hL, hr], t + 1, by omega, by rw [← step]; exact hne⟩
    · right
      exact ⟨by simp [hL], 0, by omega, by simpa [h0] using hL⟩

/-- Second loop of `is_sorted` on positions inside the row. -/
theorem is_sorted_dark_spec (cs : List disk_color) (cnt : Nat) :
    ∀ j, j + cnt ≤ cs.length →
      (disk_state.is_sorted_dark cnt j cs = some true
          ∧ ∀ t, t < cnt → cs[j + t]? = some DISK_DARK)
      ∨ (disk_state.is_sorted_dark cnt j cs = some false
          ∧ ∃ t, t < cnt ∧ cs[j + t]? ≠ some DISK_DARK) := by
  induction cnt with
  | zero => intro j _; exact Or.inl ⟨rfl, fun t ht => absurd ht (Nat.not_lt_zero t)⟩
  | succ cnt ih =>
    intro j hj
    have h0 : cs[j]? = some cs[j] := List.getElem?_eq_getElem (by omega)
    have step : ∀ t, j + 1 + t = j + (t + 1) := fun t => by ring
    simp only [disk_state.is_sorted_dark, h0]
    by_cases hD : cs[j] = DISK_DARK
    · rcases ih (j + 1) (by omega) with ⟨hr, hall⟩ | ⟨hr, t, ht, hne⟩
      · left
        refine ⟨by simp [hD, hr], ?_⟩
        intro t ht
        rcases t with _ | t
        · simpa [h0] using hD
        · rw [← step]; exact hall t (by omega)
      · right
        exact ⟨by simp [hD, hr], t + 1, by omega, by rw [← step]; exact hne⟩
    · right
      exact ⟨by simp [hD], 0, by omega, by simpa [h0] using hD⟩

/-- On every row `is_sorted` returns without reading outside the row. -/
theorem is_sorted_spec (r : disk_state) (N : Nat) (h1 : 1 ≤ N) (ht : r.total_count = 2 * N) :
    (r.is_sorted = some true
        ∧ (∀ i, i < N → r.get i = some DISK_LIGHT)
        ∧ (∀ i, N ≤ i → i < 2 * N → r.get i = some DISK_DARK))
      ∨ (r.is_sorted = some false
        ∧ ((∃ i, i < N ∧ r.get i ≠ some DISK_LIGHT)
          ∨ (∃ i, N ≤ i ∧ i < 2 * N ∧ r.get i ≠ some DISK_DARK))) := by
  have hlen : r.colors.length = 2 * N := ht
  have hne : r.colors.isEmpty = false := by
    cases h : r.colors with
    | nil => rw [h] at hlen; simp at hlen; omega
    | cons x l => rfl
  have hunf : ∀ v, disk_state.is_sorted_light N 0 r.colors = some v →
      r.is_sorted = match v with
        | none => some false
        | some i => disk_state.is_sorted_dark (2 * N - i) i r.colors := by
    intro v hv
    unfold disk_state.is_sorted
    rw [hne, ht, if_neg (by simp; omega), show 2 * N / 2 = N by omega, hv]
    cases v <;> rfl
  rcases is_sorted_light_spec r.colors N 0 (by omega) with ⟨hl, hall⟩ | ⟨hl, t, ht1, hne1⟩
  · have hunf := hunf _ hl
    simp only [zero_add] at hunf hall
    rw [show 2 * N - N = N by omega] at hunf
    rcases is_sorted_dark_spec r.colors N N (by omega) with ⟨hd, hall2⟩ | ⟨hd, t, ht2, hne2⟩
    · left
      refine ⟨by rw [hunf, hd], ?_, ?_⟩
      · intro i hi; rw [get_eq_getElem?]; exact hall i hi
      · intro i hi hi2
        rw [get_eq_getElem?]
        have := hall2 (i - N) (by omega)
        rwa [show N + (i - N) = i by omega] at this
    · right
      refine ⟨by rw [hunf, hd], Or.inr ⟨N + t, by omega, by omega, ?_⟩⟩
      rw [get_eq_getElem?]; exact hne2
  · right
    have hunf := hunf _ hl
    refine ⟨hunf, Or.inl ⟨t, ht1, ?_⟩⟩
    rw [get_eq_getElem?]
    simpa using hne1

/-- C12: for every disk row of length 2N with N >= 1, `is_sorted()` returns and is true if
and only if every disk at an index below N is light and every disk at an index from N to
2N-1 is dark. -/
theorem is_sorted_iff (r : disk_state) (N : Nat) (h1 : 1 ≤ N) (ht : r.total_count = 2 * N) :
    (∃ b, r.is_sorted = some b)
      ∧ (r.is_sorted = some true
          ↔ (∀ i, i < N → r.get i = some DISK_LIGHT)
            ∧ (∀ i, N ≤ i → i < 2 * N → r.get i = some DISK_DARK)) := by
  rcases is_sorted_spec r N h1 ht with ⟨hr, hl, hd⟩ | ⟨hr, hbad⟩
  · exact ⟨⟨true, hr⟩, fun _ => ⟨hl, hd⟩, fun _ => hr⟩
  · refine ⟨⟨false, hr⟩, fun h => ?_, fun ⟨hl, hd⟩ => ?_⟩
    · rw [hr] at h; exact absurd h (by simp)
    · rcases hbad with ⟨i, hi, hne⟩ | ⟨i, hi, hi2, hne⟩
      · exact absurd (hl i hi) hne
      · exact absurd (hd i hi hi2) hne

theorem is_sorted_iff_witness :
    (∃ b, (disk_state.mk [DISK_LIGHT, DISK_LIGHT, DISK_DARK, DISK_DARK]).is_sorted = some b)
      ∧ ((disk_state.mk [DISK_LIGHT, DISK_LIGHT, DISK_DARK, DISK_DARK]).is_sorted = some true
          ↔ (∀ i, i < 2 →
              (disk_state.mk [DISK_LIGHT, DISK_LIGHT, DISK_DARK, DISK_DARK]).get i
                = some DISK_LIGHT)
            ∧ (∀ i, 2 ≤ i → i < 2 * 2 →
              (disk_state.mk [DISK_LIGHT, DISK_LIGHT, DISK_DARK, DISK_DARK]).get i
                = some DISK_DARK)) :=
  is_sorted_iff ⟨[DISK_LIGHT, DISK_LIGHT, DISK_DARK, DISK_DARK]⟩ 2 (by decide) (by decide)

/-- A swap with both indices inside the row. -/
theorem swap_eq_some (r : disk_state) (i : Nat) (h : i + 1 < r.total_count)
    (hr : r.total_count < SIZE_MOD) :
    ∃ a b, r.colors[i]? = some a ∧ r.colors[i + 1]? = some b
      ∧ r.swap i = some ⟨(r.colors.set i b).set (i + 1) a⟩ := by
  have hlen : i + 1 < r.colors.length := h
  have hm : (i + 1) % SIZE_MOD = i + 1 := Nat.mod_eq_of_lt (by omega)
  have h0 : r.colors[i]? = some r.colors[i] := List.getElem?_eq_getElem (by omega)
  have h1 : r.colors[i + 1]? = some r.colors[i + 1] := List.getElem?_eq_getElem hlen
  refine ⟨_, _, h0, h1, ?_⟩
  unfold disk_state.swap disk_state.is_index
  rw [if_pos (by simp; omega)]
  simp only [hm]
  rw [if_pos (by simpa using h), h0, h1]

/-- A swap whose right index is not inside the row fails. -/
theorem swap_eq_none (r : disk_state) (i : Nat) (h : r.total_count ≤ i + 1)
    (hr : r.total_count < SIZE_MOD) : r.swap i = none := by
  unfold disk_state.swap disk_state.is_index
  by_cases hlt : i < r.total_count
  · have hm : (i + 1) % SIZE_MOD = i + 1 := Nat.mod_eq_of_lt (by omega)
    rw [if_pos (by simpa using hlt)]
    simp only [hm]
    rw [if_neg (by simpa using h)]
  · rw [if_neg (by simpa using hlt)]

/-- C13: for every disk row r (its size is a `size_t`) and index i, `swap(i)` fails exactly
when `i + 1 >= total_count()`; otherwise it succeeds, the resulting row has the same
length, holds at i the disk r had at i+1 and at i+1 the disk r had at i, and every other
index holds the same disk as before. -/
theorem swap_spec (r : disk_state) (i : Nat) (hr : r.total_count < SIZE_MOD) :
    (r.swap i = none ↔ r.total_count ≤ i + 1)
      ∧ (i + 1 < r.total_count → ∃ r1, r.swap i = some r1)
      ∧ (∀ r1, r.swap i = some r1 →
          r1.total_count = r.total_count
            ∧ r1.get i = r.get (i + 1) ∧ r1.get (i + 1) = r.get i
            ∧ ∀ j, j ≠ i → j ≠ i + 1 → r1.get j = r.get j) := by
  refine ⟨⟨fun h => ?_, fun h => swap_eq_none r i h hr⟩, fun h => ?_, fun r1 h1 => ?_⟩
  · by_contra hc
    obtain ⟨a, b, _, _, hs⟩ := swap_eq_some r i (by omega) hr
    rw [hs] at h
    exact absurd h (by simp)
  · obtain ⟨a, b, _, _, hs⟩ := swap_eq_some r i h hr
    exact ⟨_, hs⟩
  · have hlt : i + 1 < r.total_count := by
      by_contra hc
      rw [swap_eq_none r i (by omega) hr] at h1
      exact absurd h1 (by simp)
    have hlen : i + 1 < r.colors.length := hlt
    obtain ⟨a, b, ha, hb, hs⟩ := swap_eq_some r i hlt hr
    rw [hs] at h1
    have e : r1 = ⟨(r.colors.set i b).set (i + 1) a⟩ := (Option.some.inj h1).symm
    subst e
    refine ⟨by simp [disk_state.total_count], ?_, ?_, ?_⟩
    · rw [get_eq_getElem?, get_eq_getElem?, hb]
      simp only
      rw [List.getElem?_set_ne (by omega), List.getElem?_set_self (by omega)]
    · rw [get_eq_getElem?, get_eq_getElem?, ha]
      simp only
      rw [List.getElem?_set_self (by simp; omega)]
    · intro j hj hj1
      rw [get_eq_getElem?, get_eq_getElem?]
      simp only
      rw [List.getElem?_set_ne (by omega), List.getElem?_set_ne (by omega)]

theorem swap_spec_witness :
    ((disk_state.mk [DISK_DARK, DISK_LIGHT, DISK_DARK, DISK_LIGHT]).swap 1 = none
        ↔ (disk_state.mk [DISK_DARK, DISK_LIGHT, DISK_DARK, DISK_LIGHT]).total_count ≤ 1 + 1)
      ∧ (1 + 1 < (disk_state.mk [DISK_DARK, DISK_LIGHT, DISK_DARK, DISK_LIGHT]).total_count →
          ∃ r1, (disk_state.mk [DISK_DARK, DISK_LIGHT, DISK_DARK, DISK_LIGHT]).swap 1 = some r1)
      ∧ (∀ r1, (disk_state.mk [DISK_DARK, DISK_LIGHT, DISK_DARK, DISK_LIGHT]).swap 1 = some r1 →
          r1.total_count
              = (disk_state.mk [DISK_DARK, DISK_LIGHT, DISK_DARK, DISK_LIGHT]).total_count
            ∧ r1.get 1 = (disk_state.mk [DISK_DARK, DISK_LIGHT, DISK_DARK, DISK_LIGHT]).get (1 + 1)
            ∧ r1.get (1 + 1) = (disk_state.mk [DISK_DARK, DISK_LIGHT, DISK_DARK, DISK_LIGHT]).get 1
            ∧ ∀ j, j ≠ 1 → j ≠ 1 + 1 →
                r1.get j = (disk_state.mk [DISK_DARK, DISK_LIGHT, DISK_DARK, DISK_LIGHT]).get j) :=
  swap_spec ⟨[DISK_DARK, DISK_LIGHT, DISK_DARK, DISK_LIGHT]⟩ 1 (by decide)

/-- C15, evaluated on `a = disk_state(1)` (`D L`) and `b = disk_state(2)` (`D L D L`): the
lengths differ, `a == b` compares only the first two disks of `b` and returns true, and
`b == a` reads past the end of `a`. -/
theorem operator_eq_on_prefix :
    disk_state.new 1 = some ⟨[DISK_DARK, DISK_LIGHT]⟩
      ∧ disk_state.new 2 = some ⟨[DISK_DARK, DISK_LIGHT, DISK_DARK, DISK_LIGHT]⟩
      ∧ (disk_state.mk [DISK_DARK, DISK_LIGHT]).total_count
          ≠ (disk_state.mk [DISK_DARK, DISK_LIGHT, DISK_DARK, DISK_LIGHT]).total_count
      ∧ (disk_state.mk [DISK_DARK, DISK_LIGHT]).operator_eq
          ⟨[DISK_DARK, DISK_LIGHT, DISK_DARK, DISK_LIGHT]⟩ = some true
      ∧ (disk_state.mk [DISK_DARK, DISK_LIGHT, DISK_DARK, DISK_LIGHT]).operator_eq
          ⟨[DISK_DARK, DISK_LIGHT]⟩ = none := by
  decide

/-- A successful swap permutes the row. -/
theorem swap_preserves (r r1 : disk_state) (i : Nat) (hr : r.total_count < SIZE_MOD)
    (h : r.swap i = some r1) :
    r1.total_count = r.total_count ∧ ∀ c, r1.colors.count c = r.colors.count c := by
  have hlt : i + 1 < r.total_count := by
    by_contra hc
    rw [swap_eq_none r i (by omega) hr] at h
    exact absurd h (by simp)
  obtain ⟨row⟩ := r
  simp only [disk_state.total_count] at hlt hr ⊢
  obtain ⟨x, y, rest, hsplit⟩ : ∃ x y rest, row = row.take i ++ x :: y :: rest := by
    have hd : (row.drop i).length = row.length - i := List.length_drop i row
    cases hd1 : row.drop i with
    | nil => rw [hd1] at hd; simp at hd; omega
    | cons x l =>
      cases l with
      | nil => rw [hd1] at hd; simp at hd; omega
      | cons y rest =>
        refine ⟨x, y, rest, ?_⟩
        rw [← hd1, List.take_append_drop]
  have hpre : (row.take i).length = i := by rw [List.length_take]; omega
  have hs := swap_append_cons (row.take i) x y rest (by rw [hpre]; omega)
  rw [← hsplit, hpre, h] at hs
  have e : r1 = ⟨row.take i ++ y :: x :: rest⟩ := Option.some.inj hs
  subst e
  refine ⟨?_, ?_⟩
  · conv_rhs => rw [hsplit]
    simp
  · intro c
    conv_rhs => rw [hsplit]
    simp only [List.count_append, List.count_cons]
    omega

/-- Whatever a forward pass returns is a permutation of the row it started from. -/
theorem forward_pass_preserves (cnt : Nat) :
    ∀ (j : Nat) (s : disk_state) (swaps : Nat) (s1 : disk_state) (swaps1 : Nat),
      s.total_count < SIZE_MOD → forward_pass cnt j s swaps = some (s1, swaps1) →
      s1.total_count = s.total_count ∧ ∀ c, s1.colors.count c = s.colors.count c := by
  induction cnt with
  | zero =>
    intro j s swaps s1 swaps1 _ h
    simp only [forward_pass, Option.some.injEq, Prod.mk.injEq] at h
    rw [← h.1]
    exact ⟨rfl, fun _ => rfl⟩
  | succ cnt ih =>
    intro j s swaps s1 swaps1 hr h
    simp only [forward_pass] at h
    cases hg : s.get j with
    | none => rw [hg] at h; exact absurd h (by simp)
    | some a =>
      rw [hg] at h
      simp only at h
      split at h
      · cases hg1 : s.get (j + 1) with
        | none => rw [hg1] at h; exact absurd h (by simp)
        | some b =>
          rw [hg1] at h
          simp only at h
          split at h
          · cases hs : s.swap j with
            | none => rw [hs] at h; exact absurd h (by simp)
            | some s2 =>
              rw [hs] at h
              simp only at h
              obtain ⟨ht2, hc2⟩ := swap_preserves s s2 j hr hs
              obtain ⟨ht1, hc1⟩ := ih (j + 1) s2 _ s1 swaps1 (by rw [ht2]; exact hr) h
              exact ⟨by rw [ht1, ht2], fun c => by rw [hc1, hc2]⟩
          · exact ih (j + 1) s swaps s1 swaps1 hr h
      · exact ih (j + 1) s swaps s1 swaps1 hr h

/-- Whatever a backward pass returns is a permutation of the row it started from. -/
theorem backward_pass_preserves (k : Nat) :
    ∀ (s : disk_state) (swaps : Nat) (s1 : disk_state) (swaps1 : Nat),
      s.total_count < SIZE_MOD → backward_pass k s swaps = some (s1, swaps1) →
      s1.total_count = s.total_count ∧ ∀ c, s1.colors.count c = s.colors.count c := by
  induction k with
  | zero =>
    intro s swaps s1 swaps1 _ h
    simp only [backward_pass, Option.some.injEq, Prod.mk.injEq] at h
    rw [← h.1]
    exact ⟨rfl, fun _ => rfl⟩
  | succ k ih =>
    intro s swaps s1 swaps1 hr h
    simp only [backward_pass] at h
    cases hg : s.get (k + 1) with
    | none => rw [hg] at h; exact absurd h (by simp)
    | some a =>
      rw [hg] at h
      simp only at h
      split at h
      · cases hg1 : s.get k with
        | none => rw [hg1] at h; exact absurd h (by simp)
        | some b =>
          rw [hg1] at h
          simp only at h
          split at h
          · cases hs : s.swap k with
            | none => rw [hs] at h; exact absurd h (by simp)
            | some s2 =>
              rw [hs] at h
              simp only at h
              obtain ⟨ht2, hc2⟩ := swap_preserves s s2 k hr hs
              obtain ⟨ht1, hc1⟩ := ih s2 _ s1 swaps1 (by rw [ht2]; exact hr) h
              exact ⟨by rw [ht1, ht2], fun c => by rw [hc1, hc2]⟩
          · exact ih s swaps s1 swaps1 hr h
      · exact ih s swaps s1 swaps1 hr h

theorem left_to_right_loop_preserves (n cnt : Nat) :
    ∀ (i : Nat) (s : disk_state) (swaps : Nat) (s1 : disk_state) (swaps1 : Nat),
      s.total_count < SIZE_MOD → left_to_right_loop n cnt i s swaps = some (s1, swaps1) →
      s1.total_count = s.total_count ∧ ∀ c, s1.colors.count c = s.colors.count c := by
  induction cnt with
  | zero =>
    intro i s swaps s1 swaps1 _ h
    simp only [left_to_right_loop, Option.some.injEq, Prod.mk.injEq] at h
    rw [← h.1]
    exact ⟨rfl, fun _ => rfl⟩
  | succ cnt ih =>
    intro i s swaps s1 swaps1 hr h
    simp only [left_to_right_loop] at h
    cases hf : forward_pass (pass_bound n i - i) i s swaps with
    | none => rw [hf] at h; exact absurd h (by simp)
    | some p =>
      obtain ⟨s2, w2⟩ := p
      rw [hf] at h
      simp only at h
      obtain ⟨ht2, hc2⟩ := forward_pass_preserves _ i s swaps s2 w2 hr hf
      obtain ⟨ht1, hc1⟩ := ih (i + 1) s2 w2 s1 swaps1 (by rw [ht2]; exact hr) h
      exact ⟨by rw [ht1, ht2], fun c => by rw [hc1, hc2]⟩

theorem lawnmower_loop_preserves (n cnt : Nat) :
    ∀ (i : Nat) (s : disk_state) (swaps : Nat) (s1 : disk_state) (swaps1 : Nat),
      s.total_count < SIZE_MOD → lawnmower_loop n cnt i s swaps = some (s1, swaps1) →
      s1.total_count = s.total_count ∧ ∀ c, s1.colors.count c = s.colors.count c := by
  induction cnt with
  | zero =>
    intro i s swaps s1 swaps1 _ h
    simp only [lawnmower_loop, Option.some.injEq, Prod.mk.injEq] at h
    rw [← h.1]
    exact ⟨rfl, fun _ => rfl⟩
  | succ cnt ih =>
    intro i s swaps s1 swaps1 hr h
    rw [lawnmower_loop_succ] at h
    cases hf : forward_pass (pass_bound n i) 0 s swaps with
    | none => rw [hf] at h; exact absurd h (by simp)
    | some p =>
      obtain ⟨s2, w2⟩ := p
      rw [hf] at h
      simp only at h
      obtain ⟨ht2, hc2⟩ := forward_pass_preserves _ 0 s swaps s2 w2 hr hf
      cases hb : backward_pass (pass_bound n i) s2 w2 with
      | none => rw [hb] at h; exact absurd h (by simp)
      | some q =>
        obtain ⟨s3, w3⟩ := q
        rw [hb] at h
        simp only at h
        obtain ⟨ht3, hc3⟩ := backward_pass_preserves _ s2 w2 s3 w3 (by rw [ht2]; exact hr) hb
        obtain ⟨ht1, hc1⟩ := ih (i + 1) s3 w3 s1 swaps1 (by rw [ht3, ht2]; exact hr) h
        exact ⟨by rw [ht1, ht3, ht2], fun c => by rw [hc1, hc3, hc2]⟩

/-- Whatever `sort_left_to_right` returns is a permutation of its input. -/
theorem sort_left_to_right_preserves (s : disk_state) (res : sorted_disks)
    (hr : s.total_count < SIZE_MOD) (h : sort_left_to_right s = some res) :
    res.after.total_count = s.total_count
      ∧ ∀ c, res.after.colors.count c = s.colors.count c := by
  unfold sort_left_to_right at h
  simp only at h
  cases hl : left_to_right_loop (s.total_count / 2 % UNSIGNED_MOD)
      (s.total_count / 2 % UNSIGNED_MOD) 0 s 0 with
  | none => rw [hl] at h; exact absurd h (by simp)
  | some p =>
    obtain ⟨s1, w1⟩ := p
    rw [hl] at h
    simp only [Option.some.injEq] at h
    rw [← h]
    exact left_to_right_loop_preserves _ _ 0 s 0 s1 w1 hr hl

/-- Whatever `sort_lawnmower` returns is a permutation of its input. -/
theorem sort_lawnmower_preserves (s : disk_state) (res : sorted_disks)
    (hr : s.total_count < SIZE_MOD) (h : sort_lawnmower s = some res) :
    res.after.total_count = s.total_count
      ∧ ∀ c, res.after.colors.count c = s.colors.count c := by
  unfold sort_lawnmower at h
  simp only at h
  cases hl : lawnmower_loop (s.total_count / 2 % UNSIGNED_MOD)
      (s.total_count / 2 % UNSIGNED_MOD / 2 + 1) 0 s 0 with
  | none => rw [hl] at h; exact absurd h (by simp)
  | some p =>
    obtain ⟨s1, w1⟩ := p
    rw [hl] at h
    simp only [Option.some.injEq] at h
    rw [← h]
    exact lawnmower_loop_preserves _ _ 0 s 0 s1 w1 hr hl

/-- A forward pass that stays inside the row passes every assertion of `get` and `swap`. -/
theorem forward_pass_safe (s : disk_state) (cnt j swaps : Nat)
    (hj : j + cnt < s.total_count) (hlen : s.total_count ≤ SIZE_MOD)
    (hs : swaps < UNSIGNED_MOD) :
    ∃ s1 swaps1, forward_pass cnt j s swaps = some (s1, swaps1)
      ∧ swaps1 < UNSIGNED_MOD ∧ s1.total_count = s.total_count := by
  obtain ⟨row⟩ := s
  simp only [disk_state.total_count] at hj hlen ⊢
  have hsplit : row = row.take j ++ ((row.drop j).take (cnt + 1) ++ (row.drop j).drop (cnt + 1)) := by
    rw [List.take_append_drop, List.take_append_drop]
  have hpre : (row.take j).length = j := by rw [List.length_take]; omega
  have hseg : ((row.drop j).take (cnt + 1)).length = cnt + 1 := by
    rw [List.length_take, List.length_drop]; omega
  have hne : (row.drop j).take (cnt + 1) ≠ [] := by
    intro h; rw [h] at hseg; simp at hseg
  have hf := forward_pass_bubble (row.take j) ((row.drop j).take (cnt + 1))
    ((row.drop j).drop (cnt + 1)) swaps hne (by rw [hpre, hseg]; omega) hs
  rw [← hsplit, hpre, hseg] at hf
  refine ⟨_, _, hf, Nat.mod_lt _ (by decide), ?_⟩
  conv_rhs => rw [hsplit]
  simp only [List.length_append, bubble_length]

/-- A backward pass that starts inside the row passes every assertion of `get` and `swap`. -/
theorem backward_pass_safe (s : disk_state) (k swaps : Nat)
    (hk : k < s.total_count) (hlen : s.total_count ≤ SIZE_MOD) (hs : swaps < UNSIGNED_MOD) :
    ∃ s1 swaps1, backward_pass k s swaps = some (s1, swaps1)
      ∧ swaps1 < UNSIGNED_MOD ∧ s1.total_count = s.total_count := by
  obtain ⟨row⟩ := s
  simp only [disk_state.total_count] at hk hlen ⊢
  have hsplit : row = row.take (k + 1) ++ row.drop (k + 1) := (List.take_append_drop _ _).symm
  have hseg : (row.take (k + 1)).length = k + 1 := by rw [List.length_take]; omega
  have hne : row.take (k + 1) ≠ [] := by
    intro h; rw [h] at hseg; simp at hseg
  have hf := backward_pass_bubble (row.take (k + 1)) (row.drop (k + 1)) swaps hne
    (by rw [hseg]; omega) hs
  rw [← hsplit, hseg] at hf
  refine ⟨_, _, hf, Nat.mod_lt _ (by decide), ?_⟩
  conv_rhs => rw [hsplit]
  simp only [List.length_append, List.length_reverse, bubble_length]

theorem left_to_right_loop_safe (n : Nat) (hn : 2 * n < UNSIGNED_MOD) (cnt : Nat) :
    ∀ (i : Nat) (s : disk_state) (swaps : Nat), i + cnt = n → s.total_count = 2 * n →
      swaps < UNSIGNED_MOD →
      ∃ s1 swaps1, left_to_right_loop n cnt i s swaps = some (s1, swaps1) := by
  induction cnt with
  | zero => intro i s swaps _ _ _; exact ⟨s, swaps, rfl⟩
  | succ cnt ih =>
    intro i s swaps hi ht hsw
    have hb : pass_bound n i = 2 * n - i - 1 := pass_bound_eq n i hn (by omega)
    have hsz : s.total_count ≤ SIZE_MOD := by
      rw [ht]; unfold UNSIGNED_MOD at hn; unfold SIZE_MOD; omega
    obtain ⟨s1, w1, hf, hw1, ht1⟩ := forward_pass_safe s (pass_bound n i - i) i swaps
      (by rw [hb, ht]; omega) hsz hsw
    obtain ⟨s2, w2, hl⟩ := ih (i + 1) s1 w1 (by omega) (by rw [ht1, ht]) hw1
    refine ⟨s2, w2, ?_⟩
    simp only [left_to_right_loop, hf]
    exact hl

theorem lawnmower_loop_safe (n : Nat) (hn : 2 * n < UNSIGNED_MOD) (cnt : Nat) :
    ∀ (i : Nat) (s : disk_state) (swaps : Nat), i + cnt ≤ 2 * n → s.total_count = 2 * n →
      swaps < UNSIGNED_MOD →
      ∃ s1 swaps1, lawnmower_loop n cnt i s swaps = some (s1, swaps1) := by
  induction cnt with
  | zero => intro i s swaps _ _ _; exact ⟨s, swaps, rfl⟩
  | succ cnt ih =>
    intro i s swaps hi ht hsw
    have hb : pass_bound n i = 2 * n - i - 1 := pass_bound_eq n i hn (by omega)
    have hsz : s.total_count ≤ SIZE_MOD := by
      rw [ht]; unfold UNSIGNED_MOD at hn; unfold SIZE_MOD; omega
    obtain ⟨s1, w1, hf, hw1, ht1⟩ := forward_pass_safe s (pass_bound n i) 0 swaps
      (by rw [hb, ht]; omega) hsz hsw
    obtain ⟨s2, w2, hk, hw2, ht2⟩ := backward_pass_safe s1 (pass_bound n i) w1
      (by rw [hb, ht1, ht]; omega) (by rw [ht1]; exact hsz) hw1
    obtain ⟨s3, w3, hl⟩ := ih (i + 1) s2 w2 (by omega) (by rw [ht2, ht1, ht]) hw2
    refine ⟨s3, w3, ?_⟩
    rw [lawnmower_loop_succ, hf]
    simp only
    rw [hk]
    exact hl

/-- On a row of `2 n < 2^32` disks no assertion fails inside `sort_left_to_right`. -/
theorem sort_left_to_right_safe (s : disk_state) (n : Nat) (hn : 2 * n < UNSIGNED_MOD)
    (ht : s.total_count = 2 * n) : ∃ res, sort_left_to_right s = some res := by
  have hnn : (s.total_count / 2) % UNSIGNED_MOD = n := by
    rw [ht, Nat.mul_div_cancel_left n (by decide : 0 < 2)]
    exact Nat.mod_eq_of_lt (by omega)
  obtain ⟨s1, w1, hl⟩ := left_to_right_loop_safe n hn n 0 s 0 (by omega) ht (by decide)
  refine ⟨⟨s1, w1⟩, ?_⟩
  unfold sort_left_to_right
  simp only [hnn, hl]

/-- On a row of `2 n < 2^32` disks, `n >= 1`, no assertion fails inside `sort_lawnmower`. -/
theorem sort_lawnmower_safe (s : disk_state) (n : Nat) (hn : 2 * n < UNSIGNED_MOD)
    (h1 : 1 ≤ n) (ht : s.total_count = 2 * n) : ∃ res, sort_lawnmower s = some res := by
  have hnn : (s.total_count / 2) % UNSIGNED_MOD = n := by
    rw [ht, Nat.mul_div_cancel_left n (by decide : 0 < 2)]
    exact Nat.mod_eq_of_lt (by omega)
  obtain ⟨s1, w1, hl⟩ := lawnmower_loop_safe n hn (n / 2 + 1) 0 s 0 (by omega) ht (by decide)
  refine ⟨⟨s1, w1⟩, ?_⟩
  unfold sort_lawnmower
  simp only [hnn, hl]

/-- Successful swaps permute the row. -/
theorem apply_swaps_preserves (idxs : List Nat) :
    ∀ (r r1 : disk_state), r.total_count < SIZE_MOD → apply_swaps r idxs = some r1 →
      r1.total_count = r.total_count ∧ ∀ c, r1.colors.count c = r.colors.count c := by
  induction idxs with
  | nil =>
    intro r r1 _ h
    simp only [apply_swaps, Option.some.injEq] at h
    rw [← h]
    exact ⟨rfl, fun _ => rfl⟩
  | cons i idxs ih =>
    intro r r1 hr h
    simp only [apply_swaps] at h
    cases hs : r.swap i with
    | none => rw [hs] at h; exact absurd h (by simp)
    | some r2 =>
      rw [hs] at h
      simp only at h
      obtain ⟨ht2, hc2⟩ := swap_preserves r r2 i hr hs
      obtain ⟨ht1, hc1⟩ := ih r2 r1 (by rw [ht2]; exact hr) h
      exact ⟨by rw [ht1, ht2], fun c => by rw [hc1, hc2]⟩

theorem pairs_count (a b : disk_color) (hab : a ≠ b) (N : Nat) :
    (pairs a b N).count a = N ∧ (pairs a b N).count b = N := by
  induction N with
  | zero => simp [pairs]
  | succ N ih =>
    have hba : b ≠ a := fun h => hab h.symm
    simp only [pairs, List.count_cons, ih.1, ih.2, beq_self_eq_true, if_true]
    simp [hab, hba]

theorem row_invariant_of_counts (N : Nat) (r : disk_state) (ht : r.total_count = 2 * N)
    (hl : r.colors.count DISK_LIGHT = N) (hd : r.colors.count DISK_DARK = N) :
    row_invariant N r := by
  refine ⟨ht, hl, hd, ?_, ?_⟩
  · unfold disk_state.light_count; rw [ht, hl]; omega
  · unfold disk_state.dark_count disk_state.light_count; rw [ht, hd]; omega

/-- C14 (amended): for every N >= 1 with 2N < 2^64, every disk row produced by the
constructor followed by any sequence of successful `swap` calls, and every row returned by
`sort_left_to_right` or `sort_lawnmower` on such a row, has length 2N and contains exactly N
light and exactly N dark disks, so `light_count()` and `dark_count()` are the actual numbers
of light and dark disks; for 2N < 2^32 both sorts do return a row. -/
theorem row_invariant_holds (N : Nat) (h1 : 1 ≤ N) (h2 : 2 * N < SIZE_MOD) :
    ∃ r0, disk_state.new N = some r0 ∧ ∀ idxs r, apply_swaps r0 idxs = some r →
      row_invariant N r
        ∧ (∀ res, sort_left_to_right r = some res → row_invariant N res.after)
        ∧ (∀ res, sort_lawnmower r = some res → row_invariant N res.after)
        ∧ (2 * N < UNSIGNED_MOD →
            (∃ res, sort_left_to_right r = some res) ∧ (∃ res, sort_lawnmower r = some res)) := by
  refine ⟨_, new_eq N h1 h2, ?_⟩
  intro idxs r hsw
  have ht0 : (disk_state.mk (pairs DISK_DARK DISK_LIGHT N)).total_count = 2 * N := by
    simp only [disk_state.total_count, pairs_length]
  obtain ⟨hcd, hcl⟩ := pairs_count DISK_DARK DISK_LIGHT (by decide) N
  obtain ⟨ht, hc⟩ := apply_swaps_preserves idxs _ r (by rw [ht0]; exact h2) hsw
  rw [ht0] at ht
  have hl : r.colors.count DISK_LIGHT = N := by rw [hc]; exact hcl
  have hd : r.colors.count DISK_DARK = N := by rw [hc]; exact hcd
  refine ⟨row_invariant_of_counts N r ht hl hd, ?_, ?_, ?_⟩
  · intro res hres
    obtain ⟨ht1, hc1⟩ := sort_left_to_right_preserves r res (by rw [ht]; exact h2) hres
    exact row_invariant_of_counts N _ (by rw [ht1, ht]) (by rw [hc1, hl]) (by rw [hc1, hd])
  · intro res hres
    obtain ⟨ht1, hc1⟩ := sort_lawnmower_preserves r res (by rw [ht]; exact h2) hres
    exact row_invariant_of_counts N _ (by rw [ht1, ht]) (by rw [hc1, hl]) (by rw [hc1, hd])
  · intro h3
    exact ⟨sort_left_to_right_safe r N h3 ht, sort_lawnmower_safe r N h3 h1 ht⟩

theorem row_invariant_holds_witness :
    1 ≤ 2 ∧ 2 * 2 < SIZE_MOD ∧
    ∃ r0, disk_state.new 2 = some r0 ∧ ∀ idxs r, apply_swaps r0 idxs = some r →
      row_invariant 2 r
        ∧ (∀ res, sort_left_to_right r = some res → row_invariant 2 res.after)
        ∧ (∀ res, sort_lawnmower r = some res → row_invariant 2 res.after)
        ∧ (2 * 2 < UNSIGNED_MOD →
            (∃ res, sort_left_to_right r = some res) ∧ (∃ res, sort_lawnmower r = some res)) :=
  ⟨by decide, by decide, row_invariant_holds 2 (by decide) (by decide)⟩

/-- C14 as stated fails at N = 2^63: `light_count * 2` wraps to 0 and the constructor builds
the empty row, which does not have 2N disks and holds no light disk at all. -/
theorem row_invariant_wraps :
    disk_state.new 9223372036854775808 = some ⟨[]⟩
      ∧ apply_swaps ⟨[]⟩ [] = some ⟨[]⟩
      ∧ ¬ row_invariant 9223372036854775808 ⟨[]⟩
      ∧ (disk_state.mk []).colors.count DISK_LIGHT = 0 := by
  refine ⟨by decide, rfl, ?_, rfl⟩
  intro h
  have h0 := h.1
  simp only [disk_state.total_count, List.length_nil] at h0
  omega

/-- C20 (amended): on every disk row of even length 2N with N >= 1, `is_alternating` and
`is_sorted` return without a read outside the row, and when 2N < 2^32 no assertion of `get`
or `swap` fails inside `sort_left_to_right` or `sort_lawnmower`: both return, and the bound
`2*n-i-1` computed by the machine arithmetic is the number 2N-i-1 for every i up to N. -/
theorem accesses_in_bounds (r : disk_state) (N : Nat) (h1 : 1 ≤ N)
    (ht : r.total_count = 2 * N) :
    (∃ b, r.is_alternating = some b) ∧ (∃ b, r.is_sorted = some b)
      ∧ (∀ j, j < 2 * N → j % 2 = 0 → j + 1 < r.total_count)
      ∧ (2 * N < UNSIGNED_MOD →
          (∃ res, sort_left_to_right r = some res) ∧ (∃ res, sort_lawnmower r = some res)
            ∧ ∀ i, i ≤ N → pass_bound N i + i + 1 = 2 * N) := by
  refine ⟨?_, ?_, ?_, ?_⟩
  · rcases is_alternating_spec r N h1 ht with ⟨hr, _⟩ | ⟨hr, _⟩
    · exact ⟨_, hr⟩
    · exact ⟨_, hr⟩
  · rcases is_sorted_spec r N h1 ht with ⟨hr, _⟩ | ⟨hr, _⟩
    · exact ⟨_, hr⟩
    · exact ⟨_, hr⟩
  · intro j hj he; rw [ht]; omega
  · intro h2
    refine ⟨sort_left_to_right_safe r N h2 ht, sort_lawnmower_safe r N h2 h1 ht, ?_⟩
    intro i hi
    rw [pass_bound_eq N i h2 (by omega)]
    omega

theorem accesses_in_bounds_witness :
    (∃ b, (disk_state.mk [DISK_DARK, DISK_DARK, DISK_LIGHT, DISK_LIGHT]).is_alternating = some b)
      ∧ (∃ b, (disk_state.mk [DISK_DARK, DISK_DARK, DISK_LIGHT, DISK_LIGHT]).is_sorted = some b)
      ∧ (∀ j, j < 2 * 2 → j % 2 = 0 →
          j + 1 < (disk_state.mk [DISK_DARK, DISK_DARK, DISK_LIGHT, DISK_LIGHT]).total_count)
      ∧ (2 * 2 < UNSIGNED_MOD →
          (∃ res, sort_left_to_right ⟨[DISK_DARK, DISK_DARK, DISK_LIGHT, DISK_LIGHT]⟩ = some res)
            ∧ (∃ res, sort_lawnmower ⟨[DISK_DARK, DISK_DARK, DISK_LIGHT, DISK_LIGHT]⟩ = some res)
            ∧ ∀ i, i ≤ 2 → pass_bound 2 i + i + 1 = 2 * 2) :=
  accesses_in_bounds ⟨[DISK_DARK, DISK_DARK, DISK_LIGHT, DISK_LIGHT]⟩ 2 (by decide) (by decide)

theorem sorts_wrap (N : Nat) (hN : N = 2147483648) :
    ∃ r, disk_state.new N = some r ∧ r.total_count = 2 * N
      ∧ sort_left_to_right r = none ∧ sort_lawnmower r = none := by
  obtain ⟨b1, hb1, hl⟩ := sort_left_to_right_wraps N hN
  obtain ⟨b2, hb2, hw⟩ := sort_lawnmower_wraps N hN
  have hnew := new_eq N (by omega) (by unfold SIZE_MOD; omega)
  have e1 : b1 = ⟨pairs DISK_DARK DISK_LIGHT N⟩ := by
    rw [hb1] at hnew; exact Option.some.inj hnew
  have e2 : b2 = ⟨pairs DISK_DARK DISK_LIGHT N⟩ := by
    rw [hb2] at hnew; exact Option.some.inj hnew
  refine ⟨_, hnew, ?_, e1 ▸ hl, e2 ▸ hw⟩
  simp only [disk_state.total_count, pairs_length]

/-- C20 as stated fails on the row `disk_state(2^31)` of even length 2^32: `2*n` wraps to 0
in `unsigned` arithmetic, the bound `2*n-i-1` underflows to 2^64-1 and an assertion of `get`
fails in the first pass of either sort. -/
theorem sorts_assert_on_wrapped_row :
    ∃ r, disk_state.new 2147483648 = some r ∧ r.total_count = 2 * 2147483648
      ∧ sort_left_to_right r = none ∧ sort_lawnmower r = none :=
  sorts_wrap 2147483648 rfl

theorem inversions_replicate (a b x : disk_color) (hab : a ≠ b) (n : Nat) :
    inversions a b (List.replicate n x) = 0 := by
  induction n with
  | zero => rfl
  | succ n ih =>
    simp only [List.replicate_succ, inversions, ih, add_zero]
    by_cases hx : x = a
    · subst hx
      rw [if_pos rfl]
      exact List.count_eq_zero_of_not_mem (fun h => hab (List.eq_of_mem_replicate h).symm)
    · rw [if_neg hx]

/-- The sorted row `L^N D^N` has no dark disk before a light one. -/
theorem inversions_sorted (N : Nat) : inversions DISK_DARK DISK_LIGHT (shape N 0 N) = 0 := by
  have e : shape N 0 N = List.replicate N DISK_LIGHT ++ List.replicate N DISK_DARK := by
    simp [shape, pairs]
  rw [e, inversions_append, inversions_replicate _ _ _ (by decide),
    inversions_replicate _ _ _ (by decide)]
  have : (List.replicate N DISK_LIGHT).count DISK_DARK = 0 :=
    List.count_eq_zero_of_not_mem (fun h => by
      have := List.eq_of_mem_replicate h
      exact absurd this (by decide))
  rw [this]
  simp

/-- The alternating row of `N` pairs has `N (N + 1) / 2` dark-before-light inversions. -/
theorem inversions_pairs (N : Nat) :
    2 * inversions DISK_DARK DISK_LIGHT (pairs DISK_DARK DISK_LIGHT N) = N * (N + 1) := by
  induction N with
  | zero => rfl
  | succ N ih =>
    have hc := (pairs_count DISK_DARK DISK_LIGHT (by decide) N).2
    simp only [pairs, inversions, List.count_cons, hc, beq_self_eq_true, if_true]
    simp only [show ¬ (DISK_LIGHT = DISK_DARK) by decide, if_false, zero_add]
    have : 2 * (N + 1 + inversions DISK_DARK DISK_LIGHT (pairs DISK_DARK DISK_LIGHT N))
        = 2 * (N + 1) + N * (N + 1) := by rw [← ih]; ring
    rw [this]; ring

theorem unsigned_of_triangle {N : Nat} (h : N * (N + 1) / 2 < UNSIGNED_MOD) :
    2 * N < UNSIGNED_MOD := by
  have hN : N < 92682 := by
    by_contra hc
    have h1 : 92682 ≤ N := Nat.le_of_not_lt hc
    have h3 : 92682 * 92683 ≤ N * (N + 1) := Nat.mul_le_mul h1 (by omega)
    unfold UNSIGNED_MOD at h
    omega
  unfold UNSIGNED_MOD
  omega

/-- C19: for every N >= 1 with N(N+1)/2 below 2^32, `sort_left_to_right` and
`sort_lawnmower` applied to the freshly constructed row `disk_state(N)` both report exactly
N(N+1)/2 swaps (6 for N = 3): the count is the number of dark-before-light inversions of the
input, and the two algorithms report the same count. -/
theorem swap_count_fresh_row (N : Nat) (h1 : 1 ≤ N) (hT : N * (N + 1) / 2 < UNSIGNED_MOD) :
    (∃ before ltr lawn, disk_state.new N = some before
      ∧ sort_left_to_right before = some ltr ∧ sort_lawnmower before = some lawn
      ∧ ltr.swap_count = N * (N + 1) / 2 ∧ lawn.swap_count = N * (N + 1) / 2
      ∧ ltr.swap_count = inversions DISK_DARK DISK_LIGHT before.colors
      ∧ ltr.swap_count = lawn.swap_count)
    ∧ ((disk_state.new 3).bind sort_left_to_right).map (fun res => res.swap_count) = some 6
    ∧ ((disk_state.new 3).bind sort_lawnmower).map (fun res => res.swap_count) = some 6 := by
  have h2 : 2 * N < UNSIGNED_MOD := unsigned_of_triangle hT
  have hinv := inversions_pairs N
  have hinv2 : inversions DISK_DARK DISK_LIGHT (pairs DISK_DARK DISK_LIGHT N)
      = N * (N + 1) / 2 := by omega
  have ht : (disk_state.mk (pairs DISK_DARK DISK_LIGHT N)).total_count = 2 * N := by
    simp only [disk_state.total_count, pairs_length]
  obtain ⟨w, hs⟩ := sort_left_to_right_pairs N h2
  obtain ⟨v, hl⟩ := sort_lawnmower_pairs N h1 h2
  obtain ⟨a, ha, _, _, hia⟩ := sort_left_to_right_general ⟨pairs DISK_DARK DISK_LIGHT N⟩ N h2 ht
    (by rw [hinv2]; exact hT)
  obtain ⟨b, hb, _, _, hib⟩ := sort_lawnmower_general ⟨pairs DISK_DARK DISK_LIGHT N⟩ N h2 h1 ht
    (by rw [hinv2]; exact hT)
  rw [hs] at ha
  rw [hl] at hb
  have ea : a = ⟨⟨shape N 0 N⟩, w⟩ := (Option.some.inj ha).symm
  have eb : b = ⟨⟨shape N 0 N⟩, v⟩ := (Option.some.inj hb).symm
  subst ea; subst eb
  simp only [inversions_sorted, add_zero] at hia hib
  refine ⟨⟨_, _, _, new_eq N h1 (size_of_unsigned h2), hs, hl, ?_, ?_, ?_, ?_⟩,
    by decide, by decide⟩
  · simp only; rw [hia, hinv2]
  · simp only; rw [hib, hinv2]
  · simp only; rw [hia]
  · simp only; rw [hia, hib]

theorem swap_count_fresh_row_witness :
    1 ≤ 3 ∧ 3 * (3 + 1) / 2 < UNSIGNED_MOD ∧
    ∃ before ltr lawn, disk_state.new 3 = some before
      ∧ sort_left_to_right before = some ltr ∧ sort_lawnmower before = some lawn
      ∧ ltr.swap_count = 3 * (3 + 1) / 2 ∧ lawn.swap_count = 3 * (3 + 1) / 2
      ∧ ltr.swap_count = inversions DISK_DARK DISK_LIGHT before.colors
      ∧ ltr.swap_count = lawn.swap_count :=
  ⟨by decide, by decide, (swap_count_fresh_row 3 (by decide) (by decide)).1⟩

theorem described_step_length (st : List disk_color × Nat) (j : Nat) :
    (described_step st j).1.length = st.1.length := by
  unfold described_step
  split <;> simp

/-- The body of the forward loop at an index inside the row is the described step. -/
theorem forward_pass_step (cnt j : Nat) (s : disk_state) (swaps : Nat)
    (h : j + 1 < s.total_count) (hr : s.total_count < SIZE_MOD) :
    forward_pass (cnt + 1) j s swaps
      = forward_pass cnt (j + 1) ⟨(described_step (s.colors, swaps) j).1⟩
          (described_step (s.colors, swaps) j).2 := by
  obtain ⟨a, b, ha, hb, hs⟩ := swap_eq_some s j h hr
  have hg0 : s.get j = some a := by rw [get_eq_getElem?]; exact ha
  have hg1 : s.get (j + 1) = some b := by rw [get_eq_getElem?]; exact hb
  simp only [forward_pass, hg0, hg1, hs, described_step, ha, hb, Option.some.injEq]
  by_cases hD : a = DISK_DARK
  · by_cases hL : b = DISK_LIGHT
    · subst hD; subst hL
      simp
    · simp [hD, hL]
  · simp [hD]

/-- The body of the backward loop at an index inside the row is the described step at the
left position of the pair. -/
theorem backward_pass_step (k : Nat) (s : disk_state) (swaps : Nat)
    (h : k + 1 < s.total_count) (hr : s.total_count < SIZE_MOD) :
    backward_pass (k + 1) s swaps
      = backward_pass k ⟨(described_step (s.colors, swaps) k).1⟩
          (described_step (s.colors, swaps) k).2 := by
  obtain ⟨a, b, ha, hb, hs⟩ := swap_eq_some s k h hr
  have hg0 : s.get k = some a := by rw [get_eq_getElem?]; exact ha
  have hg1 : s.get (k + 1) = some b := by rw [get_eq_getElem?]; exact hb
  simp only [backward_pass, hg0, hg1, hs, described_step, ha, hb, Option.some.injEq]
  by_cases hL : b = DISK_LIGHT
  · by_cases hD : a = DISK_DARK
    · subst hD; subst hL
      simp
    · simp [hD, hL]
  · simp [hL]

/-- A forward pass inside the row is the fold of the described step over its positions. -/
theorem forward_pass_described (cnt : Nat) :
    ∀ (j : Nat) (s : disk_state) (swaps : Nat), j + cnt < s.total_count →
      s.total_count < SIZE_MOD →
      forward_pass cnt j s swaps
        = some (⟨((List.range' j cnt).foldl described_step (s.colors, swaps)).1⟩,
            ((List.range' j cnt).foldl described_step (s.colors, swaps)).2) := by
  induction cnt with
  | zero => intro j s swaps _ _; rfl
  | succ cnt ih =>
    intro j s swaps hj hr
    have ht : (disk_state.mk (described_step (s.colors, swaps) j).1).total_count
        = s.total_count := described_step_length (s.colors, swaps) j
    rw [forward_pass_step cnt j s swaps (by omega) hr,
      ih (j + 1) _ _ (by rw [ht]; omega) (by rw [ht]; exact hr)]
    rfl

/-- A backward pass inside the row is the fold of the described step over the left
positions `k-1, ..., 0`. -/
theorem backward_pass_described (k : Nat) :
    ∀ (s : disk_state) (swaps : Nat), k < s.total_count → s.total_count < SIZE_MOD →
      backward_pass k s swaps
        = some (⟨((List.range k).reverse.foldl described_step (s.colors, swaps)).1⟩,
            ((List.range k).reverse.foldl described_step (s.colors, swaps)).2) := by
  induction k with
  | zero => intro s swaps _ _; rfl
  | succ k ih =>
    intro s swaps hk hr
    have ht : (disk_state.mk (described_step (s.colors, swaps) k).1).total_count
        = s.total_count := described_step_length (s.colors, swaps) k
    rw [backward_pass_step k s swaps hk hr,
      ih _ _ (by rw [ht]; omega) (by rw [ht]; exact hr)]
    simp only [List.range_succ, List.reverse_append, List.reverse_cons, List.reverse_nil,
      List.nil_append, List.singleton_append, List.foldl_cons]

theorem foldl_described_step_length (js : List Nat) :
    ∀ st : List disk_color × Nat, (js.foldl described_step st).1.length = st.1.length := by
  induction js with
  | nil => intro st; rfl
  | cons j js ih =>
    intro st
    rw [List.foldl_cons, ih, described_step_length]

theorem described_round_trip_length (N : Nat) (st : List disk_color × Nat) (i : Nat) :
    (described_round_trip N st i).1.length = st.1.length := by
  unfold described_round_trip
  simp only [foldl_described_step_length]

/-- The round trips of the lawnmower loop are the described round trips. -/
theorem lawnmower_loop_described (n : Nat) (hn : 2 * n < UNSIGNED_MOD) (cnt : Nat) :
    ∀ (i : Nat) (s : disk_state) (swaps : Nat), i + cnt ≤ 2 * n → s.total_count = 2 * n →
      lawnmower_loop n cnt i s swaps
        = some (⟨((List.range' i cnt).foldl (described_round_trip n) (s.colors, swaps)).1⟩,
            ((List.range' i cnt).foldl (described_round_trip n) (s.colors, swaps)).2) := by
  induction cnt with
  | zero => intro i s swaps _ _; rfl
  | succ cnt ih =>
    intro i s swaps hi ht
    have hb : pass_bound n i = 2 * n - i - 1 := pass_bound_eq n i hn (by omega)
    have hsz : s.total_count < SIZE_MOD := by
      rw [ht]; unfold UNSIGNED_MOD at hn; unfold SIZE_MOD; omega
    have hf := forward_pass_described (2 * n - i - 1) 0 s swaps (by rw [ht]; omega) hsz
    have hlen1 : (disk_state.mk ((List.range' 0 (2 * n - i - 1)).foldl described_step
        (s.colors, swaps)).1).total_count = s.total_count :=
      foldl_described_step_length _ _
    have hk := backward_pass_described (2 * n - i - 1)
      ⟨((List.range' 0 (2 * n - i - 1)).foldl described_step (s.colors, swaps)).1⟩
      ((List.range' 0 (2 * n - i - 1)).foldl described_step (s.colors, swaps)).2
      (by rw [hlen1, ht]; omega) (by rw [hlen1]; exact hsz)
    have hrt : described_round_trip n (s.colors, swaps) i
        = (List.range (2 * n - i - 1)).reverse.foldl described_step
            ((List.range' 0 (2 * n - i - 1)).foldl described_step (s.colors, swaps)) := by
      unfold described_round_trip
      rw [List.range_eq_range']
    have hlen2 : (disk_state.mk (described_round_trip n (s.colors, swaps) i).1).total_count
        = 2 * n := by
      rw [← ht]; exact described_round_trip_length n (s.colors, swaps) i
    rw [lawnmower_loop_succ, hb, hf]
    simp only
    rw [hk]
    simp only
    rw [← hrt, ih (i + 1) _ _ (by omega) hlen2]
    rfl

/-- C18 (amended): for every disk row with N light and N dark disks (N >= 1, 2N < 2^32),
`sort_lawnmower` returns the row and the swap count obtained by performing exactly
N/2 + 1 round trips (N/2 rounded down), where round trip i is a forward pass over the
positions 0..2N-i-2 followed by a backward pass from position 2N-i-1 down to 1, both swapping
a dark disk that sits immediately left of a light disk; for odd N this number of round trips
is N/2 rounded up. -/
theorem sort_lawnmower_round_trips (r : disk_state) (N : Nat) (h1 : 1 ≤ N)
    (h2 : 2 * N < UNSIGNED_MOD)
    (hl : r.colors.count DISK_LIGHT = N) (hd : r.colors.count DISK_DARK = N) :
    sort_lawnmower r
        = some ⟨⟨(described_round_trips N (N / 2 + 1) (r.colors, 0)).1⟩,
            (described_round_trips N (N / 2 + 1) (r.colors, 0)).2⟩
      ∧ (N % 2 = 1 → N / 2 + 1 = (N + 1) / 2) := by
  have ht : r.total_count = 2 * N := by
    unfold disk_state.total_count
    rw [length_eq_count, hl, hd]; omega
  have hnn : (r.total_count / 2) % UNSIGNED_MOD = N := by
    rw [ht, Nat.mul_div_cancel_left N (by decide : 0 < 2)]
    exact Nat.mod_eq_of_lt (by omega)
  have hloop := lawnmower_loop_described N h2 (N / 2 + 1) 0 r 0 (by omega) ht
  refine ⟨?_, fun h => by omega⟩
  unfold sort_lawnmower
  simp only [hnn, hloop]
  unfold described_round_trips
  rw [List.range_eq_range']

theorem sort_lawnmower_round_trips_witness :
    sort_lawnmower ⟨[DISK_DARK, DISK_DARK, DISK_LIGHT, DISK_LIGHT]⟩
        = some ⟨⟨(described_round_trips 2 (2 / 2 + 1)
              ([DISK_DARK, DISK_DARK, DISK_LIGHT, DISK_LIGHT], 0)).1⟩,
            (described_round_trips 2 (2 / 2 + 1)
              ([DISK_DARK, DISK_DARK, DISK_LIGHT, DISK_LIGHT], 0)).2⟩
      ∧ (2 % 2 = 1 → 2 / 2 + 1 = (2 + 1) / 2) :=
  sort_lawnmower_round_trips ⟨[DISK_DARK, DISK_DARK, DISK_LIGHT, DISK_LIGHT]⟩ 2
    (by decide) (by decide) (by decide) (by decide)

/-- C18 as stated fails on the row `D D L L` (N = 2, reached from `disk_state(2)` by
`swap(1)`): one round trip, N/2 rounded up, gives `L D L D` with 3 swaps, while
`sort_lawnmower` makes N/2 + 1 = 2 round trips and returns `L L D D` with 4 swaps; and on the
row `disk_state(2^31)` it returns nothing, the bound `2*n-i-1` having wrapped. -/
theorem sort_lawnmower_round_trips_differ :
    (disk_state.new 2).bind (fun r => r.swap 1)
        = some ⟨[DISK_DARK, DISK_DARK, DISK_LIGHT, DISK_LIGHT]⟩
      ∧ (2 + 1) / 2 = 1
      ∧ described_round_trips 2 ((2 + 1) / 2) ([DISK_DARK, DISK_DARK, DISK_LIGHT, DISK_LIGHT], 0)
          = ([DISK_LIGHT, DISK_DARK, DISK_LIGHT, DISK_DARK], 3)
      ∧ sort_lawnmower ⟨[DISK_DARK, DISK_DARK, DISK_LIGHT, DISK_LIGHT]⟩
          = some ⟨⟨[DISK_LIGHT, DISK_LIGHT, DISK_DARK, DISK_DARK]⟩, 4⟩
      ∧ ∃ r, disk_state.new 2147483648 = some r ∧ sort_lawnmower r = none :=
  ⟨by decide, by decide, by decide, by decide, sort_lawnmower_wraps 2147483648 rfl⟩

end Disks

namespace Subsequence

/-- One recorded iteration that does not reach depth 0. -/
theorem powerset_visits_step (A : sequence) (n fuel : Nat) (stack stack1 : List Nat)
    (k k1 : Nat) (candidate : sequence) (ha : advance n stack k = some (stack1, k1))
    (hk : k1 ≠ 0) (hc : build_candidate A stack1 k1 1 [] = some candidate) :
    powerset_visits A n (fuel + 1) stack k
      = (powerset_visits A n fuel stack1 k1).map
          (fun rest => ((stack1.drop 1).take k1, candidate) :: rest) := by
  simp only [powerset_visits, ha, hk, if_false, hc]
  cases powerset_visits A n fuel stack1 k1 <;> rfl

/-- The recorded iteration that reaches depth 0 ends the record. -/
theorem powerset_visits_stop (A : sequence) (n fuel : Nat) (stack stack1 : List Nat) (k : Nat)
    (ha : advance n stack k = some (stack1, 0)) :
    powerset_visits A n (fuel + 1) stack k = some [] := by
  simp only [powerset_visits, ha, if_true]

theorem drop_one_take (h : Nat) (q junk : List Nat) :
    (((h :: q) ++ junk).drop 1).take q.length = q := by
  simp

/-- The recorded form of the climb: from a stack whose top entry is `m`, the loop records the
`extensions` of the current selection, each with its candidate. -/
theorem powerset_visits_climb (A : sequence) (hA : A.length + 1 < SIZE_MOD) (d : Nat) :
    ∀ (tl : List Nat) (m : Nat) (junk : List Nat) (fuel h : Nat),
      m + d = A.length → 1 ≤ m → (∀ s ∈ tl, 1 ≤ s ∧ s ≤ A.length) → d ≤ junk.length →
      tl.length + junk.length + 2 < SIZE_MOD →
      ∃ junk1, junk1.length = junk.length ∧
        powerset_visits A A.length (fuel + (2 ^ (d + 1) - 2)) ((h :: tl) ++ m :: junk)
            (tl.length + 1)
          = (powerset_visits A A.length fuel ((h :: tl) ++ A.length :: junk1)
              (tl.length + 1)).map
              (fun rest => (extensions d tl m).map (fun p => (p, pick A p)) ++ rest) := by
  induction d with
  | zero =>
    intro tl m junk fuel h hm _ _ _ _
    have : m = A.length := by omega
    subst this
    refine ⟨junk, rfl, ?_⟩
    simp only [extensions, List.map_nil, List.nil_append, zero_add, pow_one, Nat.sub_self,
      add_zero]
    cases powerset_visits A A.length fuel ((h :: tl) ++ A.length :: junk) (tl.length + 1) <;> rfl
  | succ d ih =>
    intro tl m junk fuel h hm hm1 htl hj hlen
    obtain ⟨j, junk1, rfl⟩ : ∃ j junk1, junk = j :: junk1 := by
      cases junk with
      | nil => simp at hj
      | cons j junk1 => exact ⟨j, junk1, rfl⟩
    simp only [List.length_cons] at hj hlen
    have hP : 2 ≤ 2 ^ (d + 1) := by
      have := Nat.one_le_two_pow (n := d)
      rw [pow_succ]; omega
    have hP2 : 2 ^ (d + 1 + 1) = 2 * 2 ^ (d + 1) := by rw [pow_succ]; ring
    -- the push
    have hpush := advance_push A.length (h :: tl) m j junk1 (by omega) (by omega)
      (by simp only [List.length_cons]; omega)
    simp only [List.length_cons] at hpush
    have hcand1 : build_candidate A (((h :: tl) ++ [m]) ++ (m + 1) :: junk1) (tl.length + 1 + 1)
        1 [] = some (pick A (tl ++ [m, m + 1])) := by
      have := build_candidate_eq A (by omega) (tl ++ [m, m + 1]) [h] junk1 []
        (by
          intro s hs
          rcases List.mem_append.mp hs with hs | hs
          · exact htl s hs
          · simp only [List.mem_cons, List.mem_singleton, List.not_mem_nil, or_false] at hs
            rcases hs with rfl | rfl <;> omega)
      simpa using this
    have hpos1 : ((((h :: tl) ++ [m]) ++ (m + 1) :: junk1).drop 1).take (tl.length + 1 + 1)
        = tl ++ [m, m + 1] := by
      have := drop_one_take h (tl ++ [m, m + 1]) junk1
      simpa using this
    have hstep1 := powerset_visits_step A A.length
      (fuel + (2 ^ (d + 1) - 2) + 1 + (2 ^ (d + 1) - 2)) _ _ _ _ _ hpush (by omega) hcand1
    rw [hpos1] at hstep1
    -- the extensions of `tl ++ [m]`
    obtain ⟨junk2, hj2, hclimb1⟩ := ih (tl ++ [m]) (m + 1) junk1
      (fuel + (2 ^ (d + 1) - 2) + 1) h (by omega) (by omega)
      (by
        intro s hs
        rcases List.mem_append.mp hs with hs | hs
        · exact htl s hs
        · simp only [List.mem_singleton] at hs
          subst hs; omega)
      (by omega) (by simp only [List.length_append, List.length_cons, List.length_nil]; omega)
    -- the pop
    have hpop := advance_pop A.length (h :: tl) m A.length junk2 (by omega) (by omega)
      (by simp only [List.length_cons]; omega)
    simp only [List.length_cons] at hpop
    have hcand2 : build_candidate A ((h :: tl) ++ (m + 1) :: A.length :: junk2) (tl.length + 1)
        1 [] = some (pick A (tl ++ [m + 1])) := by
      have := build_candidate_eq A (by omega) (tl ++ [m + 1]) [h] (A.length :: junk2) []
        (by
          intro s hs
          rcases List.mem_append.mp hs with hs | hs
          · exact htl s hs
          · simp only [List.mem_singleton] at hs
            subst hs; omega)
      simpa using this
    have hpos2 : (((h :: tl) ++ (m + 1) :: A.length :: junk2).drop 1).take (tl.length + 1)
        = tl ++ [m + 1] := by
      have := drop_one_take h (tl ++ [m + 1]) (A.length :: junk2)
      simpa using this
    have hstep2 := powerset_visits_step A A.length (fuel + (2 ^ (d + 1) - 2)) _ _ _ _ _ hpop
      (by omega) hcand2
    rw [hpos2] at hstep2
    -- the extensions of `tl` with top entry `m + 1`
    obtain ⟨junk3, hj3, hclimb2⟩ := ih tl (m + 1) (A.length :: junk2) fuel h
      (by omega) (by omega) htl (by simp only [List.length_cons]; omega)
      (by simp only [List.length_cons]; omega)
    refine ⟨junk3, by simp only [hj3, List.length_cons, hj2], ?_⟩
    have hfuel : fuel + (2 ^ (d + 1 + 1) - 2)
        = fuel + (2 ^ (d + 1) - 2) + 1 + (2 ^ (d + 1) - 2) + 1 := by omega
    have e1 : (h :: (tl ++ [m])) ++ (m + 1) :: junk1 = ((h :: tl) ++ [m]) ++ (m + 1) :: junk1 := by
      simp
    have e2 : (h :: (tl ++ [m])) ++ A.length :: junk2 = (h :: tl) ++ m :: A.length :: junk2 := by
      simp
    simp only [List.length_append, List.length_cons, List.length_nil, zero_add] at hclimb1
    rw [e1, e2] at hclimb1
    rw [hfuel, hstep1, hclimb1, hstep2, hclimb2]
    cases powerset_visits A A.length fuel ((h :: tl) ++ A.length :: junk3) (tl.length + 1) with
    | none => rfl
    | some rest =>
      simp only [Option.map_some', extensions, List.map_cons, List.map_append, List.cons_append,
        List.append_assoc]

/-- On a non-empty sequence the loop records exactly the `selections`, each with the values
of `A` at its positions, and stops in its `2 ^ n`-th iteration, not before. -/
theorem powerset_visits_eq (A : sequence) (h1 : 1 ≤ A.length) (hA : A.length + 1 < SIZE_MOD) :
    powerset_visits A A.length (2 ^ A.length) (List.replicate (size_add A.length 1) 0) 0
        = some ((selections A.length).map (fun p => (p, pick A p)))
      ∧ powerset_visits A A.length (2 ^ A.length - 1) (List.replicate (size_add A.length 1) 0) 0
        = none := by
  obtain ⟨n, hn⟩ : ∃ n, A.length = n + 1 := ⟨A.length - 1, by omega⟩
  have hP : 2 ≤ 2 ^ (n + 1) := by
    have := Nat.one_le_two_pow (n := n)
    rw [pow_succ]; omega
  have hpush := advance_push A.length [] 0 0 (List.replicate n 0) (by omega) (by omega)
    (by unfold SIZE_MOD; simp)
  have hcand : build_candidate A (([] ++ [0]) ++ (0 + 1) :: List.replicate n 0) 1 1 []
      = some (pick A [1]) := by
    have := build_candidate_eq A (by omega) [1] [0] (List.replicate n 0) []
      (by intro s hs; simp only [List.mem_singleton] at hs; subst hs; omega)
    simpa using this
  have hpos : (((([] : List Nat) ++ [0]) ++ (0 + 1) :: List.replicate n 0).drop 1).take
      (([] : List Nat).length + 1) = [1] := by simp
  have hstack : List.replicate (size_add A.length 1) 0 = [] ++ 0 :: 0 :: List.replicate n 0 := by
    rw [size_add_eq hA, hn]
    simp [List.replicate_succ]
  have hsel : selections A.length = [1] :: extensions n [] 1 := by
    simp only [selections, hn, Nat.add_sub_cancel]
  refine ⟨?_, ?_⟩
  · have hstep := powerset_visits_step A A.length (1 + (2 ^ (n + 1) - 2)) _ _ _ _ _ hpush
      (by simp) hcand
    rw [hpos] at hstep
    obtain ⟨junk, _, hclimb⟩ := powerset_visits_climb A hA n [] 1 (List.replicate n 0) 1 0
      (by omega) (by omega) (by simp) (by simp)
      (by simp only [List.length_nil, List.length_replicate]; omega)
    have hpop := advance_pop A.length [] 0 A.length junk (by omega) (by unfold SIZE_MOD; omega)
      (by unfold SIZE_MOD; simp)
    have hstop := powerset_visits_stop A A.length 0 _ _ _ hpop
    have hfuel : 2 ^ A.length = 1 + (2 ^ (n + 1) - 2) + 1 := by rw [hn]; omega
    rw [hstack, hfuel]
    simp only [List.length_nil, List.nil_append, zero_add, List.singleton_append]
      at hstep hclimb hstop ⊢
    rw [hstep, hclimb, hstop, hsel]
    simp
  · have hstep := powerset_visits_step A A.length (0 + (2 ^ (n + 1) - 2)) _ _ _ _ _ hpush
      (by simp) hcand
    rw [hpos] at hstep
    obtain ⟨junk, _, hclimb⟩ := powerset_visits_climb A hA n [] 1 (List.replicate n 0) 0 0
      (by omega) (by omega) (by simp) (by simp)
      (by simp only [List.length_nil, List.length_replicate]; omega)
    have hfuel : 2 ^ A.length - 1 = 0 + (2 ^ (n + 1) - 2) + 1 := by rw [hn]; omega
    rw [hstack, hfuel]
    simp only [List.length_nil, List.nil_append, zero_add, List.singleton_append]
      at hstep hclimb ⊢
    rw [hstep, hclimb]
    simp [powerset_visits]

theorem extensions_length (d : Nat) :
    ∀ (p : List Nat) (m : Nat), (extensions d p m).length = 2 ^ (d + 1) - 2 := by
  induction d with
  | zero => intro p m; rfl
  | succ d ih =>
    intro p m
    have hP : 2 ≤ 2 ^ (d + 1) := by
      have := Nat.one_le_two_pow (n := d)
      rw [pow_succ]; omega
    have hP2 : 2 ^ (d + 1 + 1) = 2 * 2 ^ (d + 1) := by rw [pow_succ]; ring
    simp only [extensions, List.length_cons, List.length_append, ih]
    omega

theorem selections_length (n : Nat) (hn : 1 ≤ n) : (selections n).length = 2 ^ n - 1 := by
  obtain ⟨k, rfl⟩ : ∃ k, n = k + 1 := ⟨n - 1, by omega⟩
  have hP : 2 ≤ 2 ^ (k + 1) := by
    have := Nat.one_le_two_pow (n := k)
    rw [pow_succ]; omega
  simp only [selections, List.length_cons, Nat.add_sub_cancel, extensions_length]
  omega

/-- Every visited extension of `p ++ [m]` continues `p` with `m` and more, or with a larger
position. -/
theorem extensions_shape (d : Nat) :
    ∀ (p : List Nat) (m : Nat) (q : List Nat), q ∈ extensions d p m →
      ∃ x u, q = p ++ x :: u ∧ ((x = m ∧ u ≠ []) ∨ m < x) := by
  induction d with
  | zero => intro p m q hq; simp [extensions] at hq
  | succ d ih =>
    intro p m q hq
    simp only [extensions, List.mem_cons, List.mem_append] at hq
    rcases hq with rfl | hq | rfl | hq
    · exact ⟨m, [m + 1], rfl, Or.inl ⟨rfl, by simp⟩⟩
    · obtain ⟨x, u, rfl, _⟩ := ih (p ++ [m]) (m + 1) q hq
      exact ⟨m, x :: u, by simp, Or.inl ⟨rfl, by simp⟩⟩
    · exact ⟨m + 1, [], rfl, Or.inr (by omega)⟩
    · obtain ⟨x, u, rfl, hx⟩ := ih p (m + 1) q hq
      exact ⟨x, u, rfl, Or.inr (by rcases hx with ⟨rfl, _⟩ | hx <;> omega)⟩

theorem lex_of_shape (p : List Nat) (m x : Nat) (u : List Nat)
    (h : (x = m ∧ u ≠ []) ∨ m < x) : List.Lex (· < ·) (p ++ [m]) (p ++ x :: u) := by
  apply List.Lex.append_left
  rcases h with ⟨rfl, hu⟩ | h
  · cases u with
    | nil => exact absurd rfl hu
    | cons y u => exact List.Lex.cons List.Lex.nil
  · exact List.Lex.rel h

/-- The visits come in lexicographic order of the position lists. -/
theorem extensions_pairwise (d : Nat) :
    ∀ (p : List Nat) (m : Nat), (extensions d p m).Pairwise (List.Lex (· < ·)) := by
  induction d with
  | zero => intro p m; simp [extensions]
  | succ d ih =>
    intro p m
    have hE1 : ∀ q ∈ extensions d (p ++ [m]) (m + 1), ∃ x u, q = p ++ m :: x :: u := by
      intro q hq
      obtain ⟨x, u, rfl, _⟩ := extensions_shape d (p ++ [m]) (m + 1) q hq
      exact ⟨x, u, by simp⟩
    have hE2 : ∀ q ∈ extensions d p (m + 1), ∃ x u, q = p ++ x :: u ∧ m < x := by
      intro q hq
      obtain ⟨x, u, rfl, hx⟩ := extensions_shape d p (m + 1) q hq
      exact ⟨x, u, rfl, by rcases hx with ⟨rfl, _⟩ | hx <;> omega⟩
    simp only [extensions]
    rw [List.pairwise_cons, List.pairwise_append, List.pairwise_cons]
    refine ⟨?_, ih _ _, ⟨?_, ih _ _⟩, ?_⟩
    · intro q hq
      rcases List.mem_append.mp hq with hq | hq
      · obtain ⟨x, u, rfl, hx⟩ := extensions_shape d (p ++ [m]) (m + 1) q hq
        have := lex_of_shape (p ++ [m]) (m + 1) x u hx
        simpa using this
      · rcases List.mem_cons.mp hq with rfl | hq
        · exact List.Lex.append_left _ (List.Lex.rel (by omega)) p
        · obtain ⟨x, u, rfl, hx⟩ := hE2 q hq
          exact List.Lex.append_left _ (List.Lex.rel hx) p
    · intro q hq
      obtain ⟨x, u, rfl, hx⟩ := extensions_shape d p (m + 1) q hq
      exact lex_of_shape p (m + 1) x u hx
    · intro a ha b hb
      obtain ⟨x, u, rfl⟩ := hE1 a ha
      rcases List.mem_cons.mp hb with rfl | hb
      · exact List.Lex.append_left _ (List.Lex.rel (by omega)) p
      · obtain ⟨y, v, rfl, hy⟩ := hE2 b hb
        exact List.Lex.append_left _ (List.Lex.rel hy) p

theorem selections_pairwise (n : Nat) : (selections n).Pairwise (List.Lex (· < ·)) := by
  simp only [selections]
  rw [List.pairwise_cons]
  refine ⟨?_, extensions_pairwise _ _ _⟩
  intro q hq
  obtain ⟨x, u, rfl, hx⟩ := extensions_shape (n - 1) [] 1 q hq
  exact lex_of_shape [] 1 x u hx

theorem selections_nodup (n : Nat) : (selections n).Nodup := by
  have := selections_pairwise n
  exact this.imp (fun {a b} h =>
    List.Lex.to_ne (List.Lex.imp (fun _ _ hlt => Nat.ne_of_lt hlt) a b h))

/-- C17: for every sequence of length n >= 1 (the size of a vector fits a `size_t`), the loop
of `longest_increasing_powerset` builds a candidate for every non-empty strictly increasing
list of positions drawn from 1..n, each exactly once (none is recorded twice) and nothing
else, 2^n - 1 candidates in total, in lexicographic order of the position lists, and it
stops, with the stack depth back at 0, in iteration 2^n and not before; the returned sequence
is the fold of the best-update over these candidates. -/
theorem powerset_visits_all (A : sequence) (hne : A ≠ []) (hA : A.length + 1 < SIZE_MOD) :
    ∃ visits,
      powerset_visits A A.length (2 ^ A.length) (List.replicate (size_add A.length 1) 0) 0
          = some visits
        ∧ powerset_visits A A.length (2 ^ A.length - 1)
            (List.replicate (size_add A.length 1) 0) 0 = none
        ∧ visits.length = 2 ^ A.length - 1
        ∧ (∀ p : List Nat, p ≠ [] → p.Pairwise (· < ·) → (∀ s ∈ p, 1 ≤ s ∧ s ≤ A.length) →
            p ∈ visits.map Prod.fst)
        ∧ (visits.map Prod.fst).Nodup
        ∧ (∀ v ∈ visits, v.1 ≠ [] ∧ v.1.Pairwise (· < ·) ∧ (∀ s ∈ v.1, 1 ≤ s ∧ s ≤ A.length)
            ∧ v.2 = v.1.map (fun s => A.getD (s - 1) 0))
        ∧ (visits.map Prod.fst).Pairwise (List.Lex (· < ·))
        ∧ longest_increasing_powerset A
            = outcome.value (List.foldl update [] (visits.map Prod.snd)) := by
  have h1 : 1 ≤ A.length := length_pos_of_ne_nil A hne
  obtain ⟨hv, hnone⟩ := powerset_visits_eq A h1 hA
  have hfst : ((selections A.length).map (fun p => (p, pick A p))).map Prod.fst
      = selections A.length := by
    simp [Function.comp_def]
  have hsnd : ((selections A.length).map (fun p => (p, pick A p))).map Prod.snd
      = (selections A.length).map (pick A) := by
    rw [List.map_map]; rfl
  refine ⟨_, hv, hnone, ?_, ?_, ?_, ?_, ?_, ?_⟩
  · rw [List.length_map, selections_length A.length h1]
  · intro p hp hpair hrange
    rw [hfst]
    exact selections_complete A.length p hp hpair hrange
  · rw [hfst]; exact selections_nodup A.length
  · intro v hv
    obtain ⟨p, hp, rfl⟩ := List.mem_map.mp hv
    obtain ⟨h2, h3, h4⟩ := selections_sound A.length h1 p hp
    exact ⟨h2, h3, h4, rfl⟩
  · rw [hfst]; exact selections_pairwise A.length
  · rw [hsnd]; exact longest_increasing_powerset_eq A h1 hA

theorem powerset_visits_all_witness :
    ∃ visits,
      powerset_visits [3, 1, 2] ([3, 1, 2] : sequence).length
          (2 ^ ([3, 1, 2] : sequence).length)
          (List.replicate (size_add ([3, 1, 2] : sequence).length 1) 0) 0 = some visits
        ∧ powerset_visits [3, 1, 2] ([3, 1, 2] : sequence).length
            (2 ^ ([3, 1, 2] : sequence).length - 1)
            (List.replicate (size_add ([3, 1, 2] : sequence).length 1) 0) 0 = none
        ∧ visits.length = 2 ^ ([3, 1, 2] : sequence).length - 1
        ∧ (∀ p : List Nat, p ≠ [] → p.Pairwise (· < ·)
            → (∀ s ∈ p, 1 ≤ s ∧ s ≤ ([3, 1, 2] : sequence).length)
            → p ∈ visits.map Prod.fst)
        ∧ (visits.map Prod.fst).Nodup
        ∧ (∀ v ∈ visits, v.1 ≠ [] ∧ v.1.Pairwise (· < ·)
            ∧ (∀ s ∈ v.1, 1 ≤ s ∧ s ≤ ([3, 1, 2] : sequence).length)
            ∧ v.2 = v.1.map (fun s => ([3, 1, 2] : sequence).getD (s - 1) 0))
        ∧ (visits.map Prod.fst).Pairwise (List.Lex (· < ·))
        ∧ longest_increasing_powerset [3, 1, 2]
            = outcome.value (List.foldl update [] (visits.map Prod.snd)) :=
  powerset_visits_all [3, 1, 2] (by decide) (by decide)

theorem update_selection_pick (A : sequence) (best p : List Nat) :
    pick A (update_selection A best p) = update (pick A best) (pick A p) := by
  unfold update_selection update
  simp only [pick_length]
  split <;> rfl

theorem foldl_update_selection_pick (A : sequence) (sels : List (List Nat)) :
    ∀ best, pick A (List.foldl (update_selection A) best sels)
      = List.foldl update (pick A best) (sels.map (pick A)) := by
  induction sels with
  | nil => intro best; rfl
  | cons p sels ih =>
    intro best
    simp only [List.foldl_cons, List.map_cons, ih, update_selection_pick]

theorem update_selection_pos (A : sequence) (best p : List Nat)
    (h1 : (pick A p).Chain' (· < ·)) (h2 : best.length < p.length) :
    update_selection A best p = p := by
  unfold update_selection
  rw [if_pos (by simp [h1, h2])]

theorem update_selection_neg (A : sequence) (best p : List Nat)
    (h : ¬ ((pick A p).Chain' (· < ·) ∧ best.length < p.length)) :
    update_selection A best p = best := by
  unfold update_selection
  rw [if_neg (by simpa using h)]

theorem update_selection_length_le (A : sequence) (best p : List Nat) :
    best.length ≤ (update_selection A best p).length := by
  unfold update_selection
  split
  · rename_i h
    simp only [Bool.and_eq_true, decide_eq_true_eq] at h
    omega
  · exact Nat.le_refl _

theorem foldl_update_selection_length_le (A : sequence) (sels : List (List Nat)) :
    ∀ best, best.length ≤ (List.foldl (update_selection A) best sels).length := by
  induction sels with
  | nil => intro best; exact Nat.le_refl _
  | cons p sels ih =>
    intro best
    exact le_trans (update_selection_length_le A best p) (ih _)

/-- A fold that ends with the length it started with has replaced nothing. -/
theorem foldl_update_selection_eq (A : sequence) (sels : List (List Nat)) :
    ∀ best, (List.foldl (update_selection A) best sels).length = best.length →
      List.foldl (update_selection A) best sels = best := by
  induction sels with
  | nil => intro best _; rfl
  | cons p sels ih =>
    intro best h
    simp only [List.foldl_cons] at h ⊢
    have h1 := update_selection_length_le A best p
    have h2 := foldl_update_selection_length_le A sels (update_selection A best p)
    have h3 : update_selection A best p = best := by
      by_cases hc : (pick A p).Chain' (· < ·) ∧ best.length < p.length
      · rw [update_selection_pos A best p hc.1 hc.2] at h2 h
        omega
      · exact update_selection_neg A best p hc
    rw [h3] at h ⊢
    exact ih best h

theorem foldl_update_selection_mem (A : sequence) (sels : List (List Nat)) :
    ∀ best, List.foldl (update_selection A) best sels = best
      ∨ (List.foldl (update_selection A) best sels ∈ sels
        ∧ (pick A (List.foldl (update_selection A) best sels)).Chain' (· < ·)) := by
  induction sels with
  | nil => intro best; exact Or.inl rfl
  | cons p sels ih =>
    intro best
    rcases ih (update_selection A best p) with h | ⟨h1, h2⟩
    · simp only [List.foldl_cons, h]
      unfold update_selection
      split
      · rename_i hc
        simp only [Bool.and_eq_true, decide_eq_true_eq] at hc
        exact Or.inr ⟨List.mem_cons_self _ _, hc.1⟩
      · exact Or.inl rfl
    · exact Or.inr ⟨List.mem_cons_of_mem _ h1, h2⟩

/-- The fold keeps the first of the strictly increasing selections of its final length: any
other one of that length comes later in the list. -/
theorem foldl_update_selection_first (A : sequence) (R : List Nat → List Nat → Prop)
    (sels : List (List Nat)) :
    sels.Pairwise R → ∀ best p, p ∈ sels → (pick A p).Chain' (· < ·) →
      p.length = (List.foldl (update_selection A) best sels).length → best.length < p.length →
      List.foldl (update_selection A) best sels = p
        ∨ R (List.foldl (update_selection A) best sels) p := by
  induction sels with
  | nil => intro _ best p hp; simp at hp
  | cons p0 sels ih =>
    intro hpw best p hp hinc hlen hlt
    obtain ⟨hp0, hpw1⟩ := List.pairwise_cons.mp hpw
    simp only [List.foldl_cons] at hlen ⊢
    have hmono := foldl_update_selection_length_le A sels (update_selection A best p0)
    by_cases hb : (update_selection A best p0).length < p.length
    · have hpin : p ∈ sels := by
        rcases List.mem_cons.mp hp with rfl | h
        · exfalso
          rw [update_selection_pos A best p hinc hlt] at hb
          omega
        · exact h
      exact ih hpw1 _ p hpin hinc hlen hb
    · have heq : (List.foldl (update_selection A) (update_selection A best p0) sels).length
          = (update_selection A best p0).length := by omega
      have hq := foldl_update_selection_eq A sels _ heq
      rw [hq]
      have hupd : update_selection A best p0 = p0 := by
        by_cases hc : (pick A p0).Chain' (· < ·) ∧ best.length < p0.length
        · exact update_selection_pos A best p0 hc.1 hc.2
        · exfalso
          rw [update_selection_neg A best p0 hc] at hb
          omega
      rw [hupd]
      rcases List.mem_cons.mp hp with rfl | h
      · exact Or.inl rfl
      · exact Or.inr (hp0 p h)

theorem update_of_length_le (best candidate : sequence) (h : candidate.length ≤ best.length) :
    update best candidate = best := by
  unfold update
  rw [if_neg (by simp; intro _; omega)]

/-- C16: for every non-empty A (the size of a vector fits a `size_t`), the returned sequence
is the candidate of a strictly increasing selection of positions (1-based, as on the index
stack) of maximal length, and among all such selections of maximal length it is the one whose
list of positions is lexicographically smallest, the first one the enumeration finds;
`[1,3,2]` yields `[1,3]`; and in the loop a candidate that is not longer than the current
best never replaces it. -/
theorem longest_increasing_powerset_first (A : sequence) (hne : A ≠ [])
    (hA : A.length + 1 < SIZE_MOD) :
    (∃ q : List Nat, q ≠ [] ∧ q.Pairwise (· < ·) ∧ (∀ s ∈ q, 1 ≤ s ∧ s ≤ A.length)
      ∧ longest_increasing_powerset A = outcome.value (q.map (fun s => A.getD (s - 1) 0))
      ∧ is_increasing (q.map (fun s => A.getD (s - 1) 0)) = some true
      ∧ ∀ p : List Nat, p.Pairwise (· < ·) → (∀ s ∈ p, 1 ≤ s ∧ s ≤ A.length) →
          is_increasing (p.map (fun s => A.getD (s - 1) 0)) = some true →
          p.length ≤ q.length ∧ (p.length = q.length → q = p ∨ List.Lex (· < ·) q p))
    ∧ longest_increasing_powerset [1, 3, 2] = outcome.value [1, 3]
    ∧ (∀ (fuel : Nat) (stack stack1 : List Nat) (k k1 : Nat) (best candidate : sequence),
        advance A.length stack k = some (stack1, k1) → k1 ≠ 0 →
        build_candidate A stack1 k1 1 [] = some candidate →
        candidate.length ≤ best.length →
        powerset_loop A A.length (fuel + 1) stack k best
          = powerset_loop A A.length fuel stack1 k1 best) := by
  have h1 : 1 ≤ A.length := length_pos_of_ne_nil A hne
  have heq := longest_increasing_powerset_eq A h1 hA
  have hpick := foldl_update_selection_pick A (selections A.length) []
  have hpick0 : pick A [] = [] := rfl
  rw [hpick0] at hpick
  have hlong : ∀ p ∈ selections A.length, (pick A p).Chain' (· < ·) →
      p.length ≤ (List.foldl (update_selection A) [] (selections A.length)).length := by
    intro p hp hinc
    have := foldl_update_longest ((selections A.length).map (pick A)) [] (pick A p)
      (List.mem_map_of_mem _ hp) hinc
    rw [← hpick, pick_length, pick_length] at this
    exact this
  have hfirst : [1] ∈ selections A.length := by simp [selections]
  have hge1 := hlong [1] hfirst (by simp [pick])
  simp only [List.length_singleton] at hge1
  refine ⟨?_, by decide, ?_⟩
  · rcases foldl_update_selection_mem A (selections A.length) [] with h | ⟨hmem, hinc⟩
    · rw [h] at hge1; simp at hge1
    · obtain ⟨hq1, hq2, hq3⟩ := selections_sound A.length h1 _ hmem
      refine ⟨_, hq1, hq2, hq3, ?_, ?_, ?_⟩
      · rw [heq, ← hpick]; rfl
      · rw [is_increasing_eq]
        simpa [pick] using hinc
      · intro p hp1 hp2 hp3
        rw [is_increasing_eq] at hp3
        have hpinc : (pick A p).Chain' (· < ·) := by simpa [pick] using hp3
        by_cases hnil : p = []
        · subst hnil
          refine ⟨Nat.zero_le _, fun h => ?_⟩
          exfalso
          simp only [List.length_nil] at h
          omega
        · have hpm := selections_complete A.length p hnil hp1 hp2
          refine ⟨hlong p hpm hpinc, fun hlen => ?_⟩
          exact foldl_update_selection_first A (List.Lex (· < ·)) (selections A.length)
            (selections_pairwise A.length) [] p hpm hpinc hlen
            (by
              simp only [List.length_nil]
              exact List.length_pos.mpr hnil)
  · intro fuel stack stack1 k k1 best candidate ha hk hc hlen
    rw [powerset_loop_step A A.length fuel stack stack1 k k1 best candidate ha hk hc,
      update_of_length_le best candidate hlen]

theorem longest_increasing_powerset_first_witness :
    ∃ q : List Nat, q ≠ [] ∧ q.Pairwise (· < ·)
      ∧ (∀ s ∈ q, 1 ≤ s ∧ s ≤ ([1, 3, 2] : sequence).length)
      ∧ longest_increasing_powerset [1, 3, 2]
          = outcome.value (q.map (fun s => ([1, 3, 2] : sequence).getD (s - 1) 0))
      ∧ is_increasing (q.map (fun s => ([1, 3, 2] : sequence).getD (s - 1) 0)) = some true
      ∧ ∀ p : List Nat, p.Pairwise (· < ·)
          → (∀ s ∈ p, 1 ≤ s ∧ s ≤ ([1, 3, 2] : sequence).length)
          → is_increasing (p.map (fun s => ([1, 3, 2] : sequence).getD (s - 1) 0)) = some true
          → p.length ≤ q.length ∧ (p.length = q.length → q = p ∨ List.Lex (· < ·) q p) :=
  (longest_increasing_powerset_first [1, 3, 2] (by decide) (by decide)).1

end Subsequence
